import Mathlib

/-!
# HyPhy batch language: segmenter, function registry, builders and runs

A shallow embedding of `_ElementaryCommand::FindNextCommand` and
`_ElementaryCommand::ExtractConditions`, of the registry of user functions
(`FindBFFunctionName`, `ClearBFFunctionLists`, the update at the end of
`ConstructFunction`), of `MakeJumpCommand`, `ExecuteCase4` and the return
statement, of the loop builder `MakeGeneralizedLoop`, of the builders
`BuildDoWhile` and `BuildIfThenElse`, of `ConstructFunction`, of `BuildList`,
of `_ExecutionList::Execute`, of `TryToMakeSimple`, of `ReportAnExecutionError`,
of `TrimNameSpaceFromID` and of the merge of data sets
(`src/core/batchlan.cpp`), together with the properties of the specification
that concern them.

Strings are lists of characters.  `long` counters are `Int`; scan positions,
which the loops only ever increase from a non-negative start, are `Nat`.
Code that is declared outside `src/` (the formula parser and evaluator, the
keyword tries behind `BuildList`) enters as explicit arguments.
-/

namespace HyPhy

/-! ## Characters and the C character classes -/

/-- The NUL character, the value of an out-of-range bounds-checked read. -/
def chNul : Char := Char.ofNat 0
/-- The double quote character. -/
def chDQuote : Char := Char.ofNat 34
/-- The single quote character. -/
def chSQuote : Char := Char.ofNat 39
/-- The backslash character. -/
def chBackslash : Char := Char.ofNat 92
/-- The horizontal tab character. -/
def chTab : Char := Char.ofNat 9
/-- The line feed character. -/
def chLF : Char := Char.ofNat 10
/-- The carriage return character. -/
def chCR : Char := Char.ofNat 13
/-- The opening brace. -/
def chLBrace : Char := Char.ofNat 123
/-- The closing brace. -/
def chRBrace : Char := Char.ofNat 125

/-- C `isspace` in the "C" locale: space, `\t`, `\n`, `\v`, `\f`, `\r`. -/
def isspace (c : Char) : Bool := c.toNat == 32 || (9 ≤ c.toNat && c.toNat ≤ 13)

/-- C `isprint` in the "C" locale: codes 32..126. -/
def isprint (c : Char) : Bool := 32 ≤ c.toNat && c.toNat ≤ 126

/-- C `isalpha` in the "C" locale. -/
def isalpha (c : Char) : Bool :=
  (65 ≤ c.toNat && c.toNat ≤ 90) || (97 ≤ c.toNat && c.toNat ≤ 122)

/-- C `isalnum` in the "C" locale. -/
def isalnum (c : Char) : Bool := isalpha c || (48 ≤ c.toNat && c.toNat ≤ 57)

/-! ## The `_String` operations used by the two scanners -/

/-- Modelled from the spec: the `_String` class is declared outside `src/`.
`get_char` is its bounds-checked read: the character at `i`, or NUL when `i`
is not a valid position (the scanners call it at `index-1` and `index+1`). -/
def get_char (s : List Char) (i : Int) : Char :=
  if 0 ≤ i ∧ i < s.length then s.getD i.toNat chNul else chNul

/-- Modelled from the spec: the `_String` class is declared outside `src/`.
`char_at` is its unchecked read; both loops call it only at `index < length`. -/
def char_at (s : List Char) (i : Nat) : Char := s.getD i chNul

/-- Modelled from the spec: the `_String` class is declared outside `src/`.
The inclusive range `[lo, hi]` of a string as `Cut`, `Trim` and the substring
constructor `_String (source, lo, hi)` take it: a negative `lo` is 0, and a
negative or too large `hi` is the last position (`kStringEnd` is `-1`, as in
`Trim (index+1, kStringEnd)` and `Trim (1,-1)`); an empty range gives the empty
string. -/
def Cut (s : List Char) (lo hi : Int) : List Char :=
  if s.length = 0 then []
  else
    let lo1 : Int := if lo < 0 then 0 else lo
    let hi1 : Int := if hi < 0 ∨ (s.length : Int) ≤ hi then (s.length : Int) - 1 else hi
    if 0 < hi1 - lo1 + 1 then (s.drop lo1.toNat).take (hi1 - lo1 + 1).toNat else []

/-! ## `ExtractConditions` (batchlan.cpp, lines 4806-4872) -/

/-- The local `enum` of `ExtractConditions` (lines 4815-4819). -/
inductive QuoteType where
  | normal_text
  | single_quote
  | double_quote
  deriving DecidableEq, Repr

/-- The local variables of `ExtractConditions` together with the `receptacle`
list it appends to. -/
structure ECState where
  index : Nat
  last_delim : Nat
  parentheses_depth : Int
  curly_depth : Int
  quote_type : QuoteType
  receptacle : List (List Char)
  deriving DecidableEq, Repr

/-- How one pass through the body of the `for` loop ends: by `continue` (or
by reaching the end of the body), after which `index++` runs, or by `break`. -/
inductive ECStep where
  | next (s : ECState)
  | stop (s : ECState)
  deriving DecidableEq, Repr

/-- C logical negation of a `long`: `!x` is 1 when `x` is 0 and 0 otherwise. -/
def cNot (x : Int) : Int := if x = 0 then 1 else 0

/-- The quote toggle of lines 4847 and 4853:
`quote_type == normal_text ? q : normal_text`. -/
def toggleQuote (cur q : QuoteType) : QuoteType :=
  if cur = QuoteType.normal_text then q else QuoteType.normal_text

/-- The body of the `for` loop of `ExtractConditions` (lines 4823-4865), for
the character at `s.index`. -/
def ecBody (source : List Char) (start_at : Nat) (delimeter : Char) (s : ECState) : ECStep :=
  let c := char_at source s.index
  if s.quote_type = QuoteType.normal_text ∧ c = '(' then
    ECStep.next { s with parentheses_depth := s.parentheses_depth + 1 }
  else if s.quote_type = QuoteType.normal_text ∧ c = chLBrace then
    ECStep.next { s with curly_depth := s.curly_depth + 1 }
  else if s.quote_type = QuoteType.normal_text ∧ c = chRBrace then
    ECStep.next { s with curly_depth := s.curly_depth - 1 }
  else if s.quote_type = QuoteType.normal_text ∧ c = ')' then
    -- `parentheses_depth --; if (!parentheses_depth == 0L) break; continue;`
    if cNot (s.parentheses_depth - 1) = 0 then
      ECStep.stop { s with parentheses_depth := s.parentheses_depth - 1 }
    else
      ECStep.next { s with parentheses_depth := s.parentheses_depth - 1 }
  else if c = chDQuote ∧ s.quote_type ≠ QuoteType.single_quote then
    if s.index = start_at ∨ char_at source (s.index - 1) ≠ chBackslash then
      ECStep.next { s with quote_type := toggleQuote s.quote_type QuoteType.double_quote }
    else
      ECStep.next s
  else if c = chSQuote ∧ s.quote_type ≠ QuoteType.double_quote then
    if s.index = start_at ∨ char_at source (s.index - 1) ≠ chBackslash then
      ECStep.next { s with quote_type := toggleQuote s.quote_type QuoteType.single_quote }
    else
      ECStep.next s
  else if c = delimeter then
    if 1 < s.parentheses_depth ∨ s.quote_type ≠ QuoteType.normal_text ∨ s.curly_depth ≠ 0 then
      ECStep.next s
    else
      ECStep.next { s with
        receptacle := s.receptacle ++ [Cut source s.last_delim ((s.index : Int) - 1)],
        last_delim := s.index + 1 }
  else
    ECStep.next s

/-- The `for` loop of `ExtractConditions` (line 4822), with the number of passes
bounded by `fuel`; `none` when the fuel runs out before the loop has ended. -/
def ecLoop (source : List Char) (start_at : Nat) (delimeter : Char) :
    Nat → ECState → Option ECState
  | 0, s => if s.index < source.length then none else some s
  | fuel + 1, s =>
    if s.index < source.length then
      match ecBody source start_at delimeter s with
      | ECStep.stop s1 => some s1
      | ECStep.next s1 => ecLoop source start_at delimeter fuel { s1 with index := s1.index + 1 }
    else some s

/-- The state in which `ExtractConditions` enters its loop (lines 4808-4819).
`quote_type` is declared without an initialiser, so its first value is an
argument here. -/
def ecInit (start_at : Nat) (quote_type : QuoteType) : ECState :=
  { index := start_at, last_delim := start_at, parentheses_depth := 1, curly_depth := 0,
    quote_type := quote_type, receptacle := [] }

/-- The end of `ExtractConditions` (lines 4868-4871): the last segment is added
when `include_empty_conditions || last_delim <= index-1`, and `index+1` is
returned. -/
def ecFinish (source : List Char) (include_empty_conditions : Bool) (s : ECState) :
    List (List Char) × Int :=
  (if include_empty_conditions = true ∨ (s.last_delim : Int) ≤ (s.index : Int) - 1 then
      s.receptacle ++ [Cut source s.last_delim ((s.index : Int) - 1)]
    else s.receptacle,
   (s.index : Int) + 1)

/-- The embedding of `_ElementaryCommand::ExtractConditions`: the segments
appended to `receptacle` and the returned offset.  `quote_type` is the first
value of the uninitialised local of that name. -/
def ExtractConditions (quote_type : QuoteType) (source : List Char) (start_at : Nat)
    (delimeter : Char) (include_empty_conditions : Bool) : Option (List (List Char) × Int) :=
  (ecLoop source start_at delimeter source.length (ecInit start_at quote_type)).map
    (ecFinish source include_empty_conditions)

/-! ## `FindNextCommand` (batchlan.cpp, lines 4528-4803) -/

/-- Modelled from the spec: the `_String` class is declared outside `src/`.
`FirstNonSpaceIndex (lo, hi, kStringDirectionBackward)`: the last position of
the range `[lo, hi]` whose character is not white space, or `kNotFound` (-1);
`fuel` counts the positions still to look at. -/
def firstNonSpaceBackward (s : List Char) (lo : Int) : Nat → Int → Int
  | 0, _ => -1
  | fuel + 1, hi =>
    if hi < lo then -1
    else if isspace (get_char s hi) = false then hi
    else firstNonSpaceBackward s lo fuel (hi - 1)

/-- Modelled from the spec: `_String::FirstNonSpaceIndex`, called backwards on
the range `[lo, hi]` after the range has been normalised as in `Cut`. -/
def FirstNonSpaceIndex (s : List Char) (lo hi : Int) : Int :=
  if s.length = 0 then -1
  else
    let lo1 : Int := if lo < 0 then 0 else lo
    let hi1 : Int := if hi < 0 ∨ (s.length : Int) ≤ hi then (s.length : Int) - 1 else hi
    firstNonSpaceBackward s lo1 s.length hi1

/-- The first local `enum` of `FindNextCommand` (lines 4538-4543). -/
inductive LiteralState where
  | normal_text
  | double_quote
  | single_quote
  deriving DecidableEq, Repr

/-- The second local `enum` of `FindNextCommand` (lines 4545-4549). -/
inductive CommentState where
  | no_comment
  | slash_star
  | double_slash
  deriving DecidableEq, Repr

/-- Modelled from the spec: the trie `_HY_HBL_KeywordsPreserveSpaces` is filled
in `_HBL_Init_Const_Arrays`, outside `src/`, so it is a parameter: applied to
the reversed text in front of a blank it gives the value `GetValue` returns for
the key `FindKey (..., nil, true)` finds, or `none` for `kNotFound`. -/
abbrev KeywordTable := List Char → Option Int

/-- The local variables of `FindNextCommand` that its scanning loop updates.
`is_DoWhileLoop` is a `_SimpleList` (declared outside `src/`), here a list:
`<<` adds at the end, `GetElement(-1)` reads and `Pop` removes the last
element. -/
structure FNCState where
  index : Nat
  skipping : Bool
  literal_state : LiteralState
  comment_state : CommentState
  scope_depth : Int
  matrix_depth : Int
  parentheses_depth : Int
  bracket_depth : Int
  is_DoWhileLoop : List Int
  result : List Char
  last_char : Char
  deriving DecidableEq, Repr

/-- How one pass through the body of the scanning loop ends: `next` by
`continue` or by reaching the end of the body (then `index++` runs), `brk` by
`break`, `tooManyClosing c` by the early `return` of lines 4692-4694 and
4709-4711 for the closing character `c`. -/
inductive FNCStep where
  | next (s : FNCState)
  | brk (s : FNCState)
  | tooManyClosing (c : Char) (s : FNCState)
  deriving DecidableEq, Repr

/-- Lines 4674-4757: the statement terminator and the four nesting counters,
for a character `c` outside literals that has already been appended. -/
def fncStructure (input : List Char) (s : FNCState) (c : Char) : FNCStep :=
  if c = ';' ∧ s.scope_depth = 0 ∧ s.matrix_depth = 0 ∧ s.parentheses_depth = 0
      ∧ s.bracket_depth = 0 then
    FNCStep.brk s
  else if c = '(' then
    FNCStep.next { s with parentheses_depth := s.parentheses_depth + 1, last_char := chNul }
  else if c = ')' then
    if s.parentheses_depth - 1 < 0 then
      FNCStep.tooManyClosing c { s with parentheses_depth := s.parentheses_depth - 1 }
    else
      FNCStep.next { s with parentheses_depth := s.parentheses_depth - 1, last_char := chNul }
  else if c = '[' then
    FNCStep.next { s with bracket_depth := s.bracket_depth + 1, last_char := chNul }
  else if c = ']' then
    if s.bracket_depth - 1 < 0 then
      FNCStep.tooManyClosing c { s with bracket_depth := s.bracket_depth - 1 }
    else
      FNCStep.next { s with bracket_depth := s.bracket_depth - 1, last_char := chNul }
  else if c = chLBrace then
    if s.matrix_depth ≠ 0 then
      FNCStep.next { s with matrix_depth := s.matrix_depth + 1, last_char := chNul }
    else if s.last_char = '=' then
      FNCStep.next { s with matrix_depth := s.matrix_depth + 1, last_char := chNul }
    else
      let t := FirstNonSpaceIndex input 0 ((s.index : Int) - 1)
      let isDo : Bool := 2 ≤ s.index ∧ 1 ≤ t ∧ get_char input t = 'o' ∧ get_char input (t - 1) = 'd'
      FNCStep.next { s with
        scope_depth := s.scope_depth + 1,
        is_DoWhileLoop := if isDo then s.is_DoWhileLoop ++ [s.scope_depth + 1 - 1] else s.is_DoWhileLoop,
        last_char := chNul }
  else if c = chRBrace then
    if s.matrix_depth ≠ 0 then
      FNCStep.next { s with matrix_depth := s.matrix_depth - 1, last_char := chNul }
    else if s.parentheses_depth = 0 ∧ s.bracket_depth = 0 then
      if 0 ≤ s.scope_depth - 1 ∧ s.is_DoWhileLoop.length ≠ 0
          ∧ s.is_DoWhileLoop.getLast? = some (s.scope_depth - 1) then
        FNCStep.next { s with scope_depth := s.scope_depth - 1,
                              is_DoWhileLoop := s.is_DoWhileLoop.dropLast, last_char := chNul }
      else if s.scope_depth - 1 = 0 then
        FNCStep.brk { s with scope_depth := s.scope_depth - 1 }
      else
        FNCStep.next { s with scope_depth := s.scope_depth - 1, last_char := chNul }
    else
      FNCStep.next { s with scope_depth := s.scope_depth - 1, last_char := chNul }
  else
    FNCStep.next { s with last_char := c }

/-- The test of lines 4619-4628: does a blank at `s.index` leave one space in
the result because a keyword of the table ends right in front of it? -/
def keepsSpace (kw : KeywordTable) (input : List Char) (s : FNCState) : Bool :=
  if s.skipping = false ∧ 0 < s.index then
    match kw (Cut input (max 0 ((s.index : Int) - 20)) ((s.index : Int) - 1)).reverse with
    | none => false
    | some matched_length =>
      let b := get_char input ((s.index : Int) - matched_length - 1)
      decide (matched_length = (s.index : Int) ∨ ¬ (isalnum b = true ∨ b = '_' ∨ b = '.'))
  else false

/-- Lines 4635-4644: `skipping` is reset and `c` is appended to `result`, after
a separating space when `c` starts an identifier that white space has parted
from the identifier-like character `last_char`. -/
def fncAppend (s : FNCState) (c : Char) : FNCState :=
  { s with
    skipping := false,
    result := (if s.skipping = true ∧ (isalpha c = true ∨ c = '_')
                    ∧ (isalnum s.last_char = true ∨ s.last_char = '_')
               then s.result ++ [' '] else s.result) ++ [c] }

/-- Lines 4607-4672 and on: white space, the append of `c`, escapes and quotes;
`c` is the current character after the tab replacement, outside comments. -/
def fncText (kw : KeywordTable) (input : List Char) (s : FNCState) (c : Char) : FNCStep :=
  if s.literal_state = LiteralState.normal_text ∧ isspace c = true then
    FNCStep.next { s with
      result := if keepsSpace kw input s = true then s.result ++ [' '] else s.result,
      skipping := true }
  else if s.literal_state ≠ LiteralState.normal_text ∧ c = chBackslash then
    FNCStep.next { fncAppend s c with
      result := (fncAppend s c).result ++ [get_char input ((s.index : Int) + 1)],
      index := s.index + 1 }
  else if c = chDQuote ∧ s.literal_state ≠ LiteralState.single_quote then
    FNCStep.next { fncAppend s c with
      literal_state := if s.literal_state = LiteralState.normal_text
                       then LiteralState.double_quote else LiteralState.normal_text,
      last_char := chNul }
  else if c = chSQuote ∧ s.literal_state ≠ LiteralState.double_quote then
    FNCStep.next { fncAppend s c with
      literal_state := if s.literal_state = LiteralState.normal_text
                       then LiteralState.single_quote else LiteralState.normal_text,
      last_char := chNul }
  else if s.literal_state ≠ LiteralState.normal_text then
    FNCStep.next (fncAppend s c)
  else
    fncStructure input (fncAppend s c) c

/-- The character the body of the scanning loop works with at `s.index`: the
character of the buffer, a tab outside literals replaced by a space (lines
4570-4574). -/
def fncChar (input : List Char) (s : FNCState) : Char :=
  if s.literal_state = LiteralState.normal_text ∧ char_at input s.index = chTab then ' '
  else char_at input s.index

/-- The body of the scanning loop (lines 4570-4757) for the character at
`s.index`: the comment states (lines 4576-4604), then `fncText`. -/
def fncBody (kw : KeywordTable) (input : List Char) (s : FNCState) : FNCStep :=
  let c := fncChar input s
  if s.comment_state ≠ CommentState.no_comment then
    let cs :=
      if s.comment_state = CommentState.slash_star then
        if c = '/' ∧ get_char input ((s.index : Int) - 1) = '*' then CommentState.no_comment
        else s.comment_state
      else if c = chCR ∨ c = chLF then CommentState.no_comment
      else s.comment_state
    FNCStep.next { s with comment_state := cs, last_char := chNul }
  else
    let cs :=
      if s.literal_state = LiteralState.normal_text ∧ c = '/' then
        if get_char input ((s.index : Int) + 1) = '*' then CommentState.slash_star
        else if get_char input ((s.index : Int) + 1) = '/' then CommentState.double_slash
        else CommentState.no_comment
      else CommentState.no_comment
    if cs ≠ CommentState.no_comment then
      FNCStep.next { s with comment_state := cs, last_char := chNul, index := s.index + 1 }
    else
      fncText kw input s c

/-- How the scanning loop ends: at the end of the text or by `break` (both go
on to line 4761 with the state reached), or by the early `return`. -/
inductive FNCExit where
  | atEnd (s : FNCState)
  | atBreak (s : FNCState)
  | tooManyClosing (c : Char) (s : FNCState)
  deriving DecidableEq, Repr

/-- The scanning loop `for (index = 0L; index<input.length(); index++)` of line
4569, with the number of passes bounded by `fuel`; `none` when the fuel runs
out before the loop has ended. -/
def fncLoop (kw : KeywordTable) (input : List Char) : Nat → FNCState → Option FNCExit
  | 0, s => if s.index < input.length then none else some (FNCExit.atEnd s)
  | fuel + 1, s =>
    if s.index < input.length then
      match fncBody kw input s with
      | FNCStep.next s1 => fncLoop kw input fuel { s1 with index := s1.index + 1 }
      | FNCStep.brk s1 => some (FNCExit.atBreak s1)
      | FNCStep.tooManyClosing c s1 => some (FNCExit.tooManyClosing c s1)
    else some (FNCExit.atEnd s)

/-- The state in which the scanning loop is entered (lines 4536-4561, 4569). -/
def fncInit : FNCState :=
  { index := 0, skipping := false, literal_state := LiteralState.normal_text,
    comment_state := CommentState.no_comment, scope_depth := 0, matrix_depth := 0,
    parentheses_depth := 0, bracket_depth := 0, is_DoWhileLoop := [], result := [],
    last_char := chNul }

/-- The messages `FindNextCommand` can hand to `HandleApplicationError`: the two
`Too many closing` messages (for `)` and `]`), the `incomplete/syntax error`
message of line 4763 and the `will be ignored` message of line 4787. -/
inductive FNCError where
  | tooManyClosing (c : Char)
  | incomplete
  | incompleteIgnored
  deriving DecidableEq, Repr

/-- What a call of `FindNextCommand` does: the error it reports, if any, the
statement it returns, and the buffer `input` as it leaves it. -/
structure FNCOutput where
  error : Option FNCError
  result : List Char
  input : List Char
  deriving DecidableEq, Repr

/-- Line 4566, `while (index>=0 && !isprint(input[--index])) ;`, as a function of
the value of `index` before the test: the final value of `index`.  At 0 the
decrement gives -1, where the bounds-checked `input[-1]` is not printable, and
the next test `index>=0` fails. -/
def trailingScan (input : List Char) : Nat → Int
  | 0 => -1
  | n + 1 => if isprint (get_char input n) = false then trailingScan input n else n

/-- Lines 4774-4802: the wrapping braces are stripped from `result` and the
buffer is cut after `index`. -/
def fncStrip (input : List Char) (index : Nat) (result : List Char) : FNCOutput :=
  let check_open := (result.takeWhile (fun c => c = chLBrace)).length
  let closing := (result.reverse.takeWhile (fun c => c = chRBrace)).length
  let rest := if (index : Int) < (input.length : Int) - 1
              then Cut input ((index : Int) + 1) (-1) else []
  if check_open ≠ 0 then
    if closing < check_open then
      { error := some FNCError.incompleteIgnored, result := [], input := rest }
    else
      { error := none,
        result := Cut result check_open ((result.length : Int) - 1 - check_open),
        input := rest }
  else
    { error := none, result := result, input := rest }

/-- Lines 4761-4802, after the loop has ended at `index = s.index`. -/
def fncCheck (input : List Char) (s : FNCState) : FNCOutput :=
  if s.scope_depth ≠ 0 ∨ s.comment_state ≠ CommentState.slash_star
      ∨ s.literal_state ≠ LiteralState.normal_text ∨ s.matrix_depth ≠ 0
      ∨ s.bracket_depth ≠ 0 ∨ s.parentheses_depth ≠ 0 then
    if s.result ≠ [chRBrace] then
      { error := some FNCError.incomplete, result := [], input := [] }
    else
      fncStrip input s.index []
  else
    fncStrip input s.index s.result

/-- What `FindNextCommand` does once its loop has ended. -/
def fncFinish (input : List Char) : FNCExit → FNCOutput
  | FNCExit.tooManyClosing c _ =>
    { error := some (FNCError.tooManyClosing c), result := [], input := [] }
  | FNCExit.atEnd s => fncCheck input s
  | FNCExit.atBreak s => fncCheck input s

/-- The buffer after line 4567, `input.Trim (0,index)`. -/
def trimmedInput (input : List Char) : List Char :=
  Cut input 0 (trailingScan input input.length)

/-- The scanning loop of `FindNextCommand` run on the trimmed buffer. -/
def fncScan (kw : KeywordTable) (input : List Char) : Option FNCExit :=
  fncLoop kw (trimmedInput input) (trimmedInput input).length fncInit

/-- The embedding of `_ElementaryCommand::FindNextCommand`; `none` only if the
scanning loop were not to end within `length` passes. -/
def FindNextCommand (kw : KeywordTable) (input : List Char) : Option FNCOutput :=
  if input.length = 0 then some { error := none, result := [], input := input }
  else (fncScan kw input).map (fncFinish (trimmedInput input))

/-- A keyword table with no entry. -/
def emptyKeywordTable : KeywordTable := fun _ => none

/-! ## Notions used to state the properties -/

/-- Does the pass of the `ExtractConditions` loop at `s` meet a delimiter at
nesting depth zero: the character is `delimeter`, the scan is outside quotes,
no `(` or brace opened since the start is still open (the depth counter starts
at 1 for the `(` of the caller), and the character is not itself one of the
bracket and quote characters the loop handles first. -/
def ecSplitsHere (source : List Char) (delimeter : Char) (s : ECState) : Bool :=
  let c := char_at source s.index
  decide (c = delimeter ∧ s.quote_type = QuoteType.normal_text ∧ ¬ 1 < s.parentheses_depth
    ∧ s.curly_depth = 0 ∧ c ≠ '(' ∧ c ≠ ')' ∧ c ≠ chLBrace ∧ c ≠ chRBrace
    ∧ c ≠ chDQuote ∧ c ≠ chSQuote)

/-- The state a pass through the body of the scanning loop ends with. -/
def FNCStep.state : FNCStep → FNCState
  | FNCStep.next s => s
  | FNCStep.brk s => s
  | FNCStep.tooManyClosing _ s => s

/-- The state in which the scanning loop ended. -/
def FNCExit.state : FNCExit → FNCState
  | FNCExit.atEnd s => s
  | FNCExit.atBreak s => s
  | FNCExit.tooManyClosing _ s => s

/-- The state at the head of the scanning loop after `k` full passes from `s`;
`none` when the loop has ended before. -/
def fncPasses (kw : KeywordTable) (input : List Char) : Nat → FNCState → Option FNCState
  | 0, s => some s
  | k + 1, s =>
    if s.index < input.length then
      match fncBody kw input s with
      | FNCStep.next s1 => fncPasses kw input k { s1 with index := s1.index + 1 }
      | FNCStep.brk _ => none
      | FNCStep.tooManyClosing _ _ => none
    else none

/-- A literal that is open has its opening quote in `result`. -/
def LiteralOpened (s : FNCState) : Prop :=
  (s.literal_state = LiteralState.double_quote → chDQuote ∈ s.result)
    ∧ (s.literal_state = LiteralState.single_quote → chSQuote ∈ s.result)

/-- The character after a `/` does not make it a comment opener: the text goes
on with neither `*` nor `/` (at the end of the statement the `;` follows). -/
def noCommentOpener : List Char → Bool
  | [] => true
  | d :: _ => decide (d ≠ '*' ∧ d ≠ '/')

/-- A statement in the sense of the property about `;`-terminated statements,
read from the text after entering it in literal state `lit` with `pd` open
`(`, `bd` open `[` and `md` open braces of a matrix literal, `last` being the
last character kept as `last_char`: quotes are balanced (inside a literal a
backslash takes the next character with it); there is no comment opener `/*`
or `//` outside literals; an opening brace outside literals follows `=` (white
space apart) or lies inside a matrix literal, so that every brace belongs to a
matrix literal and none opens a scope; `)` and `]` never close more than is
open; a `;` outside literals occurs only inside `()`, `[]` or a matrix literal;
and at the end no literal, `(`, `[` or matrix literal is open. -/
def wellFormedFrom : List Char → LiteralState → Int → Int → Int → Char → Bool
  | [], lit, pd, bd, md, _ =>
    decide (lit = LiteralState.normal_text ∧ pd = 0 ∧ bd = 0 ∧ md = 0)
  | c :: cs, LiteralState.normal_text, pd, bd, md, last =>
    if c = chDQuote then wellFormedFrom cs LiteralState.double_quote pd bd md chNul
    else if c = chSQuote then wellFormedFrom cs LiteralState.single_quote pd bd md chNul
    else if c = '/' then
      noCommentOpener cs && wellFormedFrom cs LiteralState.normal_text pd bd md '/'
    else if c = chLBrace then
      decide (md ≠ 0 ∨ last = '=')
        && wellFormedFrom cs LiteralState.normal_text pd bd (md + 1) chNul
    else if c = chRBrace then
      decide (md ≠ 0) && wellFormedFrom cs LiteralState.normal_text pd bd (md - 1) chNul
    else if c = ';' then
      decide (pd ≠ 0 ∨ bd ≠ 0 ∨ md ≠ 0)
        && wellFormedFrom cs LiteralState.normal_text pd bd md ';'
    else if c = '(' then wellFormedFrom cs LiteralState.normal_text (pd + 1) bd md chNul
    else if c = ')' then
      decide (0 < pd) && wellFormedFrom cs LiteralState.normal_text (pd - 1) bd md chNul
    else if c = '[' then wellFormedFrom cs LiteralState.normal_text pd (bd + 1) md chNul
    else if c = ']' then
      decide (0 < bd) && wellFormedFrom cs LiteralState.normal_text pd (bd - 1) md chNul
    else if isspace c = true then wellFormedFrom cs LiteralState.normal_text pd bd md last
    else wellFormedFrom cs LiteralState.normal_text pd bd md c
  | c :: cs, LiteralState.double_quote, pd, bd, md, last =>
    if c = chBackslash then
      match cs with
      | [] => false
      | _ :: cs2 => wellFormedFrom cs2 LiteralState.double_quote pd bd md last
    else if c = chDQuote then wellFormedFrom cs LiteralState.normal_text pd bd md chNul
    else wellFormedFrom cs LiteralState.double_quote pd bd md last
  | c :: cs, LiteralState.single_quote, pd, bd, md, last =>
    if c = chBackslash then
      match cs with
      | [] => false
      | _ :: cs2 => wellFormedFrom cs2 LiteralState.single_quote pd bd md last
    else if c = chSQuote then wellFormedFrom cs LiteralState.normal_text pd bd md chNul
    else wellFormedFrom cs LiteralState.single_quote pd bd md last

/-- A well-formed statement: `wellFormedFrom` from the start of the text. -/
def wellFormedStatement (stmt : List Char) : Bool :=
  wellFormedFrom stmt LiteralState.normal_text 0 0 0 chNul

/-- The characters that are not white space. -/
def notSpace (c : Char) : Bool := !isspace c

/-- The scanning loop, entered in state `s` at the head of `stmt` in the buffer
`pre ++ stmt ++ ";" ++ rest`, ends by `break` at that `;`, outside literals and
comments with every nesting counter at zero; what it has added to `result` is
`stmt` and the `;`, up to white space, and exactly that when it was not
skipping white space and `stmt` has none. -/
def StopsAtSemicolon (kw : KeywordTable) (pre stmt rest : List Char) (fuel : Nat)
    (s : FNCState) : Prop :=
  ∃ s1, fncLoop kw (pre ++ stmt ++ ';' :: rest) fuel s = some (FNCExit.atBreak s1)
    ∧ s1.index = pre.length + stmt.length
    ∧ s1.result.filter notSpace = s.result.filter notSpace ++ stmt.filter notSpace ++ [';']
    ∧ (s.skipping = false → (∀ c ∈ stmt, isspace c = false) →
        s1.result = s.result ++ stmt ++ [';'])
    ∧ s1.literal_state = LiteralState.normal_text
    ∧ s1.comment_state = CommentState.no_comment
    ∧ s1.scope_depth = 0 ∧ s1.matrix_depth = 0
    ∧ s1.parentheses_depth = 0 ∧ s1.bracket_depth = 0

/-! ## The registry of user functions (batchlan.cpp, lines 633-684 and 5895-5907) -/

/-- Modelled from the spec: `_List::FindObject` is declared outside `src/`.
It is the index of the first element of the list equal to `s`, or `-1` when
there is none. -/
def FindObject : List (List Char) → List Char → Int
  | [], _ => -1
  | n :: rest, s =>
    if n = s then 0
    else if FindObject rest s < 0 then -1 else FindObject rest s + 1

/-- Modelled from the spec: `_String::FindBackwards` is declared outside `src/`.
Over the whole string (`from = 0`, `to = -1`) it is the last position of `c`,
or `-1` when `c` does not occur. -/
def FindBackwards (s : List Char) (c : Char) : Int :=
  if c ∈ s then ((s.length - 1 - s.reverse.indexOf c : Nat) : Int) else -1

/-- The `while (1)` loop of `FindBFFunctionName` (lines 666-679) followed by the
bare lookup of line 683, entered with the given `prefix`; every turn that does
not return shortens the prefix, and `none` is a run out of `fuel`. -/
def FindBFFunctionNameLoop (names : List (List Char)) (s : List Char) :
    Nat → List Char → Option Int
  | 0, _ => none
  | fuel + 1, pfx =>
    let test_id := pfx ++ '.' :: s
    let idx := FindObject names test_id
    if idx ≥ 0 then some idx
    else
      let cut_at := FindBackwards pfx '.'
      if cut_at > 0 then FindBFFunctionNameLoop names s fuel (Cut pfx 0 (cut_at - 1))
      else some (FindObject names s)

/-- The function `FindBFFunctionName` (lines 660-684) over the table of names
`batchLanguageFunctionNames`; `theP` is the name of the container, when one is
given. -/
def FindBFFunctionName (names : List (List Char)) (s : List Char)
    (theP : Option (List Char)) : Option Int :=
  match theP with
  | some name => FindBFFunctionNameLoop names s (name.length + 1) name
  | none => some (FindObject names s)

/-- Modelled from the spec: the enumeration of function classes is declared
outside `src/`. -/
inductive BLFunctionClass where
  | kBLFunctionAlwaysUpdate
  | kBLFunctionSkipUpdate
  | kBLFunctionLocal
  deriving DecidableEq, Repr

/-- The five parallel tables of the registry (the globals
`batchLanguageFunctions`, `batchLanguageFunctionNames`,
`batchLanguageFunctionParameterLists`, `batchLanguageFunctionParameterTypes`
and `batchLanguageFunctionClassification`), over the type `Body` of function
bodies; an argument type is `true` for an argument passed by reference. -/
structure Registry (Body : Type) where
  batchLanguageFunctions : List Body
  batchLanguageFunctionNames : List (List Char)
  batchLanguageFunctionParameterLists : List (List (List Char))
  batchLanguageFunctionParameterTypes : List (List Bool)
  batchLanguageFunctionClassification : List BLFunctionClass
  deriving DecidableEq, Repr

/-- The class that `ConstructFunction` stores (lines 5900 and 5906). -/
def functionClass (isLFunction isFFunction : Bool) : BLFunctionClass :=
  if isLFunction then BLFunctionClass.kBLFunctionLocal
  else if isFFunction then BLFunctionClass.kBLFunctionSkipUpdate
  else BLFunctionClass.kBLFunctionAlwaysUpdate

/-- The update of the registry at the end of `ConstructFunction` (lines
5895-5907) for the slot `mark1` that line 5837 looked up: a slot found is
replaced in the five tables, and otherwise one slot is appended to each. -/
def registerSlot {Body : Type} (mark1 : Int) (reg : Registry Body) (funcID : List Char)
    (functionBody : Body) (arguments : List (List Char)) (argument_types : List Bool)
    (isLFunction isFFunction : Bool) : Registry Body :=
  if mark1 ≥ 0 then
    { batchLanguageFunctions := reg.batchLanguageFunctions.set mark1.toNat functionBody
      batchLanguageFunctionNames := reg.batchLanguageFunctionNames.set mark1.toNat funcID
      batchLanguageFunctionParameterLists :=
        reg.batchLanguageFunctionParameterLists.set mark1.toNat arguments
      batchLanguageFunctionParameterTypes :=
        reg.batchLanguageFunctionParameterTypes.set mark1.toNat argument_types
      batchLanguageFunctionClassification :=
        reg.batchLanguageFunctionClassification.set mark1.toNat
          (functionClass isLFunction isFFunction) }
  else
    { batchLanguageFunctions := reg.batchLanguageFunctions ++ [functionBody]
      batchLanguageFunctionNames := reg.batchLanguageFunctionNames ++ [funcID]
      batchLanguageFunctionParameterLists :=
        reg.batchLanguageFunctionParameterLists ++ [arguments]
      batchLanguageFunctionParameterTypes :=
        reg.batchLanguageFunctionParameterTypes ++ [argument_types]
      batchLanguageFunctionClassification :=
        reg.batchLanguageFunctionClassification ++ [functionClass isLFunction isFFunction] }

/-- Modelled from the spec: `_SimpleList` is declared outside `src/`.
The constructor `_SimpleList (length, start, step)` fills the list with
`start`, `start + step`, ... (`length` entries; none when `length ≤ 0`). -/
def simpleListRange (length start step : Int) : List Int :=
  (List.range length.toNat).map (fun (k : Nat) => start + (k : Int) * step)

/-- The items of `l`, numbered from `k`, whose number is not in `toDelete`. -/
def DeleteListFrom {α : Type} (k : Nat) : List α → List Int → List α
  | [], _ => []
  | a :: rest, toDelete =>
    if (k : Int) ∈ toDelete then DeleteListFrom (k + 1) rest toDelete
    else a :: DeleteListFrom (k + 1) rest toDelete

/-- Modelled from the spec: `_List::DeleteList` and `_SimpleList::DeleteList`
are declared outside `src/`. They remove the items whose index is listed. -/
def DeleteList {α : Type} (l : List α) (toDelete : List Int) : List α :=
  DeleteListFrom 0 l toDelete

/-- The function `ClearBFFunctionLists` (lines 633-644). -/
def ClearBFFunctionLists {Body : Type} (start_here : Int) (reg : Registry Body) :
    Registry Body :=
  if start_here > 0 ∧ start_here < (reg.batchLanguageFunctionNames.length : Int) then
    let delete_me :=
      simpleListRange ((reg.batchLanguageFunctionNames.length : Int) - start_here) start_here 1
    { batchLanguageFunctions := DeleteList reg.batchLanguageFunctions delete_me
      batchLanguageFunctionNames := DeleteList reg.batchLanguageFunctionNames delete_me
      batchLanguageFunctionParameterLists :=
        DeleteList reg.batchLanguageFunctionParameterLists delete_me
      batchLanguageFunctionParameterTypes :=
        DeleteList reg.batchLanguageFunctionParameterTypes delete_me
      batchLanguageFunctionClassification :=
        DeleteList reg.batchLanguageFunctionClassification delete_me }
  else reg

/-- The dotted name made of the given segments. -/
def joinDots : List (List Char) → List Char
  | [] => []
  | [g] => g
  | g :: h :: rest => g ++ '.' :: joinDots (h :: rest)

/-- The qualified names that the resolution of `s` tries in the namespace made
of the segments `segs`, longest first: the first `i` segments, then one
segment fewer, down to the first segment alone. -/
def qualifiedCandidates (segs : List (List Char)) (s : List Char) : Nat → List (List Char)
  | 0 => []
  | i + 1 => (joinDots (segs.take (i + 1)) ++ '.' :: s) :: qualifiedCandidates segs s i

/-- The names that the resolution of `s` tries in the namespace `segs`, in
order: the qualified names, then the bare `s`. -/
def lookupCandidates (segs : List (List Char)) (s : List Char) : List (List Char) :=
  qualifiedCandidates segs s segs.length ++ [s]

/-- The registry index of the first of the candidates that is registered, or
`-1` when none is. -/
def firstRegistered (names : List (List Char)) : List (List Char) → Int
  | [] => -1
  | c :: rest => if FindObject names c ≥ 0 then FindObject names c else firstRegistered names rest

/-- The five tables of the registry have the same length. -/
def Registry.aligned {Body : Type} (reg : Registry Body) : Prop :=
  reg.batchLanguageFunctions.length = reg.batchLanguageFunctionNames.length
  ∧ reg.batchLanguageFunctionParameterLists.length = reg.batchLanguageFunctionNames.length
  ∧ reg.batchLanguageFunctionParameterTypes.length = reg.batchLanguageFunctionNames.length
  ∧ reg.batchLanguageFunctionClassification.length = reg.batchLanguageFunctionNames.length

/-- The name `s` is registered at slot `i`, and at no earlier slot. -/
def registeredAt (names : List (List Char)) (s : List Char) (i : Nat) : Prop :=
  names[i]? = some s ∧ ∀ j, j < i → names[j]? ≠ some s

/-- A registry that holds the one function `f`, with no arguments and the body
`body`. -/
def oneFunctionRegistry {Body : Type} (body : Body) : Registry Body :=
  { batchLanguageFunctions := [body]
    batchLanguageFunctionNames := ["f".toList]
    batchLanguageFunctionParameterLists := [[]]
    batchLanguageFunctionParameterTypes := [[]]
    batchLanguageFunctionClassification := [BLFunctionClass.kBLFunctionAlwaysUpdate] }

/-! ## Commands, jumps and the program counter (batchlan.cpp, lines 1745-1760,
2159-2262, 4215-4284, 4429-4431, 5621-5653 and 5937-5965) -/

/-- The class `_ElementaryCommand`: the opcode `code`, the text that the command
holds as a `_String`, the list `parameters` of strings and the list
`simpleParameters` of integers (jump targets, and formula handles stored as
`long`). -/
structure Command where
  code : Int
  text : List Char
  parameters : List (List Char)
  simpleParameters : List Int
  deriving DecidableEq, Repr

/-- The constructor `_ElementaryCommand (void)` (lines 1745-1747). -/
def Command.empty : Command :=
  { code := -1, text := [], parameters := [], simpleParameters := [] }

/-- The constructor `_ElementaryCommand (_String& s)` (lines 1757-1760). -/
def Command.ofString (s : List Char) : Command :=
  { code := -1, text := s, parameters := [], simpleParameters := [] }

/-- The function `_ElementaryCommand::MakeJumpCommand` (lines 5621-5653) on the
command `cmd`: the flag returned and the command as it is left; `false` is the
return after `HandleApplicationError` with the if-then-else scoping error. The
formula handles are plain integers here, so the `delete` of line 5630 leaves no
trace. -/
def MakeJumpCommand (cmd : Command) (source : Option (List Char)) (branch1 branch2 : Int) :
    Bool × Command :=
  let oldFla : Int :=
    if cmd.simpleParameters.length = 3 then
      match source with
      | some _ => 0
      | none => cmd.simpleParameters.getD 2 0
    else 0
  if branch1 = -1 ∧ cmd.simpleParameters.length = 0 then (false, { cmd with code := 4 })
  else
    let branch1a : Int := if branch1 = -1 then cmd.simpleParameters.getD 0 0 else branch1
    match source with
    | some s =>
      (true, { cmd with code := 4
                        simpleParameters := [branch1a, branch2]
                        parameters := cmd.parameters ++ [s] })
    | none =>
      (true, { cmd with code := 4
                        simpleParameters :=
                          if oldFla ≠ 0 then [branch1a, branch2, oldFla]
                          else [branch1a, branch2] })

/-- Modelled from the spec: the classes of `_MathObject` are declared outside
`src/`. Of a value only what `ExecuteCase4` looks at is kept: a number, a
string, the undefined object, or an object of another class. -/
inductive MathObject where
  | number (value : ℚ)
  | string (value : List Char)
  | undefined
  | other
  deriving DecidableEq, Repr

/-- Modelled from the spec: `Parse` and `_FormulaParsingContext` are declared
outside `src/`. What a call of `Parse` on the text of a condition or of a
returned expression gives: an expression (`HY_FORMULA_EXPRESSION`), with the
answer of `isVolatile` and the handle of the formula, or something else. -/
inductive ParseOutcome where
  | expression (isVolatile : Bool) (formula : Int)
  | notExpression
  deriving DecidableEq, Repr

/-- Modelled from the spec: the formula machinery is declared outside `src/`.
What it answers during the execution of one command: the outcome of `Parse`,
the value of `ComputeSimple` when the list runs in its simple mode (`chain.cli`
is set), and the object that `Compute` gives (none when the evaluation failed
and set `terminate_execution`). -/
structure StepOracle where
  parse : ParseOutcome
  simple : Option ℚ
  computed : Option MathObject
  deriving DecidableEq, Repr

/-- The errors that the execution of a jump or of a return hands to
`HandleApplicationError`. -/
inductive ExecError where
  | notValidCondition
  | failedWhileEvaluating
  | notNumberStringOrNull
  | invalidReturn
  deriving DecidableEq, Repr

/-- The part of an `_ExecutionList` and of the globals that the execution of
jumps and returns reads and writes: `currentCommand`, the length `lLength` of
the list, the global `terminate_execution`, the `result` of the list, and the
error handed to `HandleApplicationError`, which is declared outside `src/`. -/
structure ChainState where
  currentCommand : Int
  lLength : Nat
  terminate_execution : Bool
  result : Option MathObject
  error : Option ExecError
  deriving DecidableEq, Repr

/-- The command after `Parse` gave an expression for it (lines 2176-2181 and
4231-4236): the handle of a formula that is not volatile is appended to
`simpleParameters`. -/
def cacheFormula (cmd : Command) (p : ParseOutcome) : Command :=
  match p with
  | ParseOutcome.expression false formula =>
    { cmd with simpleParameters := cmd.simpleParameters ++ [formula] }
  | _ => cmd

/-- The end of `ExecuteCase4` (lines 2242-2247): go to the true target, and end
the run when that target is `-1`. -/
def jumpToTrueTarget (cmd : Command) (chain : ChainState) : ChainState :=
  if cmd.simpleParameters.getD 0 0 = -1 then
    { chain with terminate_execution := true, currentCommand := chain.lLength }
  else { chain with currentCommand := cmd.simpleParameters.getD 0 0 }

/-- The test of lines 2216-2230: whether the value of the condition counts as
false; `none` is the `default` case, which throws. -/
def conditionFalse : MathObject → Option Bool
  | MathObject.number value => some (decide (value = 0))
  | MathObject.string value => some (decide (value = []))
  | MathObject.undefined => some true
  | MathObject.other => none

/-- The function `_ElementaryCommand::ExecuteCase4` (lines 2159-2262): the
command and the chain as they are left. A `throw` leaves the counter at the
next command and hands the error to `HandleApplicationError`. -/
def ExecuteCase4 (cmd : Command) (o : StepOracle) (chain : ChainState) :
    Command × ChainState :=
  let chain1 := { chain with currentCommand := chain.currentCommand + 1 }
  if cmd.simpleParameters.length = 3 ∨ cmd.parameters.length ≠ 0 then
    let parses : Bool := decide (cmd.parameters.length ≠ 0 ∧ cmd.simpleParameters.length < 3)
    if parses = true ∧ o.parse = ParseOutcome.notExpression then
      (cmd, { chain1 with error := some ExecError.notValidCondition })
    else
      let cmd1 := if parses then cacheFormula cmd o.parse else cmd
      match o.simple with
      | some value =>
        if value = 0 then
          (cmd1, { chain1 with currentCommand := cmd1.simpleParameters.getD 1 0 })
        else (cmd1, jumpToTrueTarget cmd1 chain1)
      | none =>
        match o.computed with
        | none => (cmd1, { chain1 with error := some ExecError.failedWhileEvaluating })
        | some result =>
          match conditionFalse result with
          | none => (cmd1, { chain1 with error := some ExecError.notNumberStringOrNull })
          | some true => (cmd1, { chain1 with currentCommand := cmd1.simpleParameters.getD 1 0 })
          | some false => (cmd1, jumpToTrueTarget cmd1 chain1)
  else (cmd, jumpToTrueTarget cmd chain1)

/-- The case 14 of `_ElementaryCommand::Execute` (lines 4215-4284), the return
statement: an expression that does not parse leaves the counter where it is
(`return false` at line 4275); otherwise the counter goes to
`simpleParameters (0)`, and to `0x7fffffff` when that is negative. -/
def ExecuteCase14 (cmd : Command) (o : StepOracle) (chain : ChainState) :
    Command × ChainState :=
  if cmd.parameters.length ≠ 0 then
    let parses : Bool := decide (cmd.simpleParameters.length < 2)
    if parses = true ∧ o.parse = ParseOutcome.notExpression then
      (cmd, { chain with error := some ExecError.invalidReturn })
    else
      let cmd1 := if parses then cacheFormula cmd o.parse else cmd
      let chain1 := { chain with result := o.computed }
      (cmd1, { chain1 with
                currentCommand :=
                  if cmd1.simpleParameters.getD 0 0 < 0 then 0x7fffffff
                  else cmd1.simpleParameters.getD 0 0 })
  else
    (cmd, { chain with
              currentCommand :=
                if cmd.simpleParameters.getD 0 0 < 0 then 0x7fffffff
                else cmd.simpleParameters.getD 0 0 })

/-- The step of the counter in `_ElementaryCommand::Execute` (lines 4078-4434):
a jump (opcode 4) and a return (opcode 14) set it as above; of every other
opcode only the step of the counter is kept, each of them going to the next
command (`chain.currentCommand++` at 4431 and in the cases, `advance ()` in the
handlers). -/
def ExecuteCommand (cmd : Command) (o : StepOracle) (chain : ChainState) :
    Command × ChainState :=
  if cmd.code = 4 then ExecuteCase4 cmd o chain
  else if cmd.code = 14 then ExecuteCase14 cmd o chain
  else (cmd, { chain with currentCommand := chain.currentCommand + 1 })

/-- The test of the loop of `_ExecutionList::Execute` (lines 1161 and
1180-1182): the next command is executed when the counter is below the length
of the list and `terminate_execution` is not set. -/
def executeContinues (chain : ChainState) : Bool :=
  decide (chain.currentCommand < chain.lLength) && !chain.terminate_execution

/-- The function `_ElementaryCommand::ConstructReturn` (lines 5937-5965) on the
list `target`, given the text `expression` that lines 5939-5954 cut out of the
statement (none when nothing follows the keyword): the list and the global
`returnlist` as they are left. Inside a function body the position of the
command is recorded for patching; outside, the command gets the target `-1`. -/
def ConstructReturn (expression : Option (List Char)) (isInFunction : Bool)
    (target : List Command) (returnlist : List Int) : List Command × List Int :=
  let ret : Command :=
    { code := 14, text := [],
      parameters := match expression with
        | some cut_s => [cut_s]
        | none => [],
      simpleParameters := [] }
  if isInFunction then (target ++ [ret], returnlist ++ [(target.length : Int)])
  else (target ++ [{ ret with simpleParameters := [-1] }], returnlist)

/-- The targets of a jump or of a return lie in the list: a target is an index
of the list or its length, and the true target of a jump may also be the
value `-1` that ends the run. -/
def targetsInList (cmd : Command) (lLength : Nat) : Prop :=
  (cmd.code = 4 →
    (cmd.simpleParameters.getD 0 0 = -1
        ∨ (0 ≤ cmd.simpleParameters.getD 0 0 ∧ cmd.simpleParameters.getD 0 0 ≤ lLength))
      ∧ 0 ≤ cmd.simpleParameters.getD 1 0 ∧ cmd.simpleParameters.getD 1 0 ≤ lLength
      ∧ 2 ≤ cmd.simpleParameters.length)
  ∧ (cmd.code = 14 → cmd.simpleParameters.getD 0 0 ≤ lLength
      ∧ 1 ≤ cmd.simpleParameters.length)

/-- Where a jump with the true target `t` goes in a list of length `lLength`
when its condition holds: to `t`, and to the end of the list for `t = -1`. -/
def trueTarget (t : Int) (lLength : Nat) : Int :=
  if t = -1 then (lLength : Int) else t

/-! ## The loop builder (batchlan.cpp, lines 1577-1587 and 4877-4995) -/

/-- The call `target.GetIthCommand (i)->MakeJumpCommand (source, branch1,
branch2, target)`: the flag returned and the list with the command at `i`
rewritten. `GetIthCommand` is declared outside `src/`; the builder calls it at
indices of the list only, and an index outside the list leaves the list as it
is here. -/
def jumpAt (target : List Command) (i : Int) (source : Option (List Char))
    (branch1 branch2 : Int) : Bool × List Command :=
  if 0 ≤ i ∧ i < (target.length : Int) then
    ((MakeJumpCommand (target.getD i.toNat Command.empty) source branch1 branch2).1,
     target.set i.toNat
       (MakeJumpCommand (target.getD i.toNat Command.empty) source branch1 branch2).2)
  else (false, target)

/-- The clean-up loop of the builders (lines 4943-4946): `Delete (beginning)`
once per turn while `index < target.lLength`; since `index` grows as the list
shrinks, it makes one turn for every two commands above `beginning`, rounded
up. -/
def cleanUp (beginning : Nat) (target : List Command) : List Command :=
  Nat.iterate (fun t => t.eraseIdx beginning) ((target.length - beginning + 1) / 2) target

/-- One turn of the loop that writes out the breaks and continues (lines
4949-4957), in a list that has `has_increment` as given. -/
def resolveOne (has_increment : Bool) (target : List Command) (loc : Int) : List Command :=
  if loc > 0 then (jumpAt target loc none (target.length : Int) 0).2
  else
    (jumpAt target (-loc) none
      ((target.length : Int) - (if has_increment then 2 else 1)) 0).2

/-- The loop that writes out the breaks and continues (lines 4948-4958). -/
def resolveBreaksAndContinues (has_increment : Bool) (bc : List Int)
    (target : List Command) : List Command :=
  bc.foldl (resolveOne has_increment) target

/-- The test `p && p->nonempty ()` on an optional piece of a loop header. -/
def pieceNonempty (p : Option (List Char)) : Bool :=
  match p with
  | some s => !s.isEmpty
  | none => false

/-- The text of an optional piece of a loop header. -/
def pieceText (p : Option (List Char)) : List Char :=
  match p with
  | some s => s
  | none => []

/-- The last stage of the `while (success)` block of `MakeGeneralizedLoop`
(lines 4926-4938): the jump back of a for or while loop is appended and the
command at `for_return` is made the conditional jump; a do-while loop gets its
conditional jump back. -/
def closeLoop (p2 : Option (List Char)) (for_or_while : Bool) (for_return : Int)
    (target : List Command) : Bool × List Command :=
  if for_or_while then
    if (MakeJumpCommand Command.empty none for_return 0).1 then
      if pieceNonempty p2 then
        jumpAt (target ++ [(MakeJumpCommand Command.empty none for_return 0).2]) for_return
          (some (pieceText p2)) (for_return + 1)
          ((target ++ [(MakeJumpCommand Command.empty none for_return 0).2]).length : Int)
      else (true, target ++ [(MakeJumpCommand Command.empty none for_return 0).2])
    else (false, target ++ [(MakeJumpCommand Command.empty none for_return 0).2])
  else
    match p2 with
    | some cond =>
      ((MakeJumpCommand Command.empty (some cond) for_return ((target.length : Int) + 1)).1,
       target ++
         [(MakeJumpCommand Command.empty (some cond) for_return ((target.length : Int) + 1)).2])
    | none => (true, target)

/-- The errors that the builders hand to `HandleApplicationError` or to
`ReportAnExecutionError`: a parse error of `FindNextCommand`, and the errors
of `BuildList`, `BuildIfThenElse`, `BuildDoWhile` and `ConstructFunction`. -/
inductive BuildError where
  | parse (e : FNCError)
  | incorrectArguments
  | loopContext
  | elseWithoutIf
  | ifHeader
  | malformedWhile
  | noMatchingWhile
  | nestedFunction
  | missingIdentifier
  | invalidIdentifier
  | missingFunctionBody
  | missingNamespaceBody
  deriving DecidableEq, Repr

/-- The part of an `_ExecutionList` that the builders write while a text is
turned into commands: the commands of the list, its stack `lastif` of the
positions of the open `if`s, the list `bc` of breaks and continues that the
caller passed (none outside a loop), and the errors reported so far. -/
structure BuildState where
  commands : List Command
  lastif : List Int
  bc : Option (List Int)
  errors : List BuildError
  deriving DecidableEq, Repr

/-- The errors after a call of `FindNextCommand`. -/
def noteParse (out : FNCOutput) (errors : List BuildError) : List BuildError :=
  match out.error with
  | some e => errors ++ [BuildError.parse e]
  | none => errors

/-- The function `_ElementaryCommand::MakeGeneralizedLoop` (lines 4877-4961) on
the list held in `st`: the flag returned and the state as it is left. `nested`
stands for the three calls of `BuildList` on this list: on `*p1` without a
list of breaks (line 4893), on `source` with the fresh list `bc` of line 4887
(line 4912), and on `*p3` without one (line 4917); the list of breaks of the
caller is not touched. -/
def MakeGeneralizedLoop (nested : List Char → BuildState → Bool × BuildState)
    (p1 p2 p3 : Option (List Char)) (for_or_while : Bool) (source : List Char)
    (st : BuildState) : Bool × BuildState :=
  let beginning := st.commands.length
  let for_return : Int :=
    if pieceNonempty p1 then (st.commands.length : Int) + 1 else (st.commands.length : Int)
  let r1 := if pieceNonempty p1 then nested (pieceText p1) { st with bc := none } else (true, st)
  if r1.1 = false then
    (false, { r1.2 with commands := cleanUp beginning r1.2.commands, bc := st.bc })
  else
    let target2 :=
      if for_or_while ∧ pieceNonempty p2 then r1.2.commands ++ [Command.ofString (pieceText p2)]
      else r1.2.commands
    let source1 := if get_char source 0 = chLBrace then Cut source 1 (-1) else source
    let r2 := nested source1 { r1.2 with commands := target2, bc := some [] }
    if r2.1 = false then
      (false, { r2.2 with commands := cleanUp beginning r2.2.commands, bc := st.bc })
    else
      let r3 :=
        if pieceNonempty p3 then nested (pieceText p3) { r2.2 with bc := none } else (true, r2.2)
      if r3.1 = false then
        (false, { r3.2 with commands := cleanUp beginning r3.2.commands, bc := st.bc })
      else if (closeLoop p2 for_or_while for_return r3.2.commands).1 = false then
        (false, { r3.2 with
                  commands := cleanUp beginning
                    (closeLoop p2 for_or_while for_return r3.2.commands).2,
                  bc := st.bc })
      else
        (true, { r3.2 with
                 commands := resolveBreaksAndContinues (pieceNonempty p3) (r2.2.bc.getD [])
                   (closeLoop p2 for_or_while for_return r3.2.commands).2,
                 bc := st.bc })

/-- The function `_ElementaryCommand::BuildFor` (lines 4966-4985), for the
three pieces of the header when there are any. -/
def BuildFor (nested : List Char → BuildState → Bool × BuildState) (source : List Char)
    (pieces : Option (List Char × List Char × List Char)) (st : BuildState) :
    Bool × BuildState :=
  match pieces with
  | some (piece0, piece1, piece2) =>
    MakeGeneralizedLoop nested (some piece0) (some piece1) (some piece2) true source st
  | none => MakeGeneralizedLoop nested none none none true source st

/-- The function `_ElementaryCommand::BuildWhile` (lines 4989-4995), for the
one piece of the header when there is one. -/
def BuildWhile (nested : List Char → BuildState → Bool × BuildState) (source : List Char)
    (pieces : Option (List Char)) (st : BuildState) : Bool × BuildState :=
  match pieces with
  | some piece0 => MakeGeneralizedLoop nested none (some piece0) none true source st
  | none => MakeGeneralizedLoop nested none none none true source st

/-- The command that `BuildList` appends for a plain formula statement (lines
1723-1726). -/
def formulaCommand (currentLine : List Char) : Command :=
  { code := 0, text := currentLine, parameters := [currentLine], simpleParameters := [] }

/-- An unconditional jump to `branch1`, as `MakeJumpCommand (nil, branch1, 0)`
leaves a fresh command. -/
def jumpTo (branch1 : Int) : Command :=
  { code := 4, text := [], parameters := [], simpleParameters := [branch1, 0] }

/-- The conditional jump on `cond` with the given targets, as
`MakeJumpCommand (cond, branch1, branch2)` leaves the command made of `cond`. -/
def jumpOn (cond : List Char) (branch1 branch2 : Int) : Command :=
  { code := 4, text := cond, parameters := [cond], simpleParameters := [branch1, branch2] }

/-! ## Running a list (batchlan.cpp, lines 1130-1204) -/

/-- Modelled from the spec: the handlers of the single commands are declared
outside `src/`. What the execution of one command does beyond the step of the
counter, as far as `_ExecutionList::Execute` can see it: the answers of the
formula machinery, whether the command runs this same list again (a recursive
call of `Execute` on it, as a call of a user function from its own body does),
and whether `terminate_execution` is set when the command is done (an error
handed to `HandleApplicationError`, a run of another list that ended with the
flag set, a cancellation). -/
structure CommandEffect where
  oracle : StepOracle
  reenters : Bool
  raises : Bool
  deriving DecidableEq, Repr

/-- The part of an `_ExecutionList` and of the globals that
`_ExecutionList::Execute` reads and writes: the commands of the list, its
`currentCommand`, its `callPoints`, its `result` and the error handed to
`HandleApplicationError`; the globals `executionStack`,
`currentExecutionList` (lists are named by integers) and
`terminate_execution`; and `clock`, the number of commands executed so far,
which names the effect of the next command. -/
structure ExecState where
  commands : List Command
  currentCommand : Int
  callPoints : List Int
  executionStack : List Int
  currentExecutionList : Int
  terminate_execution : Bool
  result : Option MathObject
  error : Option ExecError
  clock : Nat
  deriving DecidableEq, Repr

/-- The call `lData[currentCommand]->Execute (*this)` of lines 1168 and 1178:
the command at the counter is executed, which moves the counter and may leave a
cached formula in the command; a command that runs the list again does so
through `reenter`; at the end the flag is set when the command raised it. The
result is `none` when the nested run does not return. -/
def runCommand (reenter : ExecState → Option ExecState) (effects : Nat → CommandEffect)
    (st : ExecState) : Option ExecState :=
  let e := effects st.clock
  let cmd := st.commands.getD st.currentCommand.toNat Command.empty
  let r := ExecuteCommand cmd e.oracle
    { currentCommand := st.currentCommand, lLength := st.commands.length,
      terminate_execution := st.terminate_execution, result := st.result, error := st.error }
  let st1 : ExecState :=
    { st with
      commands := st.commands.set st.currentCommand.toNat r.1,
      currentCommand := r.2.currentCommand,
      terminate_execution := r.2.terminate_execution,
      result := r.2.result,
      error := r.2.error,
      clock := st.clock + 1 }
  match (if e.reenters then reenter st1 else some st1) with
  | none => none
  | some st2 => some { st2 with terminate_execution := st2.terminate_execution || e.raises }

/-- The loop of `_ExecutionList::Execute` (lines 1162-1184), at most `steps`
turns of it: the state in which it ends, and the log of its own turns, one
entry for each command that this loop executed, with the counter at which the
command stood and the flag `terminate_execution` as tested at line 1181. The
result is `none` when the turns do not suffice, when a nested run does not
return, and when the counter is negative, where line 1178 reads outside the
list. -/
def executeLoop (reenter : ExecState → Option ExecState) (effects : Nat → CommandEffect) :
    Nat → ExecState → Option (ExecState × List (Int × Bool))
  | 0, st => if st.currentCommand < st.commands.length then none else some (st, [])
  | steps + 1, st =>
    if st.currentCommand < st.commands.length then
      if st.currentCommand < 0 then none
      else
        match runCommand reenter effects st with
        | none => none
        | some st1 =>
          if st1.terminate_execution then some (st1, [(st.currentCommand, true)])
          else
            match executeLoop reenter effects steps st1 with
            | none => none
            | some (st2, log) => some (st2, (st.currentCommand, false) :: log)
    else some (st, [])

/-- The state at line 1161 of `_ExecutionList::Execute`, before the loop: the
counter is pushed on `callPoints`, the list on `executionStack`, the result is
dropped, the list becomes the current one, the counter goes to `0` and the flag
is cleared. The redirection of the standard input and the path variable of
lines 1139-1153 are not kept. -/
def executeEnter (self : Int) (st : ExecState) : ExecState :=
  { st with
    callPoints := st.callPoints ++ [st.currentCommand],
    executionStack := st.executionStack ++ [self],
    result := none,
    currentExecutionList := self,
    currentCommand := 0,
    terminate_execution := false }

/-- The lines 1185-1196 of `_ExecutionList::Execute`, after the loop: the
counter is taken back from the top of `callPoints`, which is popped, the
current list is the one stashed at entry, `executionStack` is popped and a
missing result becomes a new `_MathObject`. -/
def executeLeave (stashCEL : Int) (st : ExecState) : ExecState :=
  { st with
    currentCommand := st.callPoints.getD (st.callPoints.length - 1) 0,
    callPoints := st.callPoints.take (st.callPoints.length - 1),
    currentExecutionList := stashCEL,
    executionStack := st.executionStack.take (st.executionStack.length - 1),
    result := match st.result with
      | none => some MathObject.undefined
      | some r => some r }

/-- The function `_ExecutionList::Execute` (lines 1130-1204) on the list named
`self`: the state in which it returns, the log of its loop and the counter at
which the loop ended. `depth` bounds the nesting of the runs of this list
inside its own commands and `steps` the turns of each loop; the result is
`none` when these bounds do not suffice. -/
def Execute (self : Int) (effects : Nat → CommandEffect) :
    Nat → Nat → ExecState → Option (ExecState × List (Int × Bool) × Int)
  | 0, _, _ => none
  | depth + 1, steps, st =>
    match executeLoop (fun s => (Execute self effects depth steps s).map Prod.fst) effects steps
        (executeEnter self st) with
    | none => none
    | some (st1, log) => some (executeLeave st.currentExecutionList st1, log, st1.currentCommand)

/-- A command of no effect beyond the step of the counter. -/
def plainEffect : CommandEffect :=
  { oracle := { parse := ParseOutcome.notExpression, simple := none, computed := none },
    reenters := false, raises := false }

/-- The log of a loop is the log of a run that `Execute` describes: the first
command executed stands at `0`, every command executed stands below the length
of the list, the flag is clear after every command but the last, and the loop
has ended with the flag set after the last command or with the counter at or
beyond the length. -/
def runsToStop (length : Nat) (log : List (Int × Bool)) (stoppedAt : Int)
    (flagAtReturn : Bool) : Prop :=
  (∀ e ∈ log.head?, e.1 = 0)
    ∧ (∀ e ∈ log, 0 ≤ e.1 ∧ e.1 < length)
    ∧ (∀ e ∈ log.dropLast, e.2 = false)
    ∧ ((∃ e ∈ log.getLast?, e.2 = true) ∧ flagAtReturn = true
        ∨ (∀ e ∈ log, e.2 = false) ∧ flagAtReturn = false ∧ (length : Int) ≤ stoppedAt)

/-- The state `s1` has the frame of `s`: the list has kept its length, and
`callPoints`, `executionStack` and `currentExecutionList` are as in `s`. -/
def sameFrame (s s1 : ExecState) : Prop :=
  s1.commands.length = s.commands.length ∧ s1.callPoints = s.callPoints
    ∧ s1.executionStack = s.executionStack
    ∧ s1.currentExecutionList = s.currentExecutionList

/-- A run in which the first command executed runs the list again and every
other command only steps the counter. -/
def reentrantEffects : Nat → CommandEffect :=
  fun k => if k = 0 then { plainEffect with reenters := true } else plainEffect

/-- A run in which the second command executed sets `terminate_execution`. -/
def raisingEffects : Nat → CommandEffect :=
  fun k => if k = 1 then { plainEffect with raises := true } else plainEffect

/-- A list of `n` formula commands that is in the middle of a run: the counter
stands at `1`, an earlier call has left `7` on `callPoints`, and the current
list is the list `3`. -/
def runningList (n : Nat) : ExecState :=
  { commands := List.replicate n (formulaCommand ['x']),
    currentCommand := 1,
    callPoints := [7],
    executionStack := [3],
    currentExecutionList := 3,
    terminate_execution := false,
    result := none,
    error := none,
    clock := 0 }

/-- The list `runningList n` after a run of it that executed `clock` commands
and returned with the flag `flag`. -/
def returnedList (n clock : Nat) (flag : Bool) : ExecState :=
  { runningList n with
    terminate_execution := flag, result := some MathObject.undefined, clock := clock }

/-! ## The builders of `do`-`while` and of `if` (batchlan.cpp, lines 4999-5066) -/

/-- The keyword `blWhile` (line 147). -/
def blWhile : List Char := "while(".toList

/-- The keyword `blDo` (line 156). -/
def blDo : List Char := "do\x7b".toList

/-- The keyword `blIf` (line 154). -/
def blIf : List Char := "if(".toList

/-- The keyword `blElse` (line 155). -/
def blElse : List Char := "else".toList

/-- Modelled from the spec: the default arguments of `ExtractConditions` are
declared outside `src/`. The delimiter that a call without one scans for is
the `;` that separates the pieces of a loop header. -/
def defaultDelimiter : Char := ';'

/-- Modelled from the spec: the default arguments of `ExtractConditions` are
declared outside `src/`. A call without the flag keeps empty conditions, as
`MakeGeneralizedLoop` expects when it tests `p1->nonempty ()`. -/
def defaultIncludeEmpty : Bool := true

/-- The function `_ElementaryCommand::BuildDoWhile` (lines 5042-5066) on the
list held in `st`: the flag returned and the state as it is left. `nested`
stands for the call of `BuildList` on the text of the body (line 4912); the
result is `none` when `ExtractConditions` gives none. -/
def BuildDoWhile (quote_type : QuoteType)
    (nested : List Char → BuildState → Bool × BuildState) (source : List Char)
    (st : BuildState) : Option (Bool × BuildState) :=
  let upto := FindBackwards source chRBrace
  let clipped := Cut source (upto + 1) (-1)
  if 0 ≤ upto ∧ blWhile.isPrefixOf clipped = true then
    let source1 := Cut source blDo.length upto
    match ExtractConditions quote_type clipped blWhile.length defaultDelimiter
        defaultIncludeEmpty with
    | none => none
    | some (pieces, _) =>
      if pieces.length ≠ 1 then
        some (false, { st with errors := st.errors ++ [BuildError.malformedWhile] })
      else some (MakeGeneralizedLoop nested none pieces.head? none false source1 st)
  else some (false, { st with errors := st.errors ++ [BuildError.noMatchingWhile] })

/-- The function `_ElementaryCommand::BuildIfThenElse` (lines 4999-5037) on the
list held in `st`: the flag returned and the state as it is left. `nested`
stands for the calls of `BuildList` on the then-branch (line 5018) and on the
rest of the text (line 5036), which this function makes on texts that it has
cut itself; the result is `none` when `ExtractConditions` or `FindNextCommand`
gives none. -/
def BuildIfThenElse (quote_type : QuoteType) (kw : KeywordTable)
    (nested : List Char → BuildState → Bool × BuildState)
    (source : List Char) (st : BuildState) : Option (Bool × BuildState) :=
  match ExtractConditions quote_type source 3 defaultDelimiter defaultIncludeEmpty with
  | none => none
  | some (pieces, upto) =>
    let beginning := st.commands.length
    let lastif1 := st.lastif ++ [(beginning : Int)]
    let intIfs := lastif1.length
    let errors1 := if pieces.length ≠ 1 then st.errors ++ [BuildError.ifHeader] else st.errors
    let source1 := Cut source upto (-1)
    match FindNextCommand kw source1 with
    | none => none
    | some out =>
      let r := nested out.result
        { st with commands := st.commands ++ [Command.empty], lastif := lastif1,
                  errors := noteParse out errors1 }
      if r.1 = false then
        some (false, { r.2 with commands := cleanUp beginning r.2.commands })
      else
        let ec := r.2.commands.getD beginning Command.empty
        let branch2 : Int :=
          if ec.simpleParameters.length < 2 then (r.2.commands.length : Int)
          else ec.simpleParameters.getD 1 0
        let jump := (MakeJumpCommand ec pieces.head? ((beginning : Int) + 1) branch2).2
        some (nested out.input
          { r.2 with commands := r.2.commands.set beginning jump,
                     lastif := r.2.lastif.take intIfs })

/-- A `BuildList` for the examples: a text that is not empty becomes one
formula command, and the flag is that of line 1740 for a call that does not
allow an empty list. -/
def formulaBuilder (text : List Char) (st : BuildState) : Bool × BuildState :=
  let st1 := if text = [] then st
    else { st with commands := st.commands ++ [formulaCommand text] }
  (decide (st1.commands ≠ []), st1)

/-- A list that is empty, outside a loop and without an open `if`. -/
def emptyBuild : BuildState :=
  { commands := [], lastif := [], bc := none, errors := [] }

/-! ## Declarations of functions and of namespaces (batchlan.cpp, lines
1458-1474 and 5792-5934) -/

/-- The keyword `blFunction` (line 150). -/
def blFunction : List Char := "function ".toList

/-- The keyword `blFFunction` (line 151). -/
def blFFunction : List Char := "ffunction ".toList

/-- The keyword `blLFunction` (line 152). -/
def blLFunction : List Char := "lfunction ".toList

/-- The keyword `blNameSpace` (line 153). -/
def blNameSpace : List Char := "namespace ".toList

/-- Modelled from the spec: the `_String` class is declared outside `src/`.
`FirstNonSpaceIndex (lo, -1, kStringDirectionForward)`: the first position at
or after `lo` whose character is not white space, or `kNotFound` (-1). -/
def firstNonSpaceForward : List Char → Nat → Int
  | [], _ => -1
  | c :: rest, lo =>
    if lo = 0 then
      if isspace c = false then 0
      else if firstNonSpaceForward rest 0 < 0 then -1 else firstNonSpaceForward rest 0 + 1
    else if firstNonSpaceForward rest (lo - 1) < 0 then -1
    else firstNonSpaceForward rest (lo - 1) + 1

/-- Modelled from the spec: the `_String` class is declared outside `src/`.
`Find (c, lo, -1)`: the first position at or after `lo` that holds `c`, or
`kNotFound` (-1); a negative `lo`, which `ConstructFunction` passes on when no
identifier is found, gives -1 here. -/
def Find (s : List Char) (c : Char) (lo : Int) : Int :=
  if lo < 0 then -1
  else if c ∈ s.drop lo.toNat then lo + ((s.drop lo.toNat).indexOf c : Int)
  else -1

/-- Modelled from the spec: what `ConstructFunction` calls of the code declared
outside `src/`: the test `IsValidIdentifier (fIDAllowCompound)` of a name,
`AppendContainerName` of a name and a namespace, the namespace that
`_HYGenerateANameSpace` makes for a local function, and the opcode
`HY_HBL_COMMAND_NESTED_LIST`. -/
structure NameHelpers where
  IsValidIdentifier : List Char → Bool
  AppendContainerName : List Char → List Char → List Char
  HYGenerateANameSpace : List Char
  nestedListCode : Int

/-- The function `_ExecutionList::AddNameSpaceToID` (lines 1458-1474) of a list
whose namespace is `nameSpacePrefix`. -/
def AddNameSpaceToID (h : NameHelpers) (nameSpacePrefix : Option (List Char))
    (theID : List Char) (extra : Option (List Char)) : List Char :=
  let name_space : List Char :=
    if pieceNonempty extra then
      match nameSpacePrefix with
      | some name => name ++ '.' :: pieceText extra
      | none => pieceText extra
    else
      match nameSpacePrefix with
      | some name => name
      | none => []
  h.AppendContainerName theID name_space

/-- The globals that `ConstructFunction` and `ConstructReturn` read and write:
`isInFunction` (set for `_HY_FUNCTION`), `returnlist`, the registry of the
functions, and the errors handed to `HandleApplicationError`. -/
structure DeclState where
  isInFunction : Bool
  returnlist : List Int
  registry : Registry (List Command)
  errors : List BuildError
  deriving DecidableEq, Repr

/-- The loop of lines 5889-5892: each position of `returnlist` is taken from
the front, and the return command at that position of the body gets the length
of the body appended to its `simpleParameters`. A position outside the body,
where the code reads outside the list, leaves the body as it is. -/
def patchReturns (functionBody : List Command) : List Int → List Command
  | [] => functionBody
  | r :: rest =>
    patchReturns
      (functionBody.set r.toNat
        { functionBody.getD r.toNat Command.empty with
          simpleParameters :=
            (functionBody.getD r.toNat Command.empty).simpleParameters
              ++ [(functionBody.length : Int)] })
      rest

/-- One turn of the loop of lines 5857-5867 over the arguments of a function:
the argument with the namespace added, and whether it is passed by reference
(its name then ends in `&`, which is cut off). -/
def declaredArgument (h : NameHelpers) (nameSpacePrefix : Option (List Char))
    (extraNamespace : List Char) (argument : List Char) : List Char × Bool :=
  let namespaced := AddNameSpaceToID h nameSpacePrefix argument (some extraNamespace)
  if get_char namespaced ((namespaced.length : Int) - 1) = '&' then
    (Cut namespaced 0 ((namespaced.length : Int) - 2), true)
  else (namespaced, false)

/-- The command that holds the list of a namespace (lines 5921-5922); the list
itself is an object and is not among the texts of `parameters`. -/
def nestedListCommand (nestedListCode : Int) : Command :=
  { code := nestedListCode, text := [], parameters := [], simpleParameters := [] }

/-- The function `_ElementaryCommand::ConstructFunction` (lines 5792-5934) on
the statement `source` and the list `chain` whose namespace is
`nameSpacePrefix`: the flag returned, the list and the globals as they are
left. `newList` stands for the constructor `_ExecutionList (source,
namespaceID, copySource, successFlag)` (lines 960-971), which builds the body
into a list of its own: it gives the flag of that `BuildList`, the commands of
the new list and the globals after it. `operator[]` of `_String` is declared
outside `src/`; an index outside the text reads as `get_char` does. The result
is `none` when `ExtractConditions` gives none. -/
def ConstructFunction (h : NameHelpers) (quote_type : QuoteType)
    (newList : List Char → DeclState → Bool × List Command × DeclState)
    (nameSpacePrefix : Option (List Char)) (source : List Char) (chain : List Command)
    (g : DeclState) : Option (Bool × List Command × DeclState) :=
  let isFFunction := blFFunction.isPrefixOf source
  let isLFunction := blLFunction.isPrefixOf source
  let isNameSpace := blNameSpace.isPrefixOf source
  if isNameSpace = false ∧ g.isInFunction = true then
    some (false, chain, { g with errors := g.errors ++ [BuildError.nestedFunction] })
  else
    let mark1 := firstNonSpaceForward source
      (if isNameSpace then blNameSpace.length
       else if isFFunction || isLFunction then blFFunction.length else blFunction.length)
    let mark2 := Find source (if isNameSpace then chLBrace else '(') mark1
    if mark1 = -1 ∨ mark2 = -1 ∨ mark1 > mark2 - 1 then
      some (false, chain,
        { g with isInFunction := false, errors := g.errors ++ [BuildError.missingIdentifier] })
    else if h.IsValidIdentifier (Cut source mark1 (mark2 - 1)) = false then
      some (false, chain,
        { g with isInFunction := false, errors := g.errors ++ [BuildError.invalidIdentifier] })
    else
      let funcID := AddNameSpaceToID h nameSpacePrefix (Cut source mark1 (mark2 - 1)) none
      if isNameSpace = false then
        match FindBFFunctionName g.registry.batchLanguageFunctionNames funcID none with
        | none => none
        | some slot =>
          match ExtractConditions quote_type source (mark2 + 1).toNat ',' false with
          | none => none
          | some (arguments, upto) =>
            if upto = (source.length : Int) ∨ get_char source upto ≠ chLBrace
                ∨ get_char source ((source.length : Int) - 1) ≠ chRBrace then
              some (false, chain,
                { g with isInFunction := false,
                         errors := g.errors ++ [BuildError.missingFunctionBody] })
            else
              let extraNamespace := if isLFunction then h.HYGenerateANameSpace else []
              let declared := arguments.map (declaredArgument h nameSpacePrefix extraNamespace)
              let r := newList (Cut source (upto + 1) ((source.length : Int) - 2))
                { g with isInFunction := true }
              some (true, chain,
                { r.2.2 with
                  isInFunction := false,
                  returnlist := [],
                  registry := registerSlot slot r.2.2.registry funcID
                    (patchReturns r.2.1 r.2.2.returnlist) (declared.map Prod.fst)
                    (declared.map Prod.snd) isLFunction isFFunction })
      else if mark2 = (source.length : Int) ∨ get_char source mark2 ≠ chLBrace
          ∨ get_char source ((source.length : Int) - 1) ≠ chRBrace then
        some (false, chain,
          { g with isInFunction := false,
                   errors := g.errors ++ [BuildError.missingNamespaceBody] })
      else
        let r := newList (Cut source (mark2 + 1) ((source.length : Int) - 2)) g
        if r.1 = true then
          some (true, chain ++ [nestedListCommand h.nestedListCode],
            { r.2.2 with isInFunction := false })
        else some (false, chain, r.2.2)

/-- The globals before any declaration: outside a function, no pending return,
an empty registry. -/
def noDeclarations : DeclState :=
  { isInFunction := false, returnlist := [],
    registry := { batchLanguageFunctions := [], batchLanguageFunctionNames := [],
                  batchLanguageFunctionParameterLists := [],
                  batchLanguageFunctionParameterTypes := [],
                  batchLanguageFunctionClassification := [] },
    errors := [] }

/-! ## `BuildList` (batchlan.cpp, lines 1504-1741) -/

/-- Modelled from the spec: the opcodes `HY_HBL_COMMAND_*` are declared outside
`src/`. The case of the `switch` of lines 1566-1613 that the code found in the
keyword trie selects: `for`, `while`, `break`, `continue`, one of the commands
handed to `ExtractValidateAddHBLCommand`, or no case. -/
inductive SwitchCase where
  | forLoop
  | whileLoop
  | breakStmt
  | continueStmt
  | validated
  | noCase
  deriving DecidableEq, Repr

/-- Modelled from the spec: the class `_HBLCommandExtras` is declared outside
`src/`. Its fields that lines 1530-1563 read: where the arguments start, the
character that separates them, the allowed argument counts, and whether the
statement is trimmed to what follows the arguments. -/
structure CommandExtras where
  cut_string : Nat
  extract_condition_separator : Char
  extract_conditions : List Int
  do_trim : Bool
  deriving DecidableEq, Repr

/-- Modelled from the spec: the tries `_HY_ValidHBLExpressions` and
`_HY_HBLCommandHelper` are declared outside `src/`. What the lookups of lines
1523-1533 give for a statement: nothing when no keyword matches, and otherwise
the case of the `switch` with the extras of the command, if it has any. -/
abbrev Lookup := List Char → Option (SwitchCase × Option CommandExtras)

/-- The functions that `BuildList` calls to build one statement: the builders
of loops, of declarations, of returns and of `if`, the constructors of the
other commands (`ExtractValidateAddHBLCommand`, `ProcessInclude`,
`ConstructDataSet` and the like, declared outside `src/`), and `BuildList`
itself on a part of the statement. -/
inductive Builder where
  | BuildFor
  | BuildWhile
  | ExtractValidateAddHBLCommand
  | ConstructFunction
  | ConstructReturn
  | BuildIfThenElse
  | BuildDoWhile
  | otherConstructor
  | BuildList
  deriving DecidableEq, Repr

/-- The calls that `BuildList` makes to build one statement, each as a function
of the statement, of the pieces extracted from it and of the list: the flag
that the call returns and the list as the call leaves it. -/
abbrev Builders := Builder → List Char → Option (List (List Char)) → BuildState →
  Bool × BuildState

/-- The test of lines 1538-1556 on the number `n` of pieces: the count is among
the allowed ones (`Find` gives an index), or the single allowed entry is
negative and `n` is not below its absolute value. -/
def countAccepted (extract_conditions : List Int) (n : Nat) : Bool :=
  if extract_conditions.contains (n : Int) then true
  else if extract_conditions.length = 1 ∧ extract_conditions.getD 0 0 < 0 then
    !decide ((n : Int) < -extract_conditions.getD 0 0)
  else false

/-- What lines 1530-1563 leave: the pieces and the statement with which the
construction proceeds, or the failure of the argument count. -/
inductive Extraction where
  | proceeds (pieces : Option (List (List Char))) (currentLine : List Char)
  | fails
  deriving DecidableEq, Repr

/-- The lines 1530-1563 of `BuildList`: for a command with extras that list
argument counts, the arguments are extracted and counted. The result is `none`
when `ExtractConditions` gives none. -/
def extractPieces (quote_type : QuoteType) (found : Option (SwitchCase × Option CommandExtras))
    (currentLine : List Char) : Option Extraction :=
  match found with
  | some (_, some extras) =>
    if 0 < extras.extract_conditions.length then
      match ExtractConditions quote_type currentLine extras.cut_string
          extras.extract_condition_separator defaultIncludeEmpty with
      | none => none
      | some (pieces, upto) =>
        if countAccepted extras.extract_conditions pieces.length = true then
          some (Extraction.proceeds (some pieces)
            (if extras.do_trim then Cut currentLine upto (-1) else currentLine))
        else some Extraction.fails
    else some (Extraction.proceeds none currentLine)
  | _ => some (Extraction.proceeds none currentLine)

/-- How the work of `BuildList` on one statement ends: it goes on with the
buffer, or it returns `false` at once. -/
inductive StatementOutcome where
  | goesOn (st : BuildState)
  | returnsFalse (st : BuildState)
  deriving DecidableEq, Repr

/-- The loop of lines 1642-1645, which counts the braces that wrap the text of
an `else` branch: `scopeIn` and `index` as the loop leaves them. The reads are
the bounds-checked ones. -/
def stripScope (currentLine : List Char) : Nat → Nat → Int → Nat × Int
  | 0, scopeIn, index => (scopeIn, index)
  | fuel + 1, scopeIn, index =>
    if get_char currentLine scopeIn = chLBrace ∧ get_char currentLine index = chRBrace then
      stripScope currentLine fuel (scopeIn + 1) (index - 1)
    else (scopeIn, index)

/-- The branch of `BuildList` for an `else` statement (lines 1629-1668). -/
def buildElse (B : Builders) (currentLine : List Char) (st : BuildState) : StatementOutcome :=
  if st.lastif.length ≠ 0 then
    let temp := st.commands.length
    let lc := st.lastif.length
    let lif := st.lastif.getD (lc - 1) 0
    let stuff := (MakeJumpCommand Command.empty none 0 0).2
    let line1 := Cut currentLine 4 (-1)
    let scope := stripScope line1 line1.length 0 ((line1.length : Int) - 1)
    let line2 := if scope.1 ≠ 0 then Cut line1 scope.1 scope.2 else line1
    let st2 := (B Builder.BuildList line2 none { st with commands := st.commands ++ [stuff] }).2
    if lif < 0 ∨ (st2.commands.length : Int) ≤ lif then
      StatementOutcome.returnsFalse { st2 with errors := st2.errors ++ [BuildError.elseWithoutIf] }
    else
      let patched := st2.commands.set lif.toNat
        (MakeJumpCommand (st2.commands.getD lif.toNat Command.empty) none (-1)
          ((temp : Int) + 1)).2
      let closed := patched.modify
        (fun c => { c with simpleParameters := c.simpleParameters.set 0 (patched.length : Int) })
        temp
      StatementOutcome.goesOn
        { st2 with commands := closed, lastif := st2.lastif.take (lc - 1) }
  else
    StatementOutcome.returnsFalse { st with errors := st.errors ++ [BuildError.elseWithoutIf] }

/-- The loop of lines 1717-1719, which removes the semicolons at the end of a
statement; `Trim (0, length-2)` keeps a statement of one character as it is, so
the result is `none` when the statement consists of semicolons only and the
loop does not end. -/
def stripSemicolons : Nat → List Char → Option (List Char)
  | 0, currentLine => if currentLine.getLast? = some ';' then none else some currentLine
  | fuel + 1, currentLine =>
    if currentLine.getLast? = some ';' then
      stripSemicolons fuel (Cut currentLine 0 ((currentLine.length : Int) - 2))
    else some currentLine

/-- The loop of lines 1729-1732: the statement is cut into parts by
`FindNextCommand`, and `BuildList` is called on each part. -/
def buildParts (kw : KeywordTable) (B : Builders) : Nat → List Char → BuildState →
    Option BuildState
  | 0, currentLine, st => if currentLine = [] then some st else none
  | fuel + 1, currentLine, st =>
    if currentLine ≠ [] then
      match FindNextCommand kw currentLine with
      | none => none
      | some out =>
        buildParts kw B fuel out.input
          (B Builder.BuildList out.result none
            { st with errors := noteParse out st.errors }).2
    else some st

/-- The branch of `BuildList` for a statement that no keyword starts (lines
1713-1734): a statement that `FindNextCommand` returns whole becomes one
command with opcode `0`, unless it has at most one character; any other
statement is built part by part. -/
def buildFormula (kw : KeywordTable) (B : Builders) (currentLine : List Char)
    (st : BuildState) : Option StatementOutcome :=
  match FindNextCommand kw currentLine with
  | none => none
  | some out =>
    let st1 := { st with errors := noteParse out st.errors }
    if out.result.length = currentLine.length then
      if 1 < currentLine.length then
        match stripSemicolons currentLine.length currentLine with
        | none => none
        | some line => some (StatementOutcome.goesOn
            { st1 with commands := st1.commands ++ [formulaCommand line] })
      else some (StatementOutcome.goesOn st1)
    else
      (buildParts kw B currentLine.length currentLine st1).map StatementOutcome.goesOn

/-- Modelled from the spec: the `_String` class is declared outside `src/`.
`BeginsWith`: the statement starts with the keyword. -/
def BeginsWith (currentLine pattern : List Char) : Bool := pattern.isPrefixOf currentLine

/-- Modelled from the spec: the `_String` class is declared outside `src/`.
`BeginsWithAndIsNotAnIdent`: the statement starts with the keyword, and the
character after the keyword does not continue an identifier. -/
def BeginsWithAndIsNotAnIdent (currentLine pattern : List Char) : Bool :=
  BeginsWith currentLine pattern
    && !(isalnum (get_char currentLine pattern.length)
          || get_char currentLine pattern.length == '.'
          || get_char currentLine pattern.length == '_')

/-- The keywords `blFunction`, `blFFunction`, `blLFunction` and `blNameSpace`
(lines 148-151), which start a declaration. -/
def declarationKeywords : List (List Char) :=
  ["function ".toList, "ffunction ".toList, "lfunction ".toList, "namespace ".toList]

/-- The keyword `blReturnPrefix` (line 153). -/
def blReturnPrefix : List Char := "return".toList

/-- The keywords of lines 1672-1709, in the order of the tests: each of them
sends the statement to a constructor that is declared outside `src/`. -/
def constructorKeywords : List (List Char) :=
  ["#include".toList, "DataSet ".toList, "DataSetFilter ".toList, "Tree ".toList,
   "Topology ".toList, "LikelihoodFunction ".toList, "LikelihoodFunction3 ".toList,
   "fscanf(".toList, "sscanf(".toList, "category ".toList, "GetNeutralNull(".toList,
   "Model ".toList, "ChoiceList(".toList, "ExecuteCommands(".toList, "ExecuteAFile(".toList,
   "LoadFunctionLibrary(".toList, "MPISend(".toList, "MPIReceive(".toList,
   "StateCounter(".toList, "DoSQL(".toList, "AlignSequences(".toList, "#profile".toList,
   "SCFG ".toList, "BayesianGraphicalModel ".toList]

/-- The lines 1620-1737 of `BuildList`, for a statement that the `switch` has
not handled: the chain of tests on the keyword that starts the statement. The
flags that the builders return are dropped. -/
def buildUnhandled (kw : KeywordTable) (B : Builders) (currentLine : List Char)
    (st : BuildState) : Option StatementOutcome :=
  if declarationKeywords.any (BeginsWith currentLine) = true then
    some (StatementOutcome.goesOn (B Builder.ConstructFunction currentLine none st).2)
  else if BeginsWithAndIsNotAnIdent currentLine blReturnPrefix = true then
    some (StatementOutcome.goesOn (B Builder.ConstructReturn currentLine none st).2)
  else if BeginsWith currentLine blIf = true then
    some (StatementOutcome.goesOn (B Builder.BuildIfThenElse currentLine none st).2)
  else if BeginsWith currentLine blElse = true then
    some (buildElse B currentLine st)
  else if BeginsWith currentLine blDo = true then
    some (StatementOutcome.goesOn (B Builder.BuildDoWhile currentLine none st).2)
  else if constructorKeywords.any (BeginsWith currentLine) = true then
    some (StatementOutcome.goesOn (B Builder.otherConstructor currentLine none st).2)
  else buildFormula kw B currentLine st

/-- The case of `break` and `continue` (lines 1575-1585): inside a loop a
placeholder is appended and its position is recorded in `bc`, as it is for a
`break` and negated for a `continue`; outside a loop the error is reported and
`BuildList` returns `false`. -/
def buildBreakOrContinue (isBreak : Bool) (st : BuildState) : StatementOutcome :=
  match st.bc with
  | some bc =>
    StatementOutcome.goesOn
      { st with
        commands := st.commands ++ [Command.empty],
        bc := some (bc ++ [if isBreak then (st.commands.length : Int)
                           else -(st.commands.length : Int)]) }
  | none =>
    StatementOutcome.returnsFalse { st with errors := st.errors ++ [BuildError.loopContext] }

/-- The lines 1522-1737 of `BuildList`, the work on one statement: the lookup
of the keyword, the extraction of the arguments, the `switch`, and the chain of
tests for a statement that the `switch` has not handled. -/
def BuildStatement (quote_type : QuoteType) (kw : KeywordTable) (L : Lookup) (B : Builders)
    (currentLine : List Char) (st : BuildState) : Option StatementOutcome :=
  match extractPieces quote_type (L currentLine) currentLine with
  | none => none
  | some Extraction.fails =>
    some (StatementOutcome.returnsFalse
      { st with errors := st.errors ++ [BuildError.incorrectArguments] })
  | some (Extraction.proceeds pieces line) =>
    match (L currentLine).map Prod.fst with
    | some SwitchCase.forLoop =>
      some (StatementOutcome.goesOn (B Builder.BuildFor line pieces st).2)
    | some SwitchCase.whileLoop =>
      some (StatementOutcome.goesOn (B Builder.BuildWhile line pieces st).2)
    | some SwitchCase.breakStmt => some (buildBreakOrContinue true st)
    | some SwitchCase.continueStmt => some (buildBreakOrContinue false st)
    | some SwitchCase.validated =>
      some (StatementOutcome.goesOn
        (B Builder.ExtractValidateAddHBLCommand line pieces st).2)
    | _ => buildUnhandled kw B line st

/-- The loop of `BuildList` (lines 1513-1737), at most `fuel` turns of it:
`FindNextCommand` takes the next statement from the buffer `s`, a leading `}`
is cut, and line 1520 sends a statement that is not empty back to the head of
the loop. The result is `none` when the turns do not suffice or a scanner
gives none. -/
def buildListLoop (quote_type : QuoteType) (kw : KeywordTable) (L : Lookup) (B : Builders) :
    Nat → List Char → BuildState → Option StatementOutcome
  | 0, s, st => if s = [] then some (StatementOutcome.goesOn st) else none
  | fuel + 1, s, st =>
    if s ≠ [] then
      match FindNextCommand kw s with
      | none => none
      | some out =>
        let st1 := { st with errors := noteParse out st.errors }
        let currentLine :=
          if get_char out.result 0 = chRBrace then Cut out.result 1 (-1) else out.result
        if currentLine ≠ [] then buildListLoop quote_type kw L B fuel out.input st1
        else
          match BuildStatement quote_type kw L B currentLine st1 with
          | none => none
          | some (StatementOutcome.goesOn st2) =>
            buildListLoop quote_type kw L B fuel out.input st2
          | some (StatementOutcome.returnsFalse st2) =>
            some (StatementOutcome.returnsFalse st2)
    else some (StatementOutcome.goesOn st)

/-- The function `_ExecutionList::BuildList` (lines 1504-1741) on the buffer
`s` and the list held in `st`, given the value of the global
`terminate_execution` at entry: the flag returned and the list as it is left.
The result is `none` when a scanner gives none. -/
def BuildList (quote_type : QuoteType) (kw : KeywordTable) (L : Lookup) (B : Builders)
    (terminate_execution : Bool) (empty_is_success : Bool) (s : List Char) (st : BuildState) :
    Option (Bool × BuildState) :=
  if terminate_execution then some (false, st)
  else
    match buildListLoop quote_type kw L B s.length s st with
    | none => none
    | some (StatementOutcome.goesOn st1) =>
      some (empty_is_success || decide (st1.commands ≠ []), st1)
    | some (StatementOutcome.returnsFalse st1) => some (false, st1)

/-- A call of `BuildList` made by a builder on the list held in `st`, with
`terminate_execution` clear at entry: the flag returned and the state as it is
left. `BuildList` returns on every buffer, so the second case does not
occur. -/
def nestedBuildList (quote_type : QuoteType) (kw : KeywordTable) (L : Lookup) (B : Builders)
    (empty_is_success : Bool) (text : List Char) (st : BuildState) : Bool × BuildState :=
  match BuildList quote_type kw L B false empty_is_success text st with
  | some r => r
  | none => (false, st)

/-- The constructor `_ExecutionList (source, namespaceID, copySource,
successFlag)` (lines 960-971): `BuildList (source, nil, false, true)` on a
fresh list. It gives the flag, the commands of the new list, and the globals
with the errors of the build added; the builders that `BuildList` calls enter
as `B`, which acts on the list. -/
def newExecutionList (quote_type : QuoteType) (kw : KeywordTable) (L : Lookup) (B : Builders)
    (source : List Char) (g : DeclState) : Bool × List Command × DeclState :=
  ((nestedBuildList quote_type kw L B true source emptyBuild).1,
   (nestedBuildList quote_type kw L B true source emptyBuild).2.commands,
   { g with
     errors := g.errors ++ (nestedBuildList quote_type kw L B true source emptyBuild).2.errors })

/-- A keyword trie without an entry. -/
def noKeywords : Lookup := fun _ => none

/-- Builders for the examples: each call appends one formula command made of
the statement and returns `true`. -/
def formulaBuilders : Builders :=
  fun _ currentLine _ st =>
    (true, { st with commands := st.commands ++ [formulaCommand currentLine] })

/-- The last error reported is one of the errors at which `BuildList` itself
returns `false`: a wrong number of arguments (line 1557), a `break` or a
`continue` outside a loop (line 1581), an `else` without an open `if` (lines
1655 and 1666). -/
def ownError (st : BuildState) : Prop :=
  st.errors.getLast? = some BuildError.incorrectArguments
    ∨ st.errors.getLast? = some BuildError.loopContext
    ∨ st.errors.getLast? = some BuildError.elseWithoutIf

/-- A keyword trie for the examples: every statement is a command handed to
`ExtractValidateAddHBLCommand` whose arguments start at position `4`, are
separated by `,` and must be two. -/
def twoArguments : Lookup :=
  fun _ => some (SwitchCase.validated,
    some { cut_string := 4, extract_condition_separator := ',', extract_conditions := [2],
           do_trim := false })

/-- The command that a `return` with the given expression is, with the jump
targets `targets`. -/
def returnCommand (expression : Option (List Char)) (targets : List Int) : Command :=
  { code := 14, text := [],
    parameters := match expression with
      | some cut_s => [cut_s]
      | none => [],
    simpleParameters := targets }

/-! ## Merging data sets (batchlan.cpp, lines 1948-1954, 4287-4318 and
5192-5224) -/

/-- The branch of `_ElementaryCommand::ConstructDataSet` for `Concatenate` and
`Combine` (lines 5192-5224) on the list `target`, given what lines 5138-5153
cut out of the statement with `_String` helpers declared outside `src/`: the
identifier `dsID`, the operation `oper` and the position `mark1` of the opening
parenthesis. The result is the flag returned and the list as it is left (`false`
after `HandleErrorWhileParsing`), and `none` when `ExtractConditions` gives
none. The command built has the opcode `16`, the flag `1` for `Concatenate`
and `2` for `Combine`, negated when the first argument is `purge`, and the
identifier followed by the other arguments as parameters. -/
def ConstructDataSet_merge (quote_type : QuoteType) (source : List Char) (mark1 : Nat)
    (dsID oper : List Char) (target : List Command) : Option (Bool × List Command) :=
  match ExtractConditions quote_type source (mark1 + 1) ',' defaultIncludeEmpty with
  | none => none
  | some (pieces, _) =>
    if pieces.length = 0 then some (false, target)
    else
      let flag : Int := if oper = "Concatenate".toList then 1 else 2
      let purged : Bool := decide (pieces.head? = some "purge".toList)
      let dsc : Command :=
        { code := 16, text := [],
          parameters := dsID :: (if purged then pieces.drop 1 else pieces),
          simpleParameters := [if purged then flag * -1 else flag] }
      if dsc.parameters.length ≤ 1 then some (false, target)
      else some (true, target ++ [dsc])

/-- The two operations of `_DataSet` that case 16 of
`_ElementaryCommand::Execute` chooses between (line 4303). -/
inductive MergeOperation where
  | Concatenate
  | Combine
  deriving DecidableEq, Repr

/-- The choice of line 4303: `Concatenate` when `simpleParameters (0)` is `1`
or `-1`, and `Combine` otherwise. -/
def mergeOperation (cmd : Command) : MergeOperation :=
  if cmd.simpleParameters.getD 0 0 = 1 ∨ cmd.simpleParameters.getD 0 0 = -1 then
    MergeOperation.Concatenate
  else MergeOperation.Combine

/-- The test of line 4307: the merged data sets are purged when the result was
stored (`StoreADataSet`, declared outside `src/`, returned `true`) and
`simpleParameters (0)` is negative. -/
def purgesSources (cmd : Command) (stored : Bool) : Bool :=
  stored && decide (cmd.simpleParameters.getD 0 0 < 0)

/-- The name of the operation in the text that `_ElementaryCommand::toStr`
gives for a command with opcode `16` (line 1949):
`labs (simpleParameters (0)) == 1 ? "Combine" : "Concatenate"`. -/
def mergeName (cmd : Command) : List Char :=
  if (cmd.simpleParameters.getD 0 0).natAbs = 1 then "Combine".toList
  else "Concatenate".toList

/-- The command of a merge for the examples: the flag that lines 5207-5213
store for the operation named and for the presence of `purge`. -/
def mergeCommand (concatenates purge : Bool) : Command :=
  { code := 16, text := [], parameters := ["d".toList, "a".toList, "b".toList],
    simpleParameters := [(if concatenates then 1 else 2) * (if purge then -1 else 1)] }

/-! ## Identifiers and the namespace of a list (batchlan.cpp, lines 1478-1486) -/

/-- The function `_ExecutionList::TrimNameSpaceFromID` (lines 1478-1486):
`nameSpacePrefix` is the name of the namespace of the list, if it has one. An
identifier that begins with that name is cut from the position after the
character that follows the name. -/
def TrimNameSpaceFromID (nameSpacePrefix : Option (List Char)) (theID : List Char) :
    List Char :=
  match nameSpacePrefix with
  | some prefix_name =>
    if BeginsWith theID prefix_name = true then
      Cut theID ((prefix_name.length : Int) + 1) (-1)
    else theID
  | none => theID

/-! ## The report of an error of a list (batchlan.cpp, lines 1063-1085) -/

/-- What the builder, the executor and `toStr` make of a merge statement: the
flag that `ConstructDataSet_merge` stores in the command it appends to an
empty list, the operation that the executor chooses for that command, whether
it purges the sources once the result is stored, and the name of the operation
in the text of `toStr`. -/
def mergeReading (source : List Char) (mark1 : Nat) (oper : List Char) :
    Option (List Int × MergeOperation × Bool × List Char) :=
  (ConstructDataSet_merge QuoteType.normal_text source mark1 "ds".toList oper []).bind
    (fun r => r.2.getLast?.map
      (fun c => (c.simpleParameters, mergeOperation c, purgesSources c true, mergeName c)))

/-! ## The fast path of a list (batchlan.cpp, lines 1226-1370 and 2091-2154) -/

/-- Modelled from the spec: the parse codes `HY_FORMULA_*` are declared outside
`src/`. The kinds of the value of `Parse` that `TryToMakeSimple` tells apart
(line 1251): an expression, the assignment of a value to a variable, the
assignment of a value to an element of a matrix, and every other value. -/
inductive ParseKind where
  | expression
  | variableValueAssignment
  | formulaValueAssignment
  | other
  deriving DecidableEq, Repr

/-- Modelled from the spec: `Parse`, `_Formula` and `_FormulaParsingContext`
are declared outside `src/`. What the formula machinery answers while
`TryToMakeSimple` looks at one command: for a formula statement the value of
`Parse` with its kind, the handles of the two formulas, the answers of
`AmISimple` for them, whether the checks of lines 1257-1263 on the shape of an
assignment to a matrix element pass, and `assignmentRefID`; for a jump the
outcome of `Parse` on its condition and the answer of `AmISimple` for the
formula at `simpleParameters (2)`. -/
structure SimpleOracle where
  parseCode : Int
  kind : ParseKind
  f : Int
  f2 : Int
  fSimple : Bool
  f2Simple : Bool
  assignmentShape : Bool
  assignmentRefID : Int
  condition : ParseOutcome
  conditionSimple : Bool
  deriving DecidableEq, Repr

/-- The local lists of `TryToMakeSimple` (lines 1228-1230). The variables that
`AmISimple` itself adds to `varList`, and `stackDepth`, are not kept. -/
structure SimpleLists where
  varList : List Int
  formulaeToConvert : List Int
  parseCodes : List Int
  deriving DecidableEq, Repr

/-- The class `_CELInternals` as far as `TryToMakeSimple` fills it (lines
1343-1366): the variables and, for each command, the slot in which its value
is stored, or `-1`. -/
structure CELInternals where
  varList : List Int
  storeResults : List Int
  deriving DecidableEq, Repr

/-- The body of the loop of `TryToMakeSimple` (lines 1237-1339) for one
command: the value of `status`, the command and the local lists as they are
left. A formula statement that qualifies gets the four entries of lines
1279-1284 appended to its `simpleParameters`; a jump with a condition that
parses gets the handle of the formula appended (line 1320). The result is
`none` when line 1325 reads `simpleParameters (2)` and the list is shorter. -/
def tmsStep (o : SimpleOracle) (cmd : Command) (acc : SimpleLists) :
    Option (Bool × Command × SimpleLists) :=
  if cmd.code = 0 then
    if (cmd.parameters.getD 0 []).getLast? ≠ some chRBrace then
      if o.kind ≠ ParseKind.other ∧ o.fSimple = true then
        if o.kind = ParseKind.formulaValueAssignment
            ∧ ¬ (o.f2Simple = true ∧ o.assignmentShape = true) then
          some (false, cmd, acc)
        else
          let f := if o.kind = ParseKind.formulaValueAssignment then o.f2 else o.f
          let f2 := if o.kind = ParseKind.formulaValueAssignment then o.f else o.f2
          some (true,
            { cmd with
              simpleParameters :=
                cmd.simpleParameters ++ [o.parseCode, f, f2, o.assignmentRefID] },
            { varList :=
                if o.kind = ParseKind.variableValueAssignment
                    ∧ ¬ o.assignmentRefID ∈ acc.varList
                then acc.varList ++ [o.assignmentRefID] else acc.varList,
              formulaeToConvert := acc.formulaeToConvert ++ [f],
              parseCodes := acc.parseCodes
                ++ [if o.kind = ParseKind.variableValueAssignment then o.assignmentRefID
                    else -1] })
      else some (false, cmd, acc)
    else some (false, cmd, acc)
  else if cmd.code = 4 then
    let acc1 := { acc with parseCodes := acc.parseCodes ++ [-1] }
    if cmd.simpleParameters.length = 3 ∨ cmd.parameters.length ≠ 0 then
      let cmd1 :=
        if cmd.parameters.length ≠ 0 then
          match o.condition with
          | ParseOutcome.expression _ formula =>
            { cmd with simpleParameters := cmd.simpleParameters ++ [formula] }
          | ParseOutcome.notExpression => cmd
        else cmd
      if cmd1.simpleParameters.length ≤ 2 then none
      else if o.conditionSimple = true then
        some (true, cmd1,
          { acc1 with
            formulaeToConvert := acc1.formulaeToConvert ++ [cmd1.simpleParameters.getD 2 0] })
      else some (false, cmd1, acc1)
    else some (true, cmd, acc1)
  else some (false, cmd, acc)

/-- The loop of `TryToMakeSimple` (lines 1236-1340) from the command at `k`
on: it stops at the first command that leaves `status` false. -/
def tmsLoop (o : Nat → SimpleOracle) :
    Nat → List Command → SimpleLists → Option (Bool × List Command × SimpleLists)
  | _, [], acc => some (true, [], acc)
  | k, cmd :: rest, acc =>
    match tmsStep (o k) cmd acc with
    | none => none
    | some (false, cmd1, acc1) => some (false, cmd1 :: rest, acc1)
    | some (true, cmd1, acc1) =>
      match tmsLoop o (k + 1) rest acc1 with
      | none => none
      | some (status, rest1, acc2) => some (status, cmd1 :: rest1, acc2)

/-- The function `_ExecutionList::TryToMakeSimple` (lines 1226-1370) on the
commands of a list whose member `cli` is `cli`: the value returned, the
commands and `cli` as they are left. -/
def TryToMakeSimple (o : Nat → SimpleOracle) (commands : List Command)
    (cli : Option CELInternals) : Option (Bool × List Command × Option CELInternals) :=
  match tmsLoop o 0 commands { varList := [], formulaeToConvert := [], parseCodes := [] } with
  | none => none
  | some (true, commands1, acc) =>
    some (true, commands1,
      some { varList := acc.varList,
             storeResults := acc.parseCodes.map
               (fun p => if p < 0 then -1 else (acc.varList.indexOf p : Int)) })
  | some (false, commands1, _) => some (false, commands1, cli)

/-- What `TryToMakeSimple` asks of one command (lines 1238-1336): a formula
statement that does not end in a closing brace, whose parse is of one of the
three kinds, whose formula is simple and, for an assignment to a matrix
element, whose second formula is simple and whose shape passes; or a jump
whose condition, if it has one, is simple. -/
def qualifies (o : SimpleOracle) (cmd : Command) : Bool :=
  (decide (cmd.code = 0)
      && decide ((cmd.parameters.getD 0 []).getLast? ≠ some chRBrace)
      && decide (o.kind ≠ ParseKind.other) && o.fSimple
      && (!decide (o.kind = ParseKind.formulaValueAssignment)
            || (o.f2Simple && o.assignmentShape)))
    || (decide (cmd.code = 4)
          && (!decide (cmd.simpleParameters.length = 3 ∨ cmd.parameters.length ≠ 0)
                || o.conditionSimple))

/-- How `_ElementaryCommand::ExecuteCase0` (lines 2091-2154) goes about a
formula statement: on the fast path of lines 2098-2106, by compiling the
statement first (lines 2108-2140), or by the call of `ExecuteFormula` at line
2142 alone, which reads `simpleParameters.lData[0]` to `[4]`; `readsBeyond`
says that the list has fewer than five entries. -/
inductive Case0Path where
  | fast
  | compiles
  | interprets (readsBeyond : Bool)
  deriving DecidableEq, Repr

/-- The path that `ExecuteCase0` takes for a command, by `chain.cli` and by the
length of `simpleParameters` (lines 2098 and 2108). -/
def ExecuteCase0_path (cli : Option CELInternals) (cmd : Command) : Case0Path :=
  match cli with
  | some _ => Case0Path.fast
  | none =>
    if cmd.simpleParameters.length = 0 then Case0Path.compiles
    else Case0Path.interprets (decide (cmd.simpleParameters.length < 5))

/-- The answers of the formula machinery for the examples: every statement is
an expression with the parse code `1`, simple, with the formulas `10` and
`11`. -/
def simpleAnswers : SimpleOracle :=
  { parseCode := 1, kind := ParseKind.expression, f := 10, f2 := 11, fSimple := true,
    f2Simple := true, assignmentShape := true, assignmentRefID := -1,
    condition := ParseOutcome.notExpression, conditionSimple := true }

/-- Modelled from the spec: the trie `_HY_HBL_KeywordsPreserveSpaces` is filled
outside `src/`; the comment at lines 1489-1500 names `return` among its
keywords. A table that holds the keyword `return` only: the reversed text in
front of the blank starts with `nruter`, and the value is the length `6`. -/
def returnKeywordTable : KeywordTable :=
  fun reversed => if "nruter".toList.isPrefixOf reversed then some 6 else none

/-- The rule of the segmenter for literals, as the specification words it: a
quote toggles the literal of its own kind, and inside a literal a backslash
escapes exactly the character that follows it. The state after the text, from
the state `q`; `escaped` says that the next character is escaped. -/
def literalRuleFrom : QuoteType → Bool → List Char → QuoteType
  | q, _, [] => q
  | q, true, _ :: rest => literalRuleFrom q false rest
  | QuoteType.normal_text, false, c :: rest =>
    if c = chDQuote then literalRuleFrom QuoteType.double_quote false rest
    else if c = chSQuote then literalRuleFrom QuoteType.single_quote false rest
    else literalRuleFrom QuoteType.normal_text false rest
  | QuoteType.double_quote, false, c :: rest =>
    if c = chBackslash then literalRuleFrom QuoteType.double_quote true rest
    else if c = chDQuote then literalRuleFrom QuoteType.normal_text false rest
    else literalRuleFrom QuoteType.double_quote false rest
  | QuoteType.single_quote, false, c :: rest =>
    if c = chBackslash then literalRuleFrom QuoteType.single_quote true rest
    else if c = chSQuote then literalRuleFrom QuoteType.normal_text false rest
    else literalRuleFrom QuoteType.single_quote false rest

/-- The rule of the segmenter for literals on a text scanned from outside any
literal: the literal that is open at the end of the text. -/
def literalRule (text : List Char) : QuoteType :=
  literalRuleFrom QuoteType.normal_text false text

/-- The literal state of `FindNextCommand` as a state of `ExtractConditions`. -/
def LiteralState.toQuoteType : LiteralState → QuoteType
  | LiteralState.normal_text => QuoteType.normal_text
  | LiteralState.double_quote => QuoteType.double_quote
  | LiteralState.single_quote => QuoteType.single_quote

/-- The text `"a\\"`: a literal that holds `a` and an escaped backslash. -/
def escapedBackslashLiteral : List Char :=
  [chDQuote, 'a', chBackslash, chBackslash, chDQuote]

/-- The calls of `BuildList` that the builders make on their list: the
`BuildList` above with `terminate_execution` clear, for a keyword trie without
entries, an empty table of the keywords that keep their blank, and
`quote_type` starting as `normal_text`. -/
def listBuilder : List Char → BuildState → Bool × BuildState :=
  nestedBuildList QuoteType.normal_text emptyKeywordTable noKeywords formulaBuilders false

/-- The constructor of a list from a text (lines 960-971) with the `BuildList`
above, for the trie and the table of `listBuilder`. -/
def listConstructor : List Char → DeclState → Bool × List Command × DeclState :=
  newExecutionList QuoteType.normal_text emptyKeywordTable noKeywords formulaBuilders

/-- Helpers of the names for the examples: an identifier is a text of letters,
digits, `_` and `.` that is not empty, a name gets its namespace in front with
a dot, the namespace made for a local function is `local`, and the opcode of a
nested list is `100`. -/
def plainNames : NameHelpers :=
  { IsValidIdentifier := fun s => !s.isEmpty && s.all (fun c => isalnum c || c == '_' || c == '.'),
    AppendContainerName := fun theID name_space =>
      if name_space = [] then theID else name_space ++ '.' :: theID,
    HYGenerateANameSpace := "local".toList,
    nestedListCode := 100 }

/-- A keyword trie for the examples: a statement that starts with `Foo(` is a
command handed to `ExtractValidateAddHBLCommand` whose arguments start at
position `4`, are separated by `,` and must be two; no other statement has an
entry. -/
def fooKeyword : Lookup :=
  fun currentLine =>
    if "Foo(".toList.isPrefixOf currentLine then
      some (SwitchCase.validated,
        some { cut_string := 4, extract_condition_separator := ',', extract_conditions := [2],
               do_trim := false })
    else none

/-- The globals while the body of a function is compiled: `isInFunction` is
set, no return is pending, and the registry is empty. -/
def insideFunction : DeclState := { noDeclarations with isInFunction := true }

/-- A list that holds the one formula command `y=0`. -/
def oneCommandBuild : BuildState :=
  { emptyBuild with commands := [formulaCommand "y=0".toList] }

/-! ## Properties of `ExtractConditions` -/

/-- The three ways a pass of the `ExtractConditions` loop can go. -/
theorem ecBody_cases (source : List Char) (start_at : Nat) (delimeter : Char) (s : ECState) :
    (ecBody source start_at delimeter s
        = ECStep.stop { s with parentheses_depth := s.parentheses_depth - 1 }
      ∧ s.parentheses_depth - 1 ≠ 0 ∧ s.quote_type = QuoteType.normal_text
      ∧ char_at source s.index = ')' ∧ ecSplitsHere source delimeter s = false)
    ∨ (∃ s1, ecBody source start_at delimeter s = ECStep.next s1
        ∧ s1.index = s.index ∧ s1.last_delim = s.last_delim ∧ s1.receptacle = s.receptacle
        ∧ ecSplitsHere source delimeter s = false)
    ∨ (ecBody source start_at delimeter s
        = ECStep.next { s with
            receptacle := s.receptacle ++ [Cut source s.last_delim ((s.index : Int) - 1)],
            last_delim := s.index + 1 }
      ∧ ecSplitsHere source delimeter s = true) := by
  generalize hr : ecBody source start_at delimeter s = r
  unfold ecBody at hr
  simp only [] at hr
  split_ifs at hr <;> subst hr <;> simp_all [ecSplitsHere, cNot]
  left
  intro hq hp hc
  rcases ‹_ ∨ _› with h | h | h
  · omega
  · exact absurd hq h
  · exact absurd hc h


/-- A pass of the `ExtractConditions` loop leaves `index` to the loop header. -/
theorem ecBody_index (source : List Char) (start_at : Nat) (delimeter : Char) (s s1 : ECState)
    (h : ecBody source start_at delimeter s = ECStep.next s1) : s1.index = s.index := by
  rcases ecBody_cases source start_at delimeter s with h1 | ⟨s2, h2, hi, -⟩ | h3
  · rw [h1.1] at h; cases h
  · rw [h2] at h; cases h; exact hi
  · rw [h3.1] at h; cases h; rfl

/-- The loop of `ExtractConditions` ends within `length - index` passes. -/
theorem ecLoop_total (source : List Char) (start_at : Nat) (delimeter : Char) :
    ∀ (fuel : Nat) (s : ECState), source.length ≤ s.index + fuel →
      ∃ s1, ecLoop source start_at delimeter fuel s = some s1 := by
  intro fuel
  induction fuel with
  | zero =>
    intro s h
    refine ⟨s, ?_⟩
    simp only [ecLoop]
    rw [if_neg (by omega)]
  | succ n ih =>
    intro s h
    simp only [ecLoop]
    by_cases hlt : s.index < source.length
    · rw [if_pos hlt]
      rcases hb : ecBody source start_at delimeter s with s1 | s1
      · have hi := ecBody_index source start_at delimeter s s1 hb
        exact ih _ (by simp only []; omega)
      · exact ⟨s1, rfl⟩
    · rw [if_neg hlt]
      exact ⟨s, rfl⟩


/-- A range that starts at or before `idx` and ends at `idx - 1` is the stretch
of the string from `lo` up to, not including, `idx`. -/
theorem Cut_slice (s : List Char) (lo idx : Nat) (h : lo ≤ idx) (hpos : 1 ≤ idx) :
    Cut s lo ((idx : Int) - 1) = (s.drop lo).take (idx - lo) := by
  unfold Cut
  by_cases hlen : s.length = 0
  · have : s = [] := List.length_eq_zero.mp hlen
    subst this
    simp
  · rw [if_neg hlen]
    have hlo : ¬ ((lo : Int) < 0) := by omega
    simp only [hlo, if_false]
    by_cases hbig : ((idx : Int) - 1 < 0 ∨ (s.length : Int) ≤ (idx : Int) - 1)
    · rw [if_pos hbig]
      have hbig2 : s.length ≤ idx - 1 := by omega
      by_cases hc : (0 : Int) < (s.length : Int) - 1 - (lo : Int) + 1
      · rw [if_pos hc]
        have e1 : ((s.length : Int) - 1 - (lo : Int) + 1).toNat = s.length - lo := by omega
        rw [e1, Int.toNat_ofNat]
        rw [List.take_of_length_le (by simp), List.take_of_length_le (by simp; omega)]
      · rw [if_neg hc]
        have : s.length ≤ lo := by omega
        rw [List.drop_of_length_le this]
        simp
    · rw [if_neg hbig]
      by_cases hc : (0 : Int) < (idx : Int) - 1 - (lo : Int) + 1
      · rw [if_pos hc]
        have e1 : ((idx : Int) - 1 - (lo : Int) + 1).toNat = idx - lo := by omega
        rw [e1, Int.toNat_ofNat]
      · rw [if_neg hc]
        have : idx - lo = 0 := by omega
        rw [this]
        simp

/-- The range from `idx` to `idx - 1` is empty. -/
theorem Cut_empty_range (s : List Char) (idx : Nat) (h : idx = 0 → s.length = 0) :
    Cut s idx ((idx : Int) - 1) = [] := by
  by_cases h0 : idx = 0
  · have : s = [] := List.length_eq_zero.mp (h h0)
    subst this
    simp [Cut]
  · rw [Cut_slice s idx idx (le_refl _) (by omega)]
    simp

/-- A range inside the string that starts before `idx` and ends at `idx - 1` is
not empty. -/
theorem Cut_nonempty_range (s : List Char) (lo idx : Nat) (h : lo < idx) (hlen : idx ≤ s.length) :
    Cut s lo ((idx : Int) - 1) ≠ [] := by
  rw [Cut_slice s lo idx (by omega) (by omega)]
  intro hnil
  have := congrArg List.length hnil
  simp at this
  omega


/-- What holds when the loop of `ExtractConditions` has ended, for a loop entered
with `last_delim ≤ index`. -/
theorem ecLoop_exit (source : List Char) (start_at : Nat) (delimeter : Char) :
    ∀ (fuel : Nat) (s s1 : ECState),
      ecLoop source start_at delimeter fuel s = some s1 →
      s.last_delim ≤ s.index →
      (s.last_delim < s.index → s.index ≤ source.length) →
      (s.index = 0 → s.parentheses_depth = 1) →
      s1.last_delim ≤ s1.index
        ∧ (s1.last_delim < s1.index → s1.index ≤ source.length)
        ∧ (s1.index = 0 → source.length = 0)
        ∧ (s1.index < source.length → char_at source s1.index = ')') := by
  intro fuel
  induction fuel with
  | zero =>
    intro s s1 h h1 h2 _
    simp only [ecLoop] at h
    split_ifs at h with hlt
    cases h
    exact ⟨h1, h2, fun h0 => by omega, fun hc => absurd hc hlt⟩
  | succ n ih =>
    intro s s1 h h1 h2 h3
    simp only [ecLoop] at h
    by_cases hlt : s.index < source.length
    · rw [if_pos hlt] at h
      rcases ecBody_cases source start_at delimeter s with ⟨hb, hpd, -, hc, -⟩ | ⟨s2, hb, hi, hl, hr, hsp⟩ | ⟨hb, hsp⟩
      · rw [hb] at h
        simp only [Option.some.injEq] at h
        subst h
        refine ⟨h1, fun _ => le_of_lt hlt, fun h0 => ?_, fun _ => hc⟩
        exact absurd (by rw [h3 h0]; rfl) hpd
      · rw [hb] at h
        exact ih _ s1 h (by simp only []; omega) (by simp only []; omega)
          (by simp only []; omega)
      · rw [hb] at h
        exact ih _ s1 h (by simp only []; omega) (by simp only []; omega)
          (by simp only []; omega)
    · rw [if_neg hlt] at h
      cases h
      exact ⟨h1, h2, fun h0 => by omega, fun hc => absurd hc hlt⟩

/-- The flag `include_empty_conditions` decides about the last segment only,
the text between the last delimiter at which the scan has cut and the place
where the scan stopped: with the flag `ExtractConditions` emits it always,
without the flag it leaves it out exactly when it is empty. The returned
offset is the same in both cases. -/
theorem extractConditions_last_segment (quote_type : QuoteType) (source : List Char)
    (start_at : Nat) (delimeter : Char) :
    ∃ (inner : List (List Char)) (final : List Char) (stop : Int),
      ExtractConditions quote_type source start_at delimeter true
          = some (inner ++ [final], stop)
      ∧ ExtractConditions quote_type source start_at delimeter false
          = some (if final = [] then inner else inner ++ [final], stop) := by
  obtain ⟨s1, hs1⟩ := ecLoop_total source start_at delimeter source.length
    (ecInit start_at quote_type) (by omega)
  obtain ⟨a, b, c, -⟩ := ecLoop_exit source start_at delimeter source.length
    (ecInit start_at quote_type) s1 hs1 (le_refl _) (fun h => absurd h (lt_irrefl _))
    (fun _ => rfl)
  refine ⟨s1.receptacle, Cut source s1.last_delim ((s1.index : Int) - 1), (s1.index : Int) + 1,
    ?_, ?_⟩
  · simp [ExtractConditions, hs1, ecFinish]
  · by_cases hlt : s1.last_delim < s1.index
    · have hne := Cut_nonempty_range source s1.last_delim s1.index hlt (b hlt)
      have hcond : (s1.last_delim : Int) ≤ (s1.index : Int) - 1 := by omega
      simp [ExtractConditions, hs1, ecFinish, hne, hcond]
    · have heq : s1.last_delim = s1.index := by omega
      have hnil := Cut_empty_range source s1.index c
      have hcond : ¬ ((s1.index : Int) ≤ (s1.index : Int) - 1) := by omega
      simp [ExtractConditions, hs1, ecFinish, heq, hnil, hcond]

/-- While the scan of `ExtractConditions` takes itself to be inside a quoted
literal (`quote_type` is not `normal_text`), the pass over any character, in particular
a delimiter, `(`, `)` or a brace, goes on to the next character without
changing the nesting depths, without adding a segment and without moving the
start of the current segment. -/
theorem ecBody_inside_literal (source : List Char) (start_at : Nat)
    (delimeter : Char) (s : ECState) (hq : s.quote_type ≠ QuoteType.normal_text) :
    ∃ s1, ecBody source start_at delimeter s = ECStep.next s1
      ∧ s1.parentheses_depth = s.parentheses_depth ∧ s1.curly_depth = s.curly_depth
      ∧ s1.receptacle = s.receptacle ∧ s1.last_delim = s.last_delim := by
  generalize hr : ecBody source start_at delimeter s = r
  unfold ecBody at hr
  simp only [] at hr
  split_ifs at hr <;> subst hr <;> simp_all

/-- The pass at the `,` inside the literal of the text `"(,)"`. -/
theorem ecBody_inside_literal_example :
    ∃ s1, ecBody [chDQuote, '(', ',', ')', chDQuote] 0 ','
        { index := 2, last_delim := 0, parentheses_depth := 1, curly_depth := 0,
          quote_type := QuoteType.double_quote, receptacle := [] } = ECStep.next s1
      ∧ s1.parentheses_depth = 1 ∧ s1.curly_depth = 0
      ∧ s1.receptacle = [] ∧ s1.last_delim = 0 :=
  ecBody_inside_literal [chDQuote, '(', ',', ')', chDQuote] 0 ','
    { index := 2, last_delim := 0, parentheses_depth := 1, curly_depth := 0,
      quote_type := QuoteType.double_quote, receptacle := [] } (by decide)

/-- Every segment the loop has collected is a stretch of the text between
`start_at` and the position of the scan. -/
theorem ecLoop_slices (source : List Char) (start_at : Nat) (delimeter : Char)
    (hstart : 1 ≤ start_at) :
    ∀ (fuel : Nat) (s s1 : ECState),
      ecLoop source start_at delimeter fuel s = some s1 →
      start_at ≤ s.last_delim → s.last_delim ≤ s.index →
      (∀ seg ∈ s.receptacle, ∃ a b : Nat, start_at ≤ a ∧ a ≤ b ∧ b ≤ s.index
          ∧ seg = (source.drop a).take (b - a)) →
      start_at ≤ s1.last_delim ∧ s1.last_delim ≤ s1.index
        ∧ ∀ seg ∈ s1.receptacle, ∃ a b : Nat, start_at ≤ a ∧ a ≤ b ∧ b ≤ s1.index
          ∧ seg = (source.drop a).take (b - a) := by
  intro fuel
  induction fuel with
  | zero =>
    intro s s1 h h1 h2 h3
    simp only [ecLoop] at h
    split_ifs at h
    cases h
    exact ⟨h1, h2, h3⟩
  | succ n ih =>
    intro s s1 h h1 h2 h3
    simp only [ecLoop] at h
    by_cases hlt : s.index < source.length
    · rw [if_pos hlt] at h
      rcases ecBody_cases source start_at delimeter s with ⟨hb, -⟩ | ⟨s2, hb, hi, hl, hr, -⟩ | ⟨hb, -⟩
      · rw [hb] at h
        simp only [Option.some.injEq] at h
        subst h
        exact ⟨h1, h2, h3⟩
      · rw [hb] at h
        refine ih _ s1 h (by simp only []; omega) (by simp only []; omega) ?_
        intro seg hseg
        simp only [hr] at hseg
        obtain ⟨a, b, ha, hab, hb2, he⟩ := h3 seg hseg
        exact ⟨a, b, ha, hab, by simp only []; omega, he⟩
      · rw [hb] at h
        refine ih _ s1 h (by simp only []; omega) (by simp only []; omega) ?_
        intro seg hseg
        simp only [List.mem_append, List.mem_singleton] at hseg
        rcases hseg with hseg | hseg
        · obtain ⟨a, b, ha, hab, hb2, he⟩ := h3 seg hseg
          exact ⟨a, b, ha, hab, by simp only []; omega, he⟩
        · refine ⟨s.last_delim, s.index, h1, h2, by simp only []; omega, ?_⟩
          rw [hseg, Cut_slice source s.last_delim s.index h2 (by omega)]
    · rw [if_neg hlt] at h
      cases h
      exact ⟨h1, h2, h3⟩

/-- For every text scanned from an offset `start_at ≥ 1` (just
after the `(` the caller consumed), `ExtractConditions` returns one more than
the position at which its scan stopped; that position is the end of the text or
holds a `)`, and every segment is a stretch of the text that begins at or after
`start_at` and ends before that position. -/
theorem extractConditions_offset (quote_type : QuoteType) (source : List Char)
    (start_at : Nat) (delimeter : Char) (include_empty_conditions : Bool)
    (hstart : 1 ≤ start_at) :
    ∃ (s : ECState) (segments : List (List Char)),
      ecLoop source start_at delimeter source.length (ecInit start_at quote_type) = some s
      ∧ ExtractConditions quote_type source start_at delimeter include_empty_conditions
          = some (segments, (s.index : Int) + 1)
      ∧ (s.index < source.length → char_at source s.index = ')')
      ∧ ∀ seg ∈ segments, ∃ a b : Nat, start_at ≤ a ∧ a ≤ b ∧ b ≤ s.index
          ∧ seg = (source.drop a).take (b - a) := by
  obtain ⟨s1, hs1⟩ := ecLoop_total source start_at delimeter source.length
    (ecInit start_at quote_type) (by omega)
  obtain ⟨-, -, -, d⟩ := ecLoop_exit source start_at delimeter source.length
    (ecInit start_at quote_type) s1 hs1 (le_refl _) (fun h => absurd h (lt_irrefl _))
    (fun _ => rfl)
  obtain ⟨p, q, r⟩ := ecLoop_slices source start_at delimeter hstart source.length
    (ecInit start_at quote_type) s1 hs1 (le_refl _) (le_refl _)
    (by intro seg hseg; simp [ecInit] at hseg)
  refine ⟨s1, (ecFinish source include_empty_conditions s1).1, hs1, ?_, d, ?_⟩
  · simp [ExtractConditions, hs1, ecFinish]
  · intro seg hseg
    have hfin : ∃ a b : Nat, start_at ≤ a ∧ a ≤ b ∧ b ≤ s1.index
        ∧ Cut source s1.last_delim ((s1.index : Int) - 1) = (source.drop a).take (b - a) :=
      ⟨s1.last_delim, s1.index, p, q, le_refl _,
        Cut_slice source s1.last_delim s1.index q (by omega)⟩
    simp only [ecFinish] at hseg
    split_ifs at hseg
    · simp only [List.mem_append, List.mem_singleton] at hseg
      rcases hseg with hseg | hseg
      · exact r seg hseg
      · rw [hseg]; exact hfin
    · exact r seg hseg

/-- The offset and the segments on the text `f(a)` scanned from offset 2. -/
theorem extractConditions_offset_example :
    ∃ (s : ECState) (segments : List (List Char)),
      ecLoop "f(a)".toList 2 ',' "f(a)".toList.length (ecInit 2 QuoteType.normal_text) = some s
      ∧ ExtractConditions QuoteType.normal_text "f(a)".toList 2 ',' false
          = some (segments, (s.index : Int) + 1)
      ∧ (s.index < "f(a)".toList.length → char_at "f(a)".toList s.index = ')')
      ∧ ∀ seg ∈ segments, ∃ a b : Nat, 2 ≤ a ∧ a ≤ b ∧ b ≤ s.index
          ∧ seg = ("f(a)".toList.drop a).take (b - a) :=
  extractConditions_offset QuoteType.normal_text "f(a)".toList 2 ',' false (by decide)

/-- C8: in `f(a)`, scanned from offset 2, the `(` has its
matching `)` at position 3, yet the scan runs on to the end of the text: the
only segment is `a)` and the returned offset is 5. -/
theorem extractConditions_runs_past_matching_paren :
    ExtractConditions QuoteType.normal_text "f(a)".toList 2 ',' false
      = some (["a)".toList], 5) := by decide

/-- C7: on the argument text `a,(b,c),d` (alone from offset 0, or wrapped as
`(a,(b,c),d)` from offset 1) the scan breaks at the `)` of the nested group and
`ExtractConditions` yields the two segments `a` and `(b,c`, not the three
segments `a`, `(b,c)`, `d`. -/
theorem extractConditions_nested_group_cut_short :
    ExtractConditions QuoteType.normal_text "a,(b,c),d".toList 0 ',' true
        = some (["a".toList, "(b,c".toList], 7)
      ∧ ExtractConditions QuoteType.normal_text "(a,(b,c),d)".toList 1 ',' true
        = some (["a".toList, "(b,c".toList], 8) := by decide

/-! ## Properties of `FindNextCommand` -/

/-- The nesting step leaves `index` alone. -/
theorem fncStructure_index (input : List Char) (s : FNCState) (c : Char) :
    (fncStructure input s c).state.index = s.index := by
  simp only [fncStructure, apply_ite FNCStep.state]
  simp only [FNCStep.state, apply_ite FNCState.index, ite_self]

/-- The nesting step leaves `result` alone. -/
theorem fncStructure_result (input : List Char) (s : FNCState) (c : Char) :
    (fncStructure input s c).state.result = s.result := by
  simp only [fncStructure, apply_ite FNCStep.state]
  simp only [FNCStep.state, apply_ite FNCState.result, ite_self]

/-- The nesting step leaves `literal_state` alone. -/
theorem fncStructure_literal (input : List Char) (s : FNCState) (c : Char) :
    (fncStructure input s c).state.literal_state = s.literal_state := by
  simp only [fncStructure, apply_ite FNCStep.state]
  simp only [FNCStep.state, apply_ite FNCState.literal_state, ite_self]

/-- The nesting step leaves `comment_state` alone. -/
theorem fncStructure_comment (input : List Char) (s : FNCState) (c : Char) :
    (fncStructure input s c).state.comment_state = s.comment_state := by
  simp only [fncStructure, apply_ite FNCStep.state]
  simp only [FNCStep.state, apply_ite FNCState.comment_state, ite_self]

/-- The branches of `fncText`. -/
theorem fncText_cases (kw : KeywordTable) (input : List Char) (s : FNCState) (c : Char) :
    (s.literal_state = LiteralState.normal_text ∧ isspace c = true
      ∧ fncText kw input s c = FNCStep.next { s with
          result := if keepsSpace kw input s = true then s.result ++ [' '] else s.result,
          skipping := true })
    ∨ (s.literal_state ≠ LiteralState.normal_text ∧ c = chBackslash
      ∧ fncText kw input s c = FNCStep.next { fncAppend s c with
          result := (fncAppend s c).result ++ [get_char input ((s.index : Int) + 1)],
          index := s.index + 1 })
    ∨ (c = chDQuote ∧ s.literal_state ≠ LiteralState.single_quote
      ∧ fncText kw input s c = FNCStep.next { fncAppend s c with
          literal_state := if s.literal_state = LiteralState.normal_text
                           then LiteralState.double_quote else LiteralState.normal_text,
          last_char := chNul })
    ∨ (c = chSQuote ∧ s.literal_state ≠ LiteralState.double_quote
      ∧ fncText kw input s c = FNCStep.next { fncAppend s c with
          literal_state := if s.literal_state = LiteralState.normal_text
                           then LiteralState.single_quote else LiteralState.normal_text,
          last_char := chNul })
    ∨ (s.literal_state ≠ LiteralState.normal_text ∧ c ≠ chBackslash
      ∧ fncText kw input s c = FNCStep.next (fncAppend s c))
    ∨ (s.literal_state = LiteralState.normal_text ∧ isspace c = false ∧ c ≠ chDQuote
      ∧ c ≠ chSQuote ∧ fncText kw input s c = fncStructure input (fncAppend s c) c) := by
  unfold fncText
  by_cases h1 : s.literal_state = LiteralState.normal_text ∧ isspace c = true
  · left
    exact ⟨h1.1, h1.2, by rw [if_pos h1]⟩
  · right
    rw [if_neg h1]
    by_cases h2 : s.literal_state ≠ LiteralState.normal_text ∧ c = chBackslash
    · left
      exact ⟨h2.1, h2.2, by rw [if_pos h2]⟩
    · right
      rw [if_neg h2]
      by_cases h3 : c = chDQuote ∧ s.literal_state ≠ LiteralState.single_quote
      · left
        exact ⟨h3.1, h3.2, by rw [if_pos h3]⟩
      · right
        rw [if_neg h3]
        by_cases h4 : c = chSQuote ∧ s.literal_state ≠ LiteralState.double_quote
        · left
          exact ⟨h4.1, h4.2, by rw [if_pos h4]⟩
        · right
          rw [if_neg h4]
          by_cases h5 : s.literal_state ≠ LiteralState.normal_text
          · left
            refine ⟨h5, fun hc => h2 ⟨h5, hc⟩, by rw [if_pos h5]⟩
          · right
            rw [if_neg h5]
            have h5' : s.literal_state = LiteralState.normal_text := not_not.mp h5
            refine ⟨h5', ?_, ?_, ?_, rfl⟩
            · cases hsp : isspace c
              · rfl
              · exact absurd ⟨h5', hsp⟩ h1
            · intro hc; exact h3 ⟨hc, by rw [h5']; decide⟩
            · intro hc; exact h4 ⟨hc, by rw [h5']; decide⟩

/-- The branches of `fncBody`. -/
theorem fncBody_cases (kw : KeywordTable) (input : List Char) (s : FNCState) :
    (s.comment_state ≠ CommentState.no_comment
      ∧ ∃ cs, fncBody kw input s
          = FNCStep.next { s with comment_state := cs, last_char := chNul })
    ∨ (s.comment_state = CommentState.no_comment
      ∧ s.literal_state = LiteralState.normal_text ∧ fncChar input s = '/'
      ∧ (get_char input ((s.index : Int) + 1) = '*' ∨ get_char input ((s.index : Int) + 1) = '/')
      ∧ ∃ cs, cs ≠ CommentState.no_comment ∧ fncBody kw input s
          = FNCStep.next { s with comment_state := cs, last_char := chNul, index := s.index + 1 })
    ∨ (s.comment_state = CommentState.no_comment
      ∧ ¬ (s.literal_state = LiteralState.normal_text ∧ fncChar input s = '/'
            ∧ (get_char input ((s.index : Int) + 1) = '*'
                ∨ get_char input ((s.index : Int) + 1) = '/'))
      ∧ fncBody kw input s = fncText kw input s (fncChar input s)) := by
  unfold fncBody fncChar
  simp only []
  by_cases h1 : s.comment_state ≠ CommentState.no_comment
  · left
    refine ⟨h1, ?_⟩
    rw [if_pos h1]
    exact ⟨_, rfl⟩
  · right
    rw [if_neg h1]
    have h1' : s.comment_state = CommentState.no_comment := not_not.mp h1
    by_cases h2 : s.literal_state = LiteralState.normal_text
        ∧ (if s.literal_state = LiteralState.normal_text ∧ char_at input s.index = chTab
            then ' ' else char_at input s.index) = '/'
    · rw [if_pos h2]
      by_cases h3 : get_char input ((s.index : Int) + 1) = '*'
      · left
        rw [if_pos h3]
        refine ⟨h1', h2.1, h2.2, Or.inl h3, CommentState.slash_star, by decide, ?_⟩
        rw [if_pos (by decide)]
      · rw [if_neg h3]
        by_cases h4 : get_char input ((s.index : Int) + 1) = '/'
        · left
          rw [if_pos h4]
          refine ⟨h1', h2.1, h2.2, Or.inr h4, CommentState.double_slash, by decide, ?_⟩
          rw [if_pos (by decide)]
        · right
          rw [if_neg h4]
          refine ⟨h1', ?_, ?_⟩
          · rintro ⟨-, -, h | h⟩
            · exact h3 h
            · exact h4 h
          · rw [if_neg (by decide)]
    · right
      rw [if_neg h2]
      refine ⟨h1', ?_, ?_⟩
      · rintro ⟨ha, hb, -⟩
        exact h2 ⟨ha, hb⟩
      · rw [if_neg (by decide)]


/-- Appending keeps what `result` holds. -/
theorem mem_fncAppend_of_mem (s : FNCState) (c x : Char) (h : x ∈ s.result) :
    x ∈ (fncAppend s c).result := by
  unfold fncAppend
  simp only []
  split_ifs <;> simp [h]

/-- The appended character is in `result`. -/
theorem mem_fncAppend_self (s : FNCState) (c : Char) : c ∈ (fncAppend s c).result := by
  unfold fncAppend
  simp

/-- A pass never moves `index` back, and forward by one at most. -/
theorem fncText_index (kw : KeywordTable) (input : List Char) (s : FNCState) (c : Char) :
    s.index ≤ (fncText kw input s c).state.index
      ∧ (fncText kw input s c).state.index ≤ s.index + 1 := by
  rcases fncText_cases kw input s c with ⟨-, -, h⟩ | ⟨-, -, h⟩ | ⟨-, -, h⟩ | ⟨-, -, h⟩
    | ⟨-, -, h⟩ | ⟨-, -, -, -, h⟩
  all_goals rw [h]
  · simp [FNCStep.state]
  · simp [FNCStep.state]
  · simp [FNCStep.state, fncAppend]
  · simp [FNCStep.state, fncAppend]
  · simp [FNCStep.state, fncAppend]
  · rw [fncStructure_index]
    simp [fncAppend]

/-- `LiteralOpened` is kept by `fncText`. -/
theorem fncText_literalOpened (kw : KeywordTable) (input : List Char) (s : FNCState) (c : Char)
    (hJ : LiteralOpened s) : LiteralOpened (fncText kw input s c).state := by
  rcases fncText_cases kw input s c with ⟨hl, -, h⟩ | ⟨hl, -, h⟩ | ⟨hc, hl, h⟩ | ⟨hc, hl, h⟩
    | ⟨hl, -, h⟩ | ⟨hl, -, -, -, h⟩
  · rw [h]
    constructor <;> intro hx <;> simp [FNCStep.state, hl] at hx
  · rw [h]
    constructor
    · intro hx
      simp only [FNCStep.state, fncAppend] at hx
      simp only [FNCStep.state, List.mem_append]
      exact Or.inl (mem_fncAppend_of_mem s c _ (hJ.1 hx))
    · intro hx
      simp only [FNCStep.state, fncAppend] at hx
      simp only [FNCStep.state, List.mem_append]
      exact Or.inl (mem_fncAppend_of_mem s c _ (hJ.2 hx))
  · rw [h]
    constructor
    · intro _
      simp only [FNCStep.state]
      rw [← hc]
      exact mem_fncAppend_self s c
    · intro hx
      simp only [FNCStep.state] at hx
      split_ifs at hx
  · rw [h]
    constructor
    · intro hx
      simp only [FNCStep.state] at hx
      split_ifs at hx
    · intro _
      simp only [FNCStep.state]
      rw [← hc]
      exact mem_fncAppend_self s c
  · rw [h]
    constructor
    · intro hx
      simp only [FNCStep.state, fncAppend] at hx
      exact mem_fncAppend_of_mem s c _ (hJ.1 hx)
    · intro hx
      simp only [FNCStep.state, fncAppend] at hx
      exact mem_fncAppend_of_mem s c _ (hJ.2 hx)
  · rw [h]
    constructor <;> intro hx <;> rw [fncStructure_literal] at hx <;>
      simp [fncAppend, hl] at hx

/-- A pass of the scanning loop never moves `index` back. -/
theorem fncBody_index (kw : KeywordTable) (input : List Char) (s : FNCState) :
    s.index ≤ (fncBody kw input s).state.index
      ∧ (fncBody kw input s).state.index ≤ s.index + 1 := by
  rcases fncBody_cases kw input s with ⟨-, cs, h⟩ | ⟨-, -, -, -, cs, -, h⟩ | ⟨-, -, h⟩
  · rw [h]; simp [FNCStep.state]
  · rw [h]; simp [FNCStep.state]
  · rw [h]; exact fncText_index kw input s _

/-- `LiteralOpened` is kept by a pass of the scanning loop. -/
theorem fncBody_literalOpened (kw : KeywordTable) (input : List Char) (s : FNCState)
    (hJ : LiteralOpened s) : LiteralOpened (fncBody kw input s).state := by
  rcases fncBody_cases kw input s with ⟨-, cs, h⟩ | ⟨-, -, -, -, cs, -, h⟩ | ⟨-, -, h⟩
  · rw [h]; exact hJ
  · rw [h]; exact hJ
  · rw [h]; exact fncText_literalOpened kw input s _ hJ

/-- The scanning loop ends within `length - index` passes: every pass moves
`index` forward. -/
theorem fncLoop_total (kw : KeywordTable) (input : List Char) :
    ∀ (fuel : Nat) (s : FNCState), input.length ≤ s.index + fuel →
      ∃ e, fncLoop kw input fuel s = some e := by
  intro fuel
  induction fuel with
  | zero =>
    intro s h
    refine ⟨FNCExit.atEnd s, ?_⟩
    simp only [fncLoop]
    rw [if_neg (by omega)]
  | succ n ih =>
    intro s h
    simp only [fncLoop]
    by_cases hlt : s.index < input.length
    · rw [if_pos hlt]
      have hi := (fncBody_index kw input s).1
      rcases hb : fncBody kw input s with s1 | s1 | ⟨c, s1⟩
      · rw [hb] at hi
        simp only [FNCStep.state] at hi
        exact ih _ (by simp only []; omega)
      · exact ⟨_, rfl⟩
      · exact ⟨_, rfl⟩
    · rw [if_neg hlt]
      exact ⟨_, rfl⟩

/-- `LiteralOpened` holds when the scanning loop has ended. -/
theorem fncLoop_literalOpened (kw : KeywordTable) (input : List Char) :
    ∀ (fuel : Nat) (s : FNCState) (e : FNCExit), fncLoop kw input fuel s = some e →
      LiteralOpened s → LiteralOpened e.state := by
  intro fuel
  induction fuel with
  | zero =>
    intro s e h hJ
    simp only [fncLoop] at h
    split_ifs at h
    cases h
    exact hJ
  | succ n ih =>
    intro s e h hJ
    simp only [fncLoop] at h
    by_cases hlt : s.index < input.length
    · rw [if_pos hlt] at h
      have hJ1 := fncBody_literalOpened kw input s hJ
      rcases hb : fncBody kw input s with s1 | s1 | ⟨c, s1⟩
      · rw [hb] at h hJ1
        exact ih _ e h hJ1
      · rw [hb] at h hJ1
        cases h
        exact hJ1
      · rw [hb] at h hJ1
        cases h
        exact hJ1
    · rw [if_neg hlt] at h
      cases h
      exact hJ


/-- When the loop condition fails, `index` has reached the length. -/
theorem fncLoop_atEnd_index (kw : KeywordTable) (input : List Char) :
    ∀ (fuel : Nat) (s s1 : FNCState), fncLoop kw input fuel s = some (FNCExit.atEnd s1) →
      input.length ≤ s1.index := by
  intro fuel
  induction fuel with
  | zero =>
    intro s s1 h
    simp only [fncLoop] at h
    split_ifs at h with hlt
    cases h
    omega
  | succ n ih =>
    intro s s1 h
    simp only [fncLoop] at h
    by_cases hlt : s.index < input.length
    · rw [if_pos hlt] at h
      rcases hb : fncBody kw input s with s2 | s2 | ⟨c, s2⟩
      · rw [hb] at h
        exact ih _ s1 h
      · rw [hb] at h
        cases h
      · rw [hb] at h
        cases h
    · rw [if_neg hlt] at h
      cases h
      omega

/-- After `k` full passes `index` has grown by `k` at least. -/
theorem fncPasses_index (kw : KeywordTable) (input : List Char) :
    ∀ (k : Nat) (s s1 : FNCState), fncPasses kw input k s = some s1 → s.index + k ≤ s1.index := by
  intro k
  induction k with
  | zero =>
    intro s s1 h
    simp only [fncPasses] at h
    cases h
    omega
  | succ n ih =>
    intro s s1 h
    simp only [fncPasses] at h
    split_ifs at h with hlt
    have hi := (fncBody_index kw input s).1
    rcases hb : fncBody kw input s with s2 | s2 | ⟨c, s2⟩
    · rw [hb] at h hi
      simp only [FNCStep.state] at hi
      have := ih _ s1 h
      simp only [] at this
      omega
    · rw [hb] at h
      cases h
    · rw [hb] at h
      cases h

/-- The loop run from `s` goes through the state reached after `k` passes. -/
theorem fncLoop_of_passes (kw : KeywordTable) (input : List Char) :
    ∀ (k : Nat) (s s1 : FNCState), fncPasses kw input k s = some s1 →
      ∀ fuel, fncLoop kw input (k + fuel) s = fncLoop kw input fuel s1 := by
  intro k
  induction k with
  | zero =>
    intro s s1 h fuel
    simp only [fncPasses] at h
    cases h
    simp
  | succ n ih =>
    intro s s1 h fuel
    simp only [fncPasses] at h
    split_ifs at h with hlt
    have e : n + 1 + fuel = (n + fuel) + 1 := by omega
    rw [e]
    simp only [fncLoop]
    rw [if_pos hlt]
    rcases hb : fncBody kw input s with s2 | s2 | ⟨c, s2⟩
    · rw [hb] at h
      exact ih _ s1 h fuel
    · rw [hb] at h
      cases h
    · rw [hb] at h
      cases h

/-- A closing bracket with nothing open of its kind ends the scan at once. -/
theorem fncBody_closing (kw : KeywordTable) (input : List Char) (s : FNCState) (c : Char)
    (hcom : s.comment_state = CommentState.no_comment)
    (hlit : s.literal_state = LiteralState.normal_text)
    (hc : char_at input s.index = c)
    (hclose : (c = ')' ∧ s.parentheses_depth ≤ 0) ∨ (c = ']' ∧ s.bracket_depth ≤ 0)) :
    ∃ s1, fncBody kw input s = FNCStep.tooManyClosing c s1 ∧ s1.index = s.index := by
  have hch : fncChar input s = c := by
    unfold fncChar
    rw [hc]
    rcases hclose with ⟨h, -⟩ | ⟨h, -⟩ <;> subst h <;> simp [hlit, chTab]
  rcases fncBody_cases kw input s with ⟨h, -⟩ | ⟨-, -, h, -⟩ | ⟨-, -, h⟩
  · exact absurd hcom h
  · rw [hch] at h
    rcases hclose with ⟨h1, -⟩ | ⟨h1, -⟩ <;> subst h1 <;> exact absurd h (by decide)
  · rw [h, hch]
    rcases fncText_cases kw input s c with ⟨-, hsp, -⟩ | ⟨hl, -, -⟩ | ⟨hq, -, -⟩ | ⟨hq, -, -⟩
      | ⟨hl, -, -⟩ | ⟨-, -, -, -, h2⟩
    · rcases hclose with ⟨h1, -⟩ | ⟨h1, -⟩ <;> subst h1 <;> exact absurd hsp (by decide)
    · exact absurd hlit hl
    · rcases hclose with ⟨h1, -⟩ | ⟨h1, -⟩ <;> subst h1 <;> exact absurd hq (by decide)
    · rcases hclose with ⟨h1, -⟩ | ⟨h1, -⟩ <;> subst h1 <;> exact absurd hq (by decide)
    · exact absurd hlit hl
    · rw [h2]
      rcases hclose with ⟨h1, hd⟩ | ⟨h1, hd⟩
      · subst h1
        refine ⟨{ fncAppend s ')' with parentheses_depth := s.parentheses_depth - 1 }, ?_, ?_⟩
        · unfold fncStructure
          have hd2 : (fncAppend s ')').parentheses_depth - 1 < 0 := by
            simp only [fncAppend]; omega
          simp [hd2]
          simp [fncAppend]
        · simp [fncAppend]
      · subst h1
        refine ⟨{ fncAppend s ']' with bracket_depth := s.bracket_depth - 1 }, ?_, ?_⟩
        · unfold fncStructure
          have hd2 : (fncAppend s ']').bracket_depth - 1 < 0 := by
            simp only [fncAppend]; omega
          simp [hd2]
          simp [fncAppend]
        · simp [fncAppend]


/-- `LiteralOpened` holds when the scanning loop is entered. -/
theorem literalOpened_init : LiteralOpened fncInit := by
  constructor <;> intro h <;> simp [fncInit] at h

/-- On the empty buffer the loop is not entered. -/
theorem fncScan_nil (kw : KeywordTable) : fncScan kw [] = some (FNCExit.atEnd fncInit) := by
  rfl

/-- On a non-empty buffer `FindNextCommand` is its scan followed by its checks. -/
theorem findNextCommand_of_scan (kw : KeywordTable) (input : List Char) (e : FNCExit)
    (hne : input ≠ []) (h : fncScan kw input = some e) :
    FindNextCommand kw input = some (fncFinish (trimmedInput input) e) := by
  unfold FindNextCommand
  rw [if_neg (by simpa using hne), h]
  rfl

/-- `FindNextCommand` returns on every input, every pass of its scanning
loop moving `index` strictly forward; and for every input whose scan reaches
the end of the text in the state of an open `"` or `'` literal, it reports the
parse error, returns the empty statement and leaves the buffer empty. -/
theorem findNextCommand_open_literal_state (kw : KeywordTable) (input : List Char) :
    (∃ out, FindNextCommand kw input = some out)
      ∧ (∀ st : FNCState, st.index < (fncBody kw (trimmedInput input) st).state.index + 1)
      ∧ (∀ s : FNCState, fncScan kw input = some (FNCExit.atEnd s) →
          s.literal_state ≠ LiteralState.normal_text →
          FindNextCommand kw input
            = some { error := some FNCError.incomplete, result := [], input := [] }) := by
  refine ⟨?_, ?_, ?_⟩
  · obtain ⟨e, he⟩ := fncLoop_total kw (trimmedInput input) (trimmedInput input).length fncInit
      (by omega)
    unfold FindNextCommand
    split_ifs
    · exact ⟨_, rfl⟩
    · exact ⟨_, by rw [show fncScan kw input = some e from he]; rfl⟩
  · intro st
    have := (fncBody_index kw (trimmedInput input) st).1
    omega
  · intro s hscan hlit
    have hne : input ≠ [] := by
      rintro rfl
      rw [fncScan_nil] at hscan
      cases hscan
      exact hlit rfl
    rw [findNextCommand_of_scan kw input _ hne hscan]
    have hJ := fncLoop_literalOpened kw (trimmedInput input) _ fncInit _ hscan literalOpened_init
    simp only [FNCExit.state] at hJ
    have hres : s.result ≠ [chRBrace] := by
      intro hr
      rcases hl : s.literal_state with _ | _ | _
      · exact hlit hl
      · have := hJ.1 hl
        rw [hr] at this
        simp [chDQuote, chRBrace] at this
      · have := hJ.2 hl
        rw [hr] at this
        simp [chSQuote, chRBrace] at this
    simp only [fncFinish, fncCheck]
    rw [if_pos (Or.inr (Or.inr (Or.inl hlit))), if_pos hres]

/-- The input that opens a double-quoted literal `abc` and ends. -/
theorem findNextCommand_open_literal_example :
    FindNextCommand emptyKeywordTable (chDQuote :: "abc".toList)
      = some { error := some FNCError.incomplete, result := [], input := [] } :=
  (findNextCommand_open_literal_state emptyKeywordTable (chDQuote :: "abc".toList)).2.2
    { index := 4, skipping := false, literal_state := LiteralState.double_quote,
      comment_state := CommentState.no_comment, scope_depth := 0, matrix_depth := 0,
      parentheses_depth := 0, bracket_depth := 0, is_DoWhileLoop := [],
      result := chDQuote :: "abc".toList, last_char := chNul }
    (by decide) (by decide)

/-- C5, amended: for every input whose scan reaches the end of the text with
unbalanced `(`, `[` or brace nesting (scope or matrix), `FindNextCommand`
reports the parse error, returns the empty statement and leaves the buffer
empty, unless the text it has accumulated is exactly one closing brace: then
it returns the empty statement and an empty buffer without reporting an
error. -/
theorem findNextCommand_unbalanced_at_end (kw : KeywordTable) (input : List Char) (s : FNCState)
    (hscan : fncScan kw input = some (FNCExit.atEnd s))
    (hdepth : s.scope_depth ≠ 0 ∨ s.matrix_depth ≠ 0 ∨ s.bracket_depth ≠ 0
      ∨ s.parentheses_depth ≠ 0) :
    FindNextCommand kw input
      = some (if s.result = [chRBrace]
              then { error := none, result := [], input := [] }
              else { error := some FNCError.incomplete, result := [], input := [] }) := by
  have hne : input ≠ [] := by
    rintro rfl
    rw [fncScan_nil] at hscan
    cases hscan
    simp [fncInit] at hdepth
  rw [findNextCommand_of_scan kw input _ hne hscan]
  have hidx := fncLoop_atEnd_index kw (trimmedInput input) _ fncInit s hscan
  have hcond : s.scope_depth ≠ 0 ∨ s.comment_state ≠ CommentState.slash_star
      ∨ s.literal_state ≠ LiteralState.normal_text ∨ s.matrix_depth ≠ 0
      ∨ s.bracket_depth ≠ 0 ∨ s.parentheses_depth ≠ 0 := by
    rcases hdepth with h | h | h | h
    · exact Or.inl h
    · exact Or.inr (Or.inr (Or.inr (Or.inl h)))
    · exact Or.inr (Or.inr (Or.inr (Or.inr (Or.inl h))))
    · exact Or.inr (Or.inr (Or.inr (Or.inr (Or.inr h))))
  simp only [fncFinish, fncCheck]
  rw [if_pos hcond]
  by_cases hr : s.result = [chRBrace]
  · rw [if_neg (not_not.mpr hr), if_pos hr]
    have hrest : ¬ ((s.index : Int) < ((trimmedInput input).length : Int) - 1) := by omega
    simp [fncStrip, hrest]
  · rw [if_pos hr, if_neg hr]

/-- The amended property C5 on the input `f(x`. -/
theorem findNextCommand_unbalanced_at_end_witness :
    FindNextCommand emptyKeywordTable "f(x".toList
      = some (if "f(x".toList = [chRBrace]
              then { error := none, result := [], input := [] }
              else { error := some FNCError.incomplete, result := [], input := [] }) :=
  findNextCommand_unbalanced_at_end emptyKeywordTable "f(x".toList
    { index := 3, skipping := false, literal_state := LiteralState.normal_text,
      comment_state := CommentState.no_comment, scope_depth := 0, matrix_depth := 0,
      parentheses_depth := 1, bracket_depth := 0, is_DoWhileLoop := [],
      result := "f(x".toList, last_char := 'x' }
    (by decide) (by decide)

/-- C5, counterexample: on the input made of one closing brace the scan reaches
the end of the text with scope depth -1, and `FindNextCommand` reports no
error. -/
theorem findNextCommand_lone_closing_brace :
    (∃ s, fncScan emptyKeywordTable [chRBrace] = some (FNCExit.atEnd s)
        ∧ s.scope_depth = -1)
      ∧ FindNextCommand emptyKeywordTable [chRBrace]
          = some { error := none, result := [], input := [] } :=
  ⟨⟨_, rfl, by decide⟩, by decide⟩

/-- For every input in which the scan reaches, after any number of full
passes, a `)` or `]` outside literals and comments while the counter of that
kind of bracket is zero, the scan stops at that character and
`FindNextCommand` reports the `Too many closing` error for it, returns the
empty statement and leaves the buffer empty. -/
theorem findNextCommand_closing_at_zero (kw : KeywordTable) (input : List Char) (k : Nat)
    (s : FNCState) (c : Char)
    (hreach : fncPasses kw (trimmedInput input) k fncInit = some s)
    (hin : s.index < (trimmedInput input).length)
    (hcom : s.comment_state = CommentState.no_comment)
    (hlit : s.literal_state = LiteralState.normal_text)
    (hc : char_at (trimmedInput input) s.index = c)
    (hclose : (c = ')' ∧ s.parentheses_depth = 0) ∨ (c = ']' ∧ s.bracket_depth = 0)) :
    (∃ s1, fncScan kw input = some (FNCExit.tooManyClosing c s1) ∧ s1.index = s.index)
      ∧ FindNextCommand kw input
          = some { error := some (FNCError.tooManyClosing c), result := [], input := [] } := by
  have hne : input ≠ [] := by
    rintro rfl
    simp [trimmedInput, Cut] at hin
  obtain ⟨s1, hb, hi⟩ := fncBody_closing kw (trimmedInput input) s c hcom hlit hc
    (by rcases hclose with ⟨h, hd⟩ | ⟨h, hd⟩
        · exact Or.inl ⟨h, by omega⟩
        · exact Or.inr ⟨h, by omega⟩)
  have hk := fncPasses_index kw (trimmedInput input) k fncInit s hreach
  have hscan : fncScan kw input = some (FNCExit.tooManyClosing c s1) := by
    unfold fncScan
    obtain ⟨m, hm⟩ : ∃ m, (trimmedInput input).length = k + (m + 1) :=
      ⟨(trimmedInput input).length - k - 1, by omega⟩
    rw [hm, fncLoop_of_passes kw (trimmedInput input) k fncInit s hreach (m + 1)]
    simp only [fncLoop]
    rw [if_pos (by omega), hb]
  refine ⟨⟨s1, hscan, hi⟩, ?_⟩
  rw [findNextCommand_of_scan kw input _ hne hscan]
  rfl

/-- The scan of the input `x)`. -/
theorem findNextCommand_closing_at_zero_example :
    (∃ s1, fncScan emptyKeywordTable "x)".toList = some (FNCExit.tooManyClosing ')' s1)
        ∧ s1.index = 1)
      ∧ FindNextCommand emptyKeywordTable "x)".toList
          = some { error := some (FNCError.tooManyClosing ')'), result := [], input := [] } :=
  findNextCommand_closing_at_zero emptyKeywordTable "x)".toList 1
    { index := 1, skipping := false, literal_state := LiteralState.normal_text,
      comment_state := CommentState.no_comment, scope_depth := 0, matrix_depth := 0,
      parentheses_depth := 0, bracket_depth := 0, is_DoWhileLoop := [],
      result := ['x'], last_char := 'x' } ')'
    (by decide) (by decide) rfl rfl (by decide) (Or.inl ⟨rfl, rfl⟩)

/-! ### Single passes of the scanning loop, by the kind of character -/

/-- Reading the character that follows `pre`. -/
theorem char_at_append_cons (pre : List Char) (c : Char) (t : List Char) :
    char_at (pre ++ c :: t) pre.length = c := by
  induction pre with
  | nil => rfl
  | cons a pre ih => simpa [char_at] using ih

/-- Reading the character one past the one that follows `pre`. -/
theorem get_char_append_next (pre : List Char) (c d : Char) (t : List Char) :
    get_char (pre ++ c :: d :: t) ((pre.length : Int) + 1) = d := by
  unfold get_char
  have h1 : (0 : Int) ≤ (pre.length : Int) + 1 ∧ (pre.length : Int) + 1
      < ((pre ++ c :: d :: t).length : Int) := by
    simp only [List.length_append, List.length_cons]
    push_cast
    omega
  rw [if_pos h1]
  have h2 : ((pre.length : Int) + 1).toNat = (pre ++ [c]).length := by
    simp only [List.length_append, List.length_cons, List.length_nil]
    omega
  rw [h2]
  have h3 : pre ++ c :: d :: t = (pre ++ [c]) ++ d :: t := by simp
  rw [h3]
  exact char_at_append_cons (pre ++ [c]) d t

/-- A character other than a tab is taken as it is. -/
theorem fncChar_of_not_tab (input : List Char) (s : FNCState) (h : char_at input s.index ≠ chTab) :
    fncChar input s = char_at input s.index := by
  unfold fncChar
  rw [if_neg (fun hh => h hh.2)]

/-- Inside a literal every character is taken as it is. -/
theorem fncChar_of_literal (input : List Char) (s : FNCState)
    (h : s.literal_state ≠ LiteralState.normal_text) :
    fncChar input s = char_at input s.index := by
  unfold fncChar
  rw [if_neg (fun hh => h hh.1)]

/-- The tab replacement keeps white space white space. -/
theorem fncChar_isspace (input : List Char) (s : FNCState) :
    isspace (fncChar input s) = isspace (char_at input s.index) := by
  unfold fncChar
  split_ifs with h
  · rw [h.2]; decide
  · rfl

/-- Outside comments and literals a quote character opens a literal. -/
theorem fncBody_open_dquote (kw : KeywordTable) (input : List Char) (s : FNCState)
    (hcom : s.comment_state = CommentState.no_comment)
    (hlit : s.literal_state = LiteralState.normal_text)
    (hc : char_at input s.index = chDQuote) :
    fncBody kw input s = FNCStep.next { fncAppend s chDQuote with
      literal_state := LiteralState.double_quote, last_char := chNul } := by
  have hch : fncChar input s = chDQuote := by
    rw [fncChar_of_not_tab input s (by rw [hc]; decide), hc]
  have h1 : ¬ (chDQuote = '/') := by decide
  have h2 : isspace chDQuote = false := by decide
  simp [fncBody, hch, hcom, hlit, fncText, h1, h2]

/-- Outside comments and literals a single quote opens a literal. -/
theorem fncBody_open_squote (kw : KeywordTable) (input : List Char) (s : FNCState)
    (hcom : s.comment_state = CommentState.no_comment)
    (hlit : s.literal_state = LiteralState.normal_text)
    (hc : char_at input s.index = chSQuote) :
    fncBody kw input s = FNCStep.next { fncAppend s chSQuote with
      literal_state := LiteralState.single_quote, last_char := chNul } := by
  have hch : fncChar input s = chSQuote := by
    rw [fncChar_of_not_tab input s (by rw [hc]; decide), hc]
  have h1 : ¬ (chSQuote = '/') := by decide
  have h2 : isspace chSQuote = false := by decide
  have h3 : ¬ (chSQuote = chDQuote) := by decide
  simp [fncBody, hch, hcom, hlit, fncText, h1, h2, h3]

/-- Outside comments and literals white space is skipped; at most one space is
added to `result`. -/
theorem fncBody_space (kw : KeywordTable) (input : List Char) (s : FNCState)
    (hcom : s.comment_state = CommentState.no_comment)
    (hlit : s.literal_state = LiteralState.normal_text)
    (hc : isspace (char_at input s.index) = true) :
    fncBody kw input s = FNCStep.next { s with
      result := if keepsSpace kw input s = true then s.result ++ [' '] else s.result,
      skipping := true } := by
  have hsp : isspace (fncChar input s) = true := by rw [fncChar_isspace, hc]
  have h1 : ¬ (fncChar input s = '/') := by
    intro h
    rw [h] at hsp
    exact absurd hsp (by decide)
  simp [fncBody, hcom, hlit, fncText, h1, hsp]

/-- Outside comments and literals a character that is neither white space, a
quote, a comment opener, `;`, a bracket nor a brace is appended and becomes
`last_char`. -/
theorem fncBody_plain (kw : KeywordTable) (input : List Char) (s : FNCState) (c : Char)
    (hcom : s.comment_state = CommentState.no_comment)
    (hlit : s.literal_state = LiteralState.normal_text)
    (hc : char_at input s.index = c)
    (hsp : isspace c = false) (h1 : c ≠ chDQuote) (h2 : c ≠ chSQuote)
    (h3 : c = '/' → get_char input ((s.index : Int) + 1) ≠ '*'
            ∧ get_char input ((s.index : Int) + 1) ≠ '/')
    (h4 : c ≠ ';') (h5 : c ≠ '(') (h6 : c ≠ ')') (h7 : c ≠ '[') (h8 : c ≠ ']')
    (h9 : c ≠ chLBrace) (h10 : c ≠ chRBrace) :
    fncBody kw input s = FNCStep.next { fncAppend s c with last_char := c } := by
  have hch : fncChar input s = c := by
    rw [fncChar_of_not_tab input s (by rw [hc]; intro h; rw [h] at hsp; exact absurd hsp (by decide)), hc]
  by_cases hs : c = '/'
  · have h3a := (h3 hs).1
    have h3b := (h3 hs).2
    subst hs
    simp [fncBody, hch, hcom, hlit, fncText, fncStructure, hsp, h1, h2, h3a, h3b, h9, h10,
      fncAppend]
  · simp [fncBody, hch, hcom, hlit, fncText, fncStructure, hsp, h1, h2, hs, h4, h5, h6, h7,
      h8, h9, h10, fncAppend]

/-- Outside comments and literals a `;` inside `()` or `[]` is an ordinary
character. -/
theorem fncBody_inner_semicolon (kw : KeywordTable) (input : List Char) (s : FNCState)
    (hcom : s.comment_state = CommentState.no_comment)
    (hlit : s.literal_state = LiteralState.normal_text)
    (hc : char_at input s.index = ';')
    (hd : s.parentheses_depth ≠ 0 ∨ s.bracket_depth ≠ 0 ∨ s.matrix_depth ≠ 0) :
    fncBody kw input s = FNCStep.next { fncAppend s ';' with last_char := ';' } := by
  have hch : fncChar input s = ';' := by
    rw [fncChar_of_not_tab input s (by rw [hc]; decide), hc]
  have hcond : ¬ (s.scope_depth = 0 ∧ s.matrix_depth = 0 ∧ s.parentheses_depth = 0
      ∧ s.bracket_depth = 0) := by
    rintro ⟨-, h0, h1, h2⟩
    rcases hd with h | h | h
    · exact h h1
    · exact h h2
    · exact h h0
  simp [fncBody, hch, hcom, hlit, fncText, fncStructure, isspace, chDQuote, chSQuote,
    chLBrace, chRBrace, fncAppend, hcond]

/-- Outside comments and literals a `;` with every nesting counter at zero
ends the scan; it has been appended to `result`. -/
theorem fncBody_top_semicolon (kw : KeywordTable) (input : List Char) (s : FNCState)
    (hcom : s.comment_state = CommentState.no_comment)
    (hlit : s.literal_state = LiteralState.normal_text)
    (hc : char_at input s.index = ';')
    (h1 : s.scope_depth = 0) (h2 : s.matrix_depth = 0) (h3 : s.parentheses_depth = 0)
    (h4 : s.bracket_depth = 0) :
    fncBody kw input s = FNCStep.brk (fncAppend s ';') := by
  have hch : fncChar input s = ';' := by
    rw [fncChar_of_not_tab input s (by rw [hc]; decide), hc]
  simp [fncBody, hch, hcom, hlit, fncText, fncStructure, isspace, chDQuote, chSQuote,
    fncAppend, h1, h2, h3, h4]

/-- Outside comments and literals `(` is appended and counted. -/
theorem fncBody_open_paren (kw : KeywordTable) (input : List Char) (s : FNCState)
    (hcom : s.comment_state = CommentState.no_comment)
    (hlit : s.literal_state = LiteralState.normal_text)
    (hc : char_at input s.index = '(') :
    fncBody kw input s = FNCStep.next { fncAppend s '(' with
      parentheses_depth := s.parentheses_depth + 1, last_char := chNul } := by
  have hch : fncChar input s = '(' := by
    rw [fncChar_of_not_tab input s (by rw [hc]; decide), hc]
  simp [fncBody, hch, hcom, hlit, fncText, fncStructure, isspace, chDQuote, chSQuote, fncAppend]

/-- Outside comments and literals a `)` that closes an open `(` is appended and
counted. -/
theorem fncBody_close_paren (kw : KeywordTable) (input : List Char) (s : FNCState)
    (hcom : s.comment_state = CommentState.no_comment)
    (hlit : s.literal_state = LiteralState.normal_text)
    (hc : char_at input s.index = ')') (hd : 0 < s.parentheses_depth) :
    fncBody kw input s = FNCStep.next { fncAppend s ')' with
      parentheses_depth := s.parentheses_depth - 1, last_char := chNul } := by
  have hch : fncChar input s = ')' := by
    rw [fncChar_of_not_tab input s (by rw [hc]; decide), hc]
  have hd2 : ¬ (s.parentheses_depth < 1) := by omega
  simp [fncBody, hch, hcom, hlit, fncText, fncStructure, isspace, chDQuote, chSQuote, fncAppend,
    hd2]

/-- Outside comments and literals `[` is appended and counted. -/
theorem fncBody_open_bracket (kw : KeywordTable) (input : List Char) (s : FNCState)
    (hcom : s.comment_state = CommentState.no_comment)
    (hlit : s.literal_state = LiteralState.normal_text)
    (hc : char_at input s.index = '[') :
    fncBody kw input s = FNCStep.next { fncAppend s '[' with
      bracket_depth := s.bracket_depth + 1, last_char := chNul } := by
  have hch : fncChar input s = '[' := by
    rw [fncChar_of_not_tab input s (by rw [hc]; decide), hc]
  simp [fncBody, hch, hcom, hlit, fncText, fncStructure, isspace, chDQuote, chSQuote, fncAppend]

/-- Outside comments and literals a `]` that closes an open `[` is appended and
counted. -/
theorem fncBody_close_bracket (kw : KeywordTable) (input : List Char) (s : FNCState)
    (hcom : s.comment_state = CommentState.no_comment)
    (hlit : s.literal_state = LiteralState.normal_text)
    (hc : char_at input s.index = ']') (hd : 0 < s.bracket_depth) :
    fncBody kw input s = FNCStep.next { fncAppend s ']' with
      bracket_depth := s.bracket_depth - 1, last_char := chNul } := by
  have hch : fncChar input s = ']' := by
    rw [fncChar_of_not_tab input s (by rw [hc]; decide), hc]
  have hd2 : ¬ (s.bracket_depth < 1) := by omega
  simp [fncBody, hch, hcom, hlit, fncText, fncStructure, isspace, chDQuote, chSQuote, fncAppend,
    hd2]

/-- Inside a literal a backslash is appended together with the character after
it, and the scan moves past both. -/
theorem fncBody_escape (kw : KeywordTable) (input : List Char) (s : FNCState)
    (hcom : s.comment_state = CommentState.no_comment)
    (hlit : s.literal_state ≠ LiteralState.normal_text)
    (hc : char_at input s.index = chBackslash) :
    fncBody kw input s = FNCStep.next { fncAppend s chBackslash with
      result := (fncAppend s chBackslash).result ++ [get_char input ((s.index : Int) + 1)],
      index := s.index + 1 } := by
  have hch : fncChar input s = chBackslash := by
    rw [fncChar_of_literal input s hlit, hc]
  simp [fncBody, hch, hcom, hlit, fncText]

/-- Inside a literal the quote character that opened it closes it. -/
theorem fncBody_close_dquote (kw : KeywordTable) (input : List Char) (s : FNCState)
    (hcom : s.comment_state = CommentState.no_comment)
    (hlit : s.literal_state = LiteralState.double_quote)
    (hc : char_at input s.index = chDQuote) :
    fncBody kw input s = FNCStep.next { fncAppend s chDQuote with
      literal_state := LiteralState.normal_text, last_char := chNul } := by
  have hch : fncChar input s = chDQuote := by
    rw [fncChar_of_literal input s (by rw [hlit]; decide), hc]
  have h1 : ¬ (chDQuote = chBackslash) := by decide
  simp [fncBody, hch, hcom, hlit, fncText, h1]

/-- Inside a single-quoted literal a single quote closes it. -/
theorem fncBody_close_squote (kw : KeywordTable) (input : List Char) (s : FNCState)
    (hcom : s.comment_state = CommentState.no_comment)
    (hlit : s.literal_state = LiteralState.single_quote)
    (hc : char_at input s.index = chSQuote) :
    fncBody kw input s = FNCStep.next { fncAppend s chSQuote with
      literal_state := LiteralState.normal_text, last_char := chNul } := by
  have hch : fncChar input s = chSQuote := by
    rw [fncChar_of_literal input s (by rw [hlit]; decide), hc]
  have h1 : ¬ (chSQuote = chBackslash) := by decide
  have h2 : ¬ (chSQuote = chDQuote) := by decide
  simp [fncBody, hch, hcom, hlit, fncText, h1, h2]

/-- Inside a literal every character other than a backslash and the closing
quote is appended as it is, and the literal stays open. -/
theorem fncBody_in_literal (kw : KeywordTable) (input : List Char) (s : FNCState) (c : Char)
    (hcom : s.comment_state = CommentState.no_comment)
    (hlit : s.literal_state ≠ LiteralState.normal_text)
    (hc : char_at input s.index = c)
    (h1 : c ≠ chBackslash)
    (h2 : s.literal_state = LiteralState.double_quote → c ≠ chDQuote)
    (h3 : s.literal_state = LiteralState.single_quote → c ≠ chSQuote) :
    fncBody kw input s = FNCStep.next (fncAppend s c) := by
  have hch : fncChar input s = c := by
    rw [fncChar_of_literal input s hlit, hc]
  rcases hl : s.literal_state with _ | _ | _
  · exact absurd hl hlit
  · have := h2 hl
    simp [fncBody, hch, hcom, hl, fncText, h1, this]
  · have := h3 hl
    simp [fncBody, hch, hcom, hl, fncText, h1, this]

/-- Outside comments and literals an opening brace inside a matrix literal, or
right after `=`, is appended and counted as a brace of a matrix literal. -/
theorem fncBody_open_matrix (kw : KeywordTable) (input : List Char) (s : FNCState)
    (hcom : s.comment_state = CommentState.no_comment)
    (hlit : s.literal_state = LiteralState.normal_text)
    (hc : char_at input s.index = chLBrace)
    (hd : s.matrix_depth ≠ 0 ∨ s.last_char = '=') :
    fncBody kw input s = FNCStep.next { fncAppend s chLBrace with
      matrix_depth := s.matrix_depth + 1, last_char := chNul } := by
  have hch : fncChar input s = chLBrace := by
    rw [fncChar_of_not_tab input s (by rw [hc]; decide), hc]
  have e1 : ¬ (chLBrace = '/') := by decide
  have e2 : isspace chLBrace = false := by decide
  have e3 : ¬ (chLBrace = chDQuote) := by decide
  have e4 : ¬ (chLBrace = chSQuote) := by decide
  have e5 : ¬ (chLBrace = ';') := by decide
  have e6 : ¬ (chLBrace = '(') := by decide
  have e7 : ¬ (chLBrace = ')') := by decide
  have e8 : ¬ (chLBrace = '[') := by decide
  have e9 : ¬ (chLBrace = ']') := by decide
  by_cases hmd : s.matrix_depth = 0
  · have hl : s.last_char = '=' := by
      rcases hd with h | h
      · exact absurd hmd h
      · exact h
    simp [fncBody, hch, hcom, hlit, fncText, fncStructure, e1, e2, e3, e4, e5, e6, e7, e8, e9,
      fncAppend, hmd, hl]
  · simp [fncBody, hch, hcom, hlit, fncText, fncStructure, e1, e2, e3, e4, e5, e6, e7, e8, e9,
      fncAppend, hmd]

/-- Outside comments and literals a closing brace inside a matrix literal is
appended and counted. -/
theorem fncBody_close_matrix (kw : KeywordTable) (input : List Char) (s : FNCState)
    (hcom : s.comment_state = CommentState.no_comment)
    (hlit : s.literal_state = LiteralState.normal_text)
    (hc : char_at input s.index = chRBrace)
    (hmd : s.matrix_depth ≠ 0) :
    fncBody kw input s = FNCStep.next { fncAppend s chRBrace with
      matrix_depth := s.matrix_depth - 1, last_char := chNul } := by
  have hch : fncChar input s = chRBrace := by
    rw [fncChar_of_not_tab input s (by rw [hc]; decide), hc]
  have e1 : ¬ (chRBrace = '/') := by decide
  have e2 : isspace chRBrace = false := by decide
  have e3 : ¬ (chRBrace = chDQuote) := by decide
  have e4 : ¬ (chRBrace = chSQuote) := by decide
  have e5 : ¬ (chRBrace = ';') := by decide
  have e6 : ¬ (chRBrace = '(') := by decide
  have e7 : ¬ (chRBrace = ')') := by decide
  have e8 : ¬ (chRBrace = '[') := by decide
  have e9 : ¬ (chRBrace = ']') := by decide
  have e10 : ¬ (chRBrace = chLBrace) := by decide
  simp [fncBody, hch, hcom, hlit, fncText, fncStructure, e1, e2, e3, e4, e5, e6, e7, e8, e9,
    e10, fncAppend, hmd]

/-! ### The scan of a well-formed statement -/

/-- Up to white space, appending adds the character alone. -/
theorem filter_fncAppend (s : FNCState) (c : Char) :
    (fncAppend s c).result.filter notSpace
      = s.result.filter notSpace ++ [c].filter notSpace := by
  have hsp : notSpace ' ' = false := by decide
  unfold fncAppend
  simp only []
  split_ifs <;> simp [List.filter_append, hsp]

/-- When no white space has been skipped, appending adds the character alone. -/
theorem fncAppend_result_of_not_skipping (s : FNCState) (c : Char) (h : s.skipping = false) :
    (fncAppend s c).result = s.result ++ [c] := by
  simp [fncAppend, h]

/-- At the `;` that follows a statement the scan ends. -/
theorem stopsAtSemicolon_nil (kw : KeywordTable) (pre rest : List Char) (fuel : Nat)
    (s : FNCState)
    (hwf : wellFormedFrom [] s.literal_state s.parentheses_depth s.bracket_depth
      s.matrix_depth s.last_char = true)
    (hidx : s.index = pre.length) (hcom : s.comment_state = CommentState.no_comment)
    (hsc : s.scope_depth = 0) (hfuel : 0 < fuel) :
    StopsAtSemicolon kw pre [] rest fuel s := by
  simp only [wellFormedFrom, decide_eq_true_eq] at hwf
  obtain ⟨hlit, hpd, hbd, hm⟩ := hwf
  obtain ⟨f, rfl⟩ : ∃ f, fuel = f + 1 := ⟨fuel - 1, by omega⟩
  have hc : char_at (pre ++ [] ++ ';' :: rest) s.index = ';' := by
    rw [hidx, List.append_nil]
    exact char_at_append_cons pre ';' rest
  have hb := fncBody_top_semicolon kw (pre ++ [] ++ ';' :: rest) s hcom hlit hc hsc hm hpd hbd
  have hlt : s.index < (pre ++ [] ++ ';' :: rest).length := by
    simp only [List.length_append, List.length_cons, List.length_nil]
    omega
  refine ⟨fncAppend s ';', ?_, ?_, ?_, ?_, ?_, ?_, ?_, ?_, ?_, ?_⟩
  · simp only [fncLoop]
    rw [if_pos hlt, hb]
  · simp [fncAppend, hidx]
  · rw [filter_fncAppend]
    simp [notSpace, isspace]
  · intro hsk _
    rw [fncAppend_result_of_not_skipping s ';' hsk]
    simp
  · simpa [fncAppend] using hlit
  · simpa [fncAppend] using hcom
  · simpa [fncAppend] using hsc
  · simpa [fncAppend] using hm
  · simpa [fncAppend] using hpd
  · simpa [fncAppend] using hbd

/-- One pass over the first character of the statement, then the scan of what
is left of it. -/
theorem stopsAtSemicolon_cons (kw : KeywordTable) (pre rest : List Char) (c : Char)
    (cs : List Char) (fuel : Nat) (s s1 : FNCState)
    (hb : fncBody kw (pre ++ (c :: cs) ++ ';' :: rest) s = FNCStep.next s1)
    (hidx : s.index = pre.length)
    (hfilter : s1.result.filter notSpace = s.result.filter notSpace ++ [c].filter notSpace)
    (hexact : s.skipping = false → isspace c = false →
      s1.skipping = false ∧ s1.result = s.result ++ [c])
    (hnext : StopsAtSemicolon kw (pre ++ [c]) cs rest fuel { s1 with index := s1.index + 1 }) :
    StopsAtSemicolon kw pre (c :: cs) rest (fuel + 1) s := by
  obtain ⟨s2, hloop, hi, hf, he, hrest⟩ := hnext
  have hin : pre ++ [c] ++ cs ++ ';' :: rest = pre ++ (c :: cs) ++ ';' :: rest := by simp
  rw [hin] at hloop
  have hlt : s.index < (pre ++ (c :: cs) ++ ';' :: rest).length := by
    simp only [List.length_append, List.length_cons]
    omega
  refine ⟨s2, ?_, ?_, ?_, ?_, hrest⟩
  · simp only [fncLoop]
    rw [if_pos hlt, hb]
    exact hloop
  · rw [hi]
    simp only [List.length_append, List.length_cons, List.length_nil]
    omega
  · rw [hf]
    simp only [hfilter]
    simp [List.filter_cons]
    split_ifs <;> simp
  · intro hsk hall
    have hc : isspace c = false := hall c (List.mem_cons_self c cs)
    obtain ⟨hsk1, hr1⟩ := hexact hsk hc
    rw [he hsk1 (fun x hx => hall x (List.mem_cons_of_mem c hx))]
    simp only [hr1]
    simp

/-- One pass over a backslash and the character it escapes, then the scan of
what is left of the statement. -/
theorem stopsAtSemicolon_escape (kw : KeywordTable) (pre rest : List Char) (c d : Char)
    (cs : List Char) (fuel : Nat) (s s1 : FNCState)
    (hb : fncBody kw (pre ++ (c :: d :: cs) ++ ';' :: rest) s = FNCStep.next s1)
    (hidx : s.index = pre.length)
    (hfilter : s1.result.filter notSpace
      = s.result.filter notSpace ++ [c].filter notSpace ++ [d].filter notSpace)
    (hexact : s.skipping = false → isspace c = false →
      s1.skipping = false ∧ s1.result = s.result ++ [c, d])
    (hnext : StopsAtSemicolon kw (pre ++ [c, d]) cs rest fuel
      { s1 with index := s1.index + 1 }) :
    StopsAtSemicolon kw pre (c :: d :: cs) rest (fuel + 1) s := by
  obtain ⟨s2, hloop, hi, hf, he, hrest⟩ := hnext
  have hin : pre ++ [c, d] ++ cs ++ ';' :: rest = pre ++ (c :: d :: cs) ++ ';' :: rest := by
    simp
  rw [hin] at hloop
  have hlt : s.index < (pre ++ (c :: d :: cs) ++ ';' :: rest).length := by
    simp only [List.length_append, List.length_cons]
    omega
  refine ⟨s2, ?_, ?_, ?_, ?_, hrest⟩
  · simp only [fncLoop]
    rw [if_pos hlt, hb]
    exact hloop
  · rw [hi]
    simp only [List.length_append, List.length_cons, List.length_nil]
    omega
  · rw [hf]
    simp only [hfilter]
    simp [List.filter_cons]
    split_ifs <;> simp
  · intro hsk hall
    have hc : isspace c = false := hall c (List.mem_cons_self c _)
    obtain ⟨hsk1, hr1⟩ := hexact hsk hc
    rw [he hsk1 (fun x hx => hall x (List.mem_cons_of_mem c (List.mem_cons_of_mem d hx)))]
    simp only [hr1]
    simp

/-- The character at the head of the statement. -/
theorem char_at_stmt (pre rest : List Char) (c : Char) (cs : List Char) (s : FNCState)
    (hidx : s.index = pre.length) :
    char_at (pre ++ (c :: cs) ++ ';' :: rest) s.index = c := by
  rw [hidx, List.append_assoc, List.cons_append]
  exact char_at_append_cons pre c _

/-- The character after the head of the statement. -/
theorem get_char_stmt_next (pre rest : List Char) (c : Char) (cs : List Char) (s : FNCState)
    (hidx : s.index = pre.length) :
    get_char (pre ++ (c :: cs) ++ ';' :: rest) ((s.index : Int) + 1)
      = (cs ++ ';' :: rest).headD ';' := by
  rw [hidx, List.append_assoc, List.cons_append]
  cases cs with
  | nil => exact get_char_append_next pre c ';' rest
  | cons d cs2 => exact get_char_append_next pre c d _

/-- After a `/` that opens no comment comes neither `*` nor `/`. -/
theorem noCommentOpener_next (rest : List Char) (cs : List Char)
    (h : noCommentOpener cs = true) :
    (cs ++ ';' :: rest).headD ';' ≠ '*' ∧ (cs ++ ';' :: rest).headD ';' ≠ '/' := by
  cases cs with
  | nil => simp
  | cons d cs2 => simpa [noCommentOpener] using h

/-- The predicate inside a double-quoted literal. -/
theorem wellFormedFrom_double_quote (c : Char) (cs : List Char) (pd bd md : Int)
    (last : Char) :
    wellFormedFrom (c :: cs) LiteralState.double_quote pd bd md last
      = if c = chBackslash then
          (match cs with
            | [] => false
            | _ :: cs2 => wellFormedFrom cs2 LiteralState.double_quote pd bd md last)
        else if c = chDQuote then wellFormedFrom cs LiteralState.normal_text pd bd md chNul
        else wellFormedFrom cs LiteralState.double_quote pd bd md last := by
  cases cs <;> simp only [wellFormedFrom]

/-- The predicate inside a single-quoted literal. -/
theorem wellFormedFrom_single_quote (c : Char) (cs : List Char) (pd bd md : Int)
    (last : Char) :
    wellFormedFrom (c :: cs) LiteralState.single_quote pd bd md last
      = if c = chBackslash then
          (match cs with
            | [] => false
            | _ :: cs2 => wellFormedFrom cs2 LiteralState.single_quote pd bd md last)
        else if c = chSQuote then wellFormedFrom cs LiteralState.normal_text pd bd md chNul
        else wellFormedFrom cs LiteralState.single_quote pd bd md last := by
  cases cs <;> simp only [wellFormedFrom]

/-- The scan of a well-formed statement followed by `;` ends at that `;`. -/
theorem stopsAtSemicolon_of_wellFormed (kw : KeywordTable) (rest : List Char) :
    ∀ (n : Nat) (stmt pre : List Char) (s : FNCState) (fuel : Nat),
      stmt.length ≤ n →
      wellFormedFrom stmt s.literal_state s.parentheses_depth s.bracket_depth
        s.matrix_depth s.last_char = true →
      s.index = pre.length → s.comment_state = CommentState.no_comment →
      s.scope_depth = 0 → stmt.length < fuel →
      StopsAtSemicolon kw pre stmt rest fuel s := by
  intro n
  induction n using Nat.strong_induction_on with
  | _ n ih =>
    intro stmt pre s fuel hn hwf hidx hcom hsc hfuel
    cases stmt with
    | nil => exact stopsAtSemicolon_nil kw pre rest fuel s hwf hidx hcom hsc hfuel
    | cons c cs =>
      obtain ⟨f, rfl⟩ : ∃ f, fuel = f + 1 := ⟨fuel - 1, by omega⟩
      simp only [List.length_cons] at hn hfuel
      have hc := char_at_stmt pre rest c cs s hidx
      have hidx2 : s.index + 1 = (pre ++ [c]).length := by
        simp only [List.length_append, List.length_cons, List.length_nil]; omega
      have IH := fun (s2 : FNCState) h1 h2 h3 h4 =>
        ih cs.length (by omega) cs (pre ++ [c]) s2 f (le_refl _) h1 h2 h3 h4 (by omega)
      rcases hl : s.literal_state with _ | _ | _
      · -- outside literals
        rw [hl] at hwf
        simp only [wellFormedFrom] at hwf
        by_cases h1 : c = chDQuote
        · rw [if_pos h1] at hwf
          subst h1
          refine stopsAtSemicolon_cons kw pre rest _ cs f s _
            (fncBody_open_dquote kw _ s hcom hl hc) hidx (filter_fncAppend s _)
            (fun hsk _ => ⟨rfl, fncAppend_result_of_not_skipping s _ hsk⟩)
            (IH _ (by simpa [fncAppend] using hwf) hidx2 hcom hsc)
        rw [if_neg h1] at hwf
        by_cases h2 : c = chSQuote
        · rw [if_pos h2] at hwf
          subst h2
          refine stopsAtSemicolon_cons kw pre rest _ cs f s _
            (fncBody_open_squote kw _ s hcom hl hc) hidx (filter_fncAppend s _)
            (fun hsk _ => ⟨rfl, fncAppend_result_of_not_skipping s _ hsk⟩)
            (IH _ (by simpa [fncAppend] using hwf) hidx2 hcom hsc)
        rw [if_neg h2] at hwf
        by_cases h3 : c = '/'
        · rw [if_pos h3] at hwf
          simp only [Bool.and_eq_true] at hwf
          have hno := noCommentOpener_next rest cs hwf.1
          rw [← get_char_stmt_next pre rest c cs s hidx] at hno
          have hsp : isspace c = false := by rw [h3]; decide
          subst h3
          refine stopsAtSemicolon_cons kw pre rest _ cs f s _
            (fncBody_plain kw _ s '/' hcom hl hc hsp h1 h2 (fun _ => hno)
              (by decide) (by decide) (by decide) (by decide) (by decide) (by decide)
              (by decide))
            hidx (filter_fncAppend s _)
            (fun hsk _ => ⟨rfl, fncAppend_result_of_not_skipping s _ hsk⟩)
            (IH _ (by simpa [hl, fncAppend] using hwf.2) hidx2 hcom hsc)
        rw [if_neg h3] at hwf
        by_cases h4 : c = chLBrace
        · rw [if_pos h4] at hwf
          simp only [Bool.and_eq_true, decide_eq_true_eq] at hwf
          subst h4
          refine stopsAtSemicolon_cons kw pre rest _ cs f s _
            (fncBody_open_matrix kw _ s hcom hl hc hwf.1) hidx (filter_fncAppend s _)
            (fun hsk _ => ⟨rfl, fncAppend_result_of_not_skipping s _ hsk⟩)
            (IH _ (by simpa [hl, fncAppend] using hwf.2) hidx2 hcom hsc)
        rw [if_neg h4] at hwf
        by_cases h4b : c = chRBrace
        · rw [if_pos h4b] at hwf
          simp only [Bool.and_eq_true, decide_eq_true_eq] at hwf
          subst h4b
          refine stopsAtSemicolon_cons kw pre rest _ cs f s _
            (fncBody_close_matrix kw _ s hcom hl hc hwf.1) hidx (filter_fncAppend s _)
            (fun hsk _ => ⟨rfl, fncAppend_result_of_not_skipping s _ hsk⟩)
            (IH _ (by simpa [hl, fncAppend] using hwf.2) hidx2 hcom hsc)
        rw [if_neg h4b] at hwf
        by_cases h5 : c = ';'
        · rw [if_pos h5] at hwf
          simp only [Bool.and_eq_true, decide_eq_true_eq] at hwf
          subst h5
          refine stopsAtSemicolon_cons kw pre rest _ cs f s _
            (fncBody_inner_semicolon kw _ s hcom hl hc hwf.1) hidx (filter_fncAppend s _)
            (fun hsk _ => ⟨rfl, fncAppend_result_of_not_skipping s _ hsk⟩)
            (IH _ (by simpa [hl, fncAppend] using hwf.2) hidx2 hcom hsc)
        rw [if_neg h5] at hwf
        by_cases h6 : c = '('
        · rw [if_pos h6] at hwf
          subst h6
          refine stopsAtSemicolon_cons kw pre rest _ cs f s _
            (fncBody_open_paren kw _ s hcom hl hc) hidx (filter_fncAppend s _)
            (fun hsk _ => ⟨rfl, fncAppend_result_of_not_skipping s _ hsk⟩)
            (IH _ (by simpa [hl, fncAppend] using hwf) hidx2 hcom hsc)
        rw [if_neg h6] at hwf
        by_cases h7 : c = ')'
        · rw [if_pos h7] at hwf
          simp only [Bool.and_eq_true, decide_eq_true_eq] at hwf
          subst h7
          refine stopsAtSemicolon_cons kw pre rest _ cs f s _
            (fncBody_close_paren kw _ s hcom hl hc hwf.1) hidx (filter_fncAppend s _)
            (fun hsk _ => ⟨rfl, fncAppend_result_of_not_skipping s _ hsk⟩)
            (IH _ (by simpa [hl, fncAppend] using hwf.2) hidx2 hcom hsc)
        rw [if_neg h7] at hwf
        by_cases h8 : c = '['
        · rw [if_pos h8] at hwf
          subst h8
          refine stopsAtSemicolon_cons kw pre rest _ cs f s _
            (fncBody_open_bracket kw _ s hcom hl hc) hidx (filter_fncAppend s _)
            (fun hsk _ => ⟨rfl, fncAppend_result_of_not_skipping s _ hsk⟩)
            (IH _ (by simpa [hl, fncAppend] using hwf) hidx2 hcom hsc)
        rw [if_neg h8] at hwf
        by_cases h9 : c = ']'
        · rw [if_pos h9] at hwf
          simp only [Bool.and_eq_true, decide_eq_true_eq] at hwf
          subst h9
          refine stopsAtSemicolon_cons kw pre rest _ cs f s _
            (fncBody_close_bracket kw _ s hcom hl hc hwf.1) hidx (filter_fncAppend s _)
            (fun hsk _ => ⟨rfl, fncAppend_result_of_not_skipping s _ hsk⟩)
            (IH _ (by simpa [hl, fncAppend] using hwf.2) hidx2 hcom hsc)
        rw [if_neg h9] at hwf
        by_cases hsp : isspace c = true
        · rw [if_pos hsp] at hwf
          have hcs : isspace (char_at (pre ++ (c :: cs) ++ ';' :: rest) s.index) = true := by
            rw [hc]; exact hsp
          refine stopsAtSemicolon_cons kw pre rest _ cs f s _
            (fncBody_space kw _ s hcom hl hcs) hidx ?_
            (fun _ hns => absurd hsp (by rw [hns]; decide))
            (IH _ (by simpa [hl] using hwf) hidx2 hcom hsc)
          have hsp2 : notSpace ' ' = false := by decide
          have hsp3 : notSpace c = false := by simp [notSpace, hsp]
          simp only []
          split_ifs <;> simp [List.filter_append, hsp2, hsp3]
        · rw [if_neg hsp] at hwf
          have hsp1 : isspace c = false := by simpa using hsp
          refine stopsAtSemicolon_cons kw pre rest _ cs f s _
            (fncBody_plain kw _ s c hcom hl hc hsp1 h1 h2 (fun h => absurd h h3)
              h5 h6 h7 h8 h9 h4 h4b)
            hidx (filter_fncAppend s _)
            (fun hsk _ => ⟨rfl, fncAppend_result_of_not_skipping s _ hsk⟩)
            (IH _ (by simpa [hl, fncAppend] using hwf) hidx2 hcom hsc)
      · -- inside a double-quoted literal
        rw [hl] at hwf
        have hlit : s.literal_state ≠ LiteralState.normal_text := by rw [hl]; decide
        rw [wellFormedFrom_double_quote] at hwf
        by_cases h1 : c = chBackslash
        · rw [if_pos h1] at hwf
          cases cs with
          | nil => exact absurd hwf (by simp)
          | cons d cs2 =>
            simp only [] at hwf
            simp only [List.length_cons] at hn hfuel
            subst h1
            have hd : get_char (pre ++ (chBackslash :: d :: cs2) ++ ';' :: rest)
                ((s.index : Int) + 1) = d := by
              rw [get_char_stmt_next pre rest chBackslash (d :: cs2) s hidx]
              rfl
            have hidx3 : s.index + 1 + 1 = (pre ++ [chBackslash, d]).length := by
              simp only [List.length_append, List.length_cons, List.length_nil]; omega
            refine stopsAtSemicolon_escape kw pre rest _ d cs2 f s _
              (fncBody_escape kw _ s hcom hlit hc) hidx ?_ ?_
              (ih cs2.length (by omega) cs2 (pre ++ [chBackslash, d]) _ f (le_refl _)
                (by simpa [hl, fncAppend] using hwf) hidx3 hcom hsc (by omega))
            · simp only [hd, List.filter_append, filter_fncAppend]
            · intro hsk _
              refine ⟨rfl, ?_⟩
              simp only [hd, fncAppend_result_of_not_skipping s _ hsk]
              simp
        rw [if_neg h1] at hwf
        by_cases h2 : c = chDQuote
        · rw [if_pos h2] at hwf
          subst h2
          refine stopsAtSemicolon_cons kw pre rest _ cs f s _
            (fncBody_close_dquote kw _ s hcom hl hc) hidx (filter_fncAppend s _)
            (fun hsk _ => ⟨rfl, fncAppend_result_of_not_skipping s _ hsk⟩)
            (IH _ (by simpa [fncAppend] using hwf) hidx2 hcom hsc)
        rw [if_neg h2] at hwf
        refine stopsAtSemicolon_cons kw pre rest _ cs f s _
          (fncBody_in_literal kw _ s c hcom hlit hc h1
            (fun _ => h2)
            (fun h => by rw [hl] at h; cases h))
          hidx (filter_fncAppend s _)
          (fun hsk _ => ⟨rfl, fncAppend_result_of_not_skipping s _ hsk⟩)
          (IH _ (by simpa [hl, fncAppend] using hwf) hidx2 hcom hsc)
      · -- inside a single-quoted literal
        rw [hl] at hwf
        have hlit : s.literal_state ≠ LiteralState.normal_text := by rw [hl]; decide
        rw [wellFormedFrom_single_quote] at hwf
        by_cases h1 : c = chBackslash
        · rw [if_pos h1] at hwf
          cases cs with
          | nil => exact absurd hwf (by simp)
          | cons d cs2 =>
            simp only [] at hwf
            simp only [List.length_cons] at hn hfuel
            subst h1
            have hd : get_char (pre ++ (chBackslash :: d :: cs2) ++ ';' :: rest)
                ((s.index : Int) + 1) = d := by
              rw [get_char_stmt_next pre rest chBackslash (d :: cs2) s hidx]
              rfl
            have hidx3 : s.index + 1 + 1 = (pre ++ [chBackslash, d]).length := by
              simp only [List.length_append, List.length_cons, List.length_nil]; omega
            refine stopsAtSemicolon_escape kw pre rest _ d cs2 f s _
              (fncBody_escape kw _ s hcom hlit hc) hidx ?_ ?_
              (ih cs2.length (by omega) cs2 (pre ++ [chBackslash, d]) _ f (le_refl _)
                (by simpa [hl, fncAppend] using hwf) hidx3 hcom hsc (by omega))
            · simp only [hd, List.filter_append, filter_fncAppend]
            · intro hsk _
              refine ⟨rfl, ?_⟩
              simp only [hd, fncAppend_result_of_not_skipping s _ hsk]
              simp
        rw [if_neg h1] at hwf
        by_cases h2 : c = chSQuote
        · rw [if_pos h2] at hwf
          subst h2
          refine stopsAtSemicolon_cons kw pre rest _ cs f s _
            (fncBody_close_squote kw _ s hcom hl hc) hidx (filter_fncAppend s _)
            (fun hsk _ => ⟨rfl, fncAppend_result_of_not_skipping s _ hsk⟩)
            (IH _ (by simpa [fncAppend] using hwf) hidx2 hcom hsc)
        rw [if_neg h2] at hwf
        refine stopsAtSemicolon_cons kw pre rest _ cs f s _
          (fncBody_in_literal kw _ s c hcom hlit hc h1
            (fun h => by rw [hl] at h; cases h)
            (fun _ => h2))
          hidx (filter_fncAppend s _)
          (fun hsk _ => ⟨rfl, fncAppend_result_of_not_skipping s _ hsk⟩)
          (IH _ (by simpa [hl, fncAppend] using hwf) hidx2 hcom hsc)

/-- The backwards scan for the last printable character stops at or after every
printable character in front of its start. -/
theorem trailingScan_spec (input : List Char) :
    ∀ (n : Nat), trailingScan input n < n ∧ -1 ≤ trailingScan input n
      ∧ ∀ (p : Nat), p < n → isprint (get_char input p) = true →
          (p : Int) ≤ trailingScan input n := by
  intro n
  induction n with
  | zero =>
    refine ⟨by simp [trailingScan], by simp [trailingScan], ?_⟩
    intro p hp
    omega
  | succ n ih =>
    obtain ⟨h1, h2, h3⟩ := ih
    simp only [trailingScan]
    by_cases hpr : isprint (get_char input n) = false
    · rw [if_pos hpr]
      refine ⟨by push_cast; omega, h2, ?_⟩
      intro p hp hprint
      by_cases hpn : p = n
      · subst hpn
        rw [hpr] at hprint
        cases hprint
      · exact h3 p (by omega) hprint
    · rw [if_neg hpr]
      refine ⟨by push_cast; omega, by omega, ?_⟩
      intro p hp _
      omega

/-- Trimming the unprintable end of the buffer keeps everything up to a
printable character. -/
theorem trimmedInput_keeps (a : List Char) (c : Char) (b : List Char)
    (hp : isprint c = true) : ∃ b1, trimmedInput (a ++ c :: b) = a ++ c :: b1 := by
  obtain ⟨h1, h2, h3⟩ := trailingScan_spec (a ++ c :: b) (a ++ c :: b).length
  have hlen : (a ++ c :: b).length = a.length + b.length + 1 := by
    simp only [List.length_append, List.length_cons]; omega
  have hget : get_char (a ++ c :: b) (a.length : Int) = c := by
    unfold get_char
    rw [if_pos ⟨by omega, by rw [hlen]; push_cast; omega⟩]
    exact char_at_append_cons a c b
  have h4 := h3 a.length (by omega) (by rw [hget]; exact hp)
  obtain ⟨k, hk⟩ : ∃ k : Nat, trailingScan (a ++ c :: b) (a ++ c :: b).length = (k : Int) :=
    ⟨(trailingScan (a ++ c :: b) (a ++ c :: b).length).toNat, by omega⟩
  refine ⟨b.take (k - a.length), ?_⟩
  unfold trimmedInput
  rw [hk]
  have hcut := Cut_slice (a ++ c :: b) 0 (k + 1) (by omega) (by omega)
  have e : (((k + 1 : Nat) : Int) - 1) = (k : Int) := by push_cast; omega
  rw [e] at hcut
  have e0 : ((0 : Nat) : Int) = 0 := rfl
  rw [e0] at hcut
  rw [hcut]
  simp only [List.drop_zero, Nat.sub_zero]
  rw [List.take_append_eq_append_take]
  have hk2 : a.length ≤ k := by omega
  rw [List.take_of_length_le (by omega)]
  have e2 : k + 1 - a.length = (k - a.length) + 1 := by omega
  rw [e2, List.take_succ_cons]

/-- For every input that starts with one well-formed statement (no
comment opener outside literals, balanced quotes, `()`, `[]` and matrix-literal
brace nesting never negative and back to zero, no brace that opens a scope,
`;` only inside brackets, matrix literals or quoted literals) followed by `;`
and arbitrary further text, the scan of `FindNextCommand` stops
by `break` at that `;`, outside literals and comments with every nesting
counter at zero; the text accumulated there is the statement with the
terminating `;` appended, up to white space, and exactly that when the
statement contains no white space. -/
theorem findNextCommand_scan_stops_at_semicolon (kw : KeywordTable) (stmt rest : List Char)
    (hwf : wellFormedStatement stmt = true) :
    ∃ s, fncScan kw (stmt ++ ';' :: rest) = some (FNCExit.atBreak s)
      ∧ s.index = stmt.length
      ∧ s.result.filter notSpace = stmt.filter notSpace ++ [';']
      ∧ ((∀ c ∈ stmt, isspace c = false) → s.result = stmt ++ [';'])
      ∧ s.literal_state = LiteralState.normal_text
      ∧ s.comment_state = CommentState.no_comment
      ∧ s.scope_depth = 0 ∧ s.matrix_depth = 0
      ∧ s.parentheses_depth = 0 ∧ s.bracket_depth = 0 := by
  obtain ⟨b1, hb1⟩ := trimmedInput_keeps stmt ';' rest (by decide)
  have h := stopsAtSemicolon_of_wellFormed kw b1 stmt.length stmt [] fncInit
    (stmt ++ ';' :: b1).length (le_refl _) hwf rfl rfl rfl
    (by simp only [List.length_append, List.length_cons]; omega)
  obtain ⟨s, hloop, hi, hf, he, hrest⟩ := h
  refine ⟨s, ?_, ?_, ?_, ?_, hrest⟩
  · unfold fncScan
    rw [hb1]
    simpa using hloop
  · simpa using hi
  · simpa [fncInit] using hf
  · intro hall
    simpa [fncInit] using he rfl hall

/-- The scan of the input `x=1;y=2;`. -/
theorem findNextCommand_scan_stops_at_semicolon_example :
    ∃ s, fncScan emptyKeywordTable ("x=1".toList ++ ';' :: "y=2;".toList)
        = some (FNCExit.atBreak s)
      ∧ s.index = "x=1".toList.length
      ∧ s.result.filter notSpace = "x=1".toList.filter notSpace ++ [';']
      ∧ ((∀ c ∈ "x=1".toList, isspace c = false) → s.result = "x=1".toList ++ [';'])
      ∧ s.literal_state = LiteralState.normal_text
      ∧ s.comment_state = CommentState.no_comment
      ∧ s.scope_depth = 0 ∧ s.matrix_depth = 0
      ∧ s.parentheses_depth = 0 ∧ s.bracket_depth = 0 :=
  findNextCommand_scan_stops_at_semicolon emptyKeywordTable "x=1".toList "y=2;".toList
    (by decide)

/-- On `x=1;y=2;` the outcome is the same whatever the keyword table holds. -/
theorem findNextCommand_on_two_statements (kw : KeywordTable) :
    FindNextCommand kw "x=1;y=2;".toList
      = some { error := some FNCError.incomplete, result := [], input := [] } := by
  rfl

/-- C1: on `x=1;y=2;` `FindNextCommand` reports the parse error,
returns the empty statement and leaves the buffer empty; it does not return
`x=1` and leave `y=2;`. -/
theorem findNextCommand_rejects_plain_statement :
    FindNextCommand emptyKeywordTable "x=1;y=2;".toList
        = some { error := some FNCError.incomplete, result := [], input := [] }
      ∧ FindNextCommand emptyKeywordTable "x=1;y=2;".toList
        ≠ some { error := none, result := "x=1".toList, input := "y=2;".toList } := by
  rw [findNextCommand_on_two_statements emptyKeywordTable]
  exact ⟨rfl, by decide⟩

/-- On `x=` followed by the double-quoted literal `//` and `;` the outcome is
the same whatever the keyword table holds. -/
theorem findNextCommand_on_quoted_slashes (kw : KeywordTable) :
    (∃ s, fncScan kw ("x=".toList ++ [chDQuote, '/', '/', chDQuote, ';'])
        = some (FNCExit.atBreak s)
      ∧ s.result = "x=".toList ++ [chDQuote, '/', '/', chDQuote, ';'])
    ∧ FindNextCommand kw ("x=".toList ++ [chDQuote, '/', '/', chDQuote, ';'])
        = some { error := some FNCError.incomplete, result := [], input := [] } :=
  ⟨⟨_, rfl, rfl⟩, rfl⟩

/-- C2: on the input `x=` followed by the double-quoted literal `//` and `;` the
scan copies every character, the `//` inside the literal included, and stops
at the `;`; `FindNextCommand` then reports the parse error and returns the
empty statement, so the characters of the literal are not in the statement
returned. -/
theorem findNextCommand_drops_statement_with_literal :
    (∃ s, fncScan emptyKeywordTable ("x=".toList ++ [chDQuote, '/', '/', chDQuote, ';'])
        = some (FNCExit.atBreak s)
      ∧ s.result = "x=".toList ++ [chDQuote, '/', '/', chDQuote, ';'])
    ∧ FindNextCommand emptyKeywordTable ("x=".toList ++ [chDQuote, '/', '/', chDQuote, ';'])
        = some { error := some FNCError.incomplete, result := [], input := [] } :=
  findNextCommand_on_quoted_slashes emptyKeywordTable

/-- On `x/*` and on `x` the outcome is the same whatever the keyword table
holds. -/
theorem findNextCommand_on_open_comment (kw : KeywordTable) :
    FindNextCommand kw "x/*".toList
        = some { error := none, result := "x".toList, input := [] }
      ∧ FindNextCommand kw "x".toList
        = some { error := some FNCError.incomplete, result := [], input := [] } :=
  ⟨rfl, rfl⟩

/-- C3: `FindNextCommand` returns `x` for the input `x/*` without reporting an
error, and applied to `x` it reports the parse error and returns the empty
statement. -/
theorem findNextCommand_not_idempotent :
    FindNextCommand emptyKeywordTable "x/*".toList
        = some { error := none, result := "x".toList, input := [] }
      ∧ FindNextCommand emptyKeywordTable "x".toList
        = some { error := some FNCError.incomplete, result := [], input := [] } :=
  findNextCommand_on_open_comment emptyKeywordTable

/-! ## Properties of the registry of user functions -/

theorem FindObject_range (names : List (List Char)) (s : List Char) :
    FindObject names s = -1 ∨ (0 ≤ FindObject names s ∧ FindObject names s < names.length) := by
  induction names with
  | nil => left; rfl
  | cons n rest ih =>
    simp only [FindObject, List.length_cons]
    by_cases h : n = s
    · right; simp [h]
    · rw [if_neg h]
      rcases ih with h1 | ⟨h1, h2⟩
      · left; simp [h1]
      · right; rw [if_neg (by omega)]; push_cast; omega

theorem FindObject_registeredAt (names : List (List Char)) (s : List Char) (i : Nat) :
    FindObject names s = (i : Int) ↔ registeredAt names s i := by
  induction names generalizing i with
  | nil => simp [FindObject, registeredAt]
  | cons n rest ih =>
    simp only [FindObject]
    by_cases h : n = s
    · rw [if_pos h]
      constructor
      · intro h0
        have : i = 0 := by omega
        subst this
        exact ⟨by simp [h], by intro j hj; omega⟩
      · rintro ⟨h1, h2⟩
        cases i with
        | zero => rfl
        | succ k => exact absurd (by simp [h]) (h2 0 (by omega))
    · rw [if_neg h]
      rcases FindObject_range rest s with h1 | ⟨h1, h2⟩
      · rw [if_pos (by omega)]
        constructor
        · intro h0; omega
        · rintro ⟨h3, h4⟩
          cases i with
          | zero => simp at h3; exact absurd h3 h
          | succ k =>
            have hk : registeredAt rest s k :=
              ⟨by simpa using h3, fun j hj => by simpa using h4 (j + 1) (by omega)⟩
            have := (ih k).2 hk
            omega
      · rw [if_neg (by omega)]
        constructor
        · intro h0
          cases i with
          | zero => omega
          | succ k =>
            have hk := (ih k).1 (by push_cast at h0; omega)
            refine ⟨by simpa using hk.1, ?_⟩
            intro j hj
            cases j with
            | zero => simpa using h
            | succ m => simpa using hk.2 m (by omega)
        · rintro ⟨h3, h4⟩
          cases i with
          | zero => simp at h3; exact absurd h3 h
          | succ k =>
            have hk : registeredAt rest s k :=
              ⟨by simpa using h3, fun j hj => by simpa using h4 (j + 1) (by omega)⟩
            have := (ih k).2 hk
            push_cast; omega

theorem FindObject_absent (names : List (List Char)) (s : List Char) :
    FindObject names s < 0 ↔ s ∉ names := by
  induction names with
  | nil => simp [FindObject]
  | cons n rest ih =>
    simp only [FindObject, List.mem_cons, not_or]
    by_cases h : n = s
    · simp [h]
    · rw [if_neg h]
      rcases FindObject_range rest s with h1 | ⟨h1, h2⟩
      · rw [if_pos (by omega)]
        have := ih.1 (by omega)
        simp [this, Ne.symm h]
      · rw [if_neg (by omega)]
        have : ¬ s ∉ rest := fun hn => by have := ih.2 hn; omega
        constructor
        · intro h0; omega
        · rintro ⟨_, h5⟩; exact absurd h5 this

theorem firstRegistered_single (names : List (List Char)) (s : List Char) :
    firstRegistered names [s] = FindObject names s := by
  simp only [firstRegistered]
  rcases FindObject_range names s with h1 | ⟨h1, h2⟩
  · simp [h1]
  · simp [h1]

theorem joinDots_append_singleton (l : List (List Char)) (g : List Char) (h : l ≠ []) :
    joinDots (l ++ [g]) = joinDots l ++ '.' :: g := by
  induction l with
  | nil => exact absurd rfl h
  | cons a rest ih =>
    cases rest with
    | nil => simp [joinDots]
    | cons b r =>
      have h1 := ih (by simp)
      rw [List.cons_append, List.cons_append, joinDots, ← List.cons_append, h1, joinDots]
      simp

theorem joinDots_length (segs : List (List Char)) (h : ∀ g ∈ segs, g ≠ []) :
    segs.length ≤ (joinDots segs).length := by
  induction segs with
  | nil => simp
  | cons a rest ih =>
    have ha := List.length_pos.2 (h a (by simp))
    cases rest with
    | nil => simp only [joinDots, List.length_singleton]; omega
    | cons b r =>
      have := ih (fun g hg => h g (by simp [List.mem_cons.1 hg]))
      simp only [joinDots, List.length_cons, List.length_append] at this ⊢
      omega

theorem joinDots_take_succ (segs : List (List Char)) (i : Nat) (h : i + 1 < segs.length) :
    joinDots (segs.take (i + 2))
      = joinDots (segs.take (i + 1)) ++ '.' :: segs.getD (i + 1) [] := by
  have h1 : segs.take (i + 2) = segs.take (i + 1) ++ [segs.getD (i + 1) []] := by
    rw [List.take_succ]
    simp [List.getD, List.getElem?_eq_getElem h]
  rw [h1, joinDots_append_singleton]
  intro h0
  have := congrArg List.length h0
  rw [List.length_take, List.length_nil] at this
  omega

theorem FindBackwards_absent (s : List Char) (c : Char) (h : c ∉ s) : FindBackwards s c = -1 := by
  simp [FindBackwards, h]

theorem FindBackwards_last (p g : List Char) (c : Char) (h : c ∉ g) :
    FindBackwards (p ++ c :: g) c = (p.length : Int) := by
  have hr : (p ++ c :: g).reverse = g.reverse ++ c :: p.reverse := by simp
  have hi : (g.reverse ++ c :: p.reverse).indexOf c = g.length := by
    rw [List.indexOf_append_of_not_mem (by simpa using h)]
    simp
  simp only [FindBackwards, List.mem_append, List.mem_cons, true_or, or_true, if_true, hr, hi,
    List.length_append, List.length_cons]
  omega

theorem Cut_prefix (p : List Char) (c : Char) (g : List Char) (h : 0 < p.length) :
    Cut (p ++ c :: g) 0 ((p.length : Int) - 1) = p := by
  have := Cut_slice (p ++ c :: g) 0 p.length (by omega) (by omega)
  simpa using this

/-- The loop of `FindBFFunctionName`, entered with the first `i + 1` segments
of the namespace as prefix and enough fuel, returns the index of the first
registered candidate among the qualified names of at most `i + 1` segments and
the bare name. -/
theorem findBFFunctionNameLoop_candidates (names : List (List Char)) (s : List Char)
    (segs : List (List Char)) (hseg : ∀ g ∈ segs, g ≠ [] ∧ '.' ∉ g) (i : Nat)
    (hi : i < segs.length) (fuel : Nat) (hfuel : i < fuel) :
    FindBFFunctionNameLoop names s fuel (joinDots (segs.take (i + 1)))
      = some (firstRegistered names (qualifiedCandidates segs s (i + 1) ++ [s])) := by
  induction i generalizing fuel with
  | zero =>
    cases fuel with
    | zero => omega
    | succ f =>
      obtain ⟨g, rest, hsegs⟩ : ∃ g rest, segs = g :: rest := by
        cases segs with
        | nil => simp at hi
        | cons g rest => exact ⟨g, rest, rfl⟩
      subst hsegs
      have hg := hseg g (by simp)
      have h1 := firstRegistered_single names s
      simp only [FindBFFunctionNameLoop, qualifiedCandidates, List.take_succ_cons, List.take_zero,
        joinDots, List.cons_append, List.nil_append]
      rw [firstRegistered]
      by_cases h0 : FindObject names (g ++ '.' :: s) ≥ 0
      · simp [h0]
      · rw [FindBackwards_absent g '.' hg.2, h1]
        simp [h0]
  | succ k ih =>
    cases fuel with
    | zero => omega
    | succ f =>
      have hk : k + 1 < segs.length := hi
      have hjoin := joinDots_take_succ segs k hk
      have hlast : segs.getD (k + 1) [] ∈ segs := by
        simp [List.getD, List.getElem?_eq_getElem hk]
      have hg := hseg _ hlast
      obtain ⟨g1, hg1⟩ : ∃ g1, g1 = segs.getD (k + 1) [] := ⟨_, rfl⟩
      rw [← hg1] at hjoin hg
      have hpos : 0 < (joinDots (segs.take (k + 1))).length := by
        obtain ⟨g, rest, hsegs⟩ : ∃ g rest, segs = g :: rest := by
          cases segs with
          | nil => simp at hi
          | cons g rest => exact ⟨g, rest, rfl⟩
        have hg0 := (hseg g (by simp [hsegs])).1
        subst hsegs
        cases hr : List.take k rest with
        | nil =>
          simp only [List.take_succ_cons, hr, joinDots]
          exact List.length_pos.2 hg0
        | cons b r =>
          simp only [List.take_succ_cons, hr, joinDots, List.length_append]
          have := List.length_pos.2 hg0
          omega
      have ih1 := ih (by omega) f (by omega)
      rw [show k + 1 + 1 = k + 2 from rfl, hjoin]
      simp only [FindBFFunctionNameLoop]
      rw [FindBackwards_last _ _ '.' hg.2, Cut_prefix _ _ _ hpos, ih1]
      have hq : qualifiedCandidates segs s (k + 2)
          = (joinDots (segs.take (k + 2)) ++ '.' :: s) :: qualifiedCandidates segs s (k + 1) := rfl
      rw [hq, hjoin]
      rw [List.cons_append, firstRegistered]
      by_cases h0 : 0 ≤ FindObject names
          (joinDots (List.take (k + 1) segs) ++ '.' :: (g1 ++ '.' :: s))
      · simp [h0]
      · simp [h0, hpos]

theorem firstRegistered_absent (names : List (List Char)) (cands : List (List Char)) :
    firstRegistered names cands = -1 ↔ ∀ c ∈ cands, c ∉ names := by
  induction cands with
  | nil => simp [firstRegistered]
  | cons c rest ih =>
    simp only [firstRegistered, List.mem_cons, forall_eq_or_imp]
    rcases FindObject_range names c with h1 | ⟨h1, h2⟩
    · have hc := (FindObject_absent names c).1 (by omega)
      rw [if_neg (by omega), ih]
      simp [hc]
    · have hc : ¬ c ∉ names := fun hn => by have := (FindObject_absent names c).2 hn; omega
      rw [if_pos (by omega)]
      constructor
      · intro h0; omega
      · rintro ⟨h5, _⟩; exact absurd h5 hc

theorem firstRegistered_found (names : List (List Char)) (cands : List (List Char)) (i : Nat)
    (h : firstRegistered names cands = (i : Int)) :
    ∃ pre c post, cands = pre ++ c :: post ∧ (∀ d ∈ pre, d ∉ names) ∧ registeredAt names c i := by
  induction cands with
  | nil => simp [firstRegistered] at h
  | cons c rest ih =>
    simp only [firstRegistered] at h
    by_cases h0 : FindObject names c ≥ 0
    · rw [if_pos h0] at h
      exact ⟨[], c, rest, rfl, by simp, (FindObject_registeredAt names c i).1 h⟩
    · rw [if_neg h0] at h
      obtain ⟨pre, d, post, h1, h2, h3⟩ := ih h
      refine ⟨c :: pre, d, post, by simp [h1], ?_, h3⟩
      intro e he
      rcases List.mem_cons.1 he with he | he
      · subst he; exact (FindObject_absent names e).1 (by omega)
      · exact h2 e he

/-- C11: for a namespace made of `k ≥ 1` non-empty dotted segments,
`FindBFFunctionName` returns the registry index of the first registered name
among `n.s`, `n` with its last segment stripped `.s`, ..., `firstSegment.s`
and the bare `s`, in this order, or `-1` when none of them is registered; with
no namespace it returns the result of the bare lookup alone. -/
theorem findBFFunctionName_lookup_order (names : List (List Char)) (s : List Char)
    (segs : List (List Char)) (hne : segs ≠ []) (hseg : ∀ g ∈ segs, g ≠ [] ∧ '.' ∉ g) :
    FindBFFunctionName names s (some (joinDots segs))
        = some (firstRegistered names (lookupCandidates segs s))
      ∧ FindBFFunctionName names s none = some (FindObject names s)
      ∧ (firstRegistered names (lookupCandidates segs s) = -1
          ↔ ∀ c ∈ lookupCandidates segs s, c ∉ names)
      ∧ ∀ i : Nat, firstRegistered names (lookupCandidates segs s) = (i : Int) →
          ∃ pre c post, lookupCandidates segs s = pre ++ c :: post
            ∧ (∀ d ∈ pre, d ∉ names) ∧ registeredAt names c i := by
  refine ⟨?_, rfl, firstRegistered_absent names _, fun i h => firstRegistered_found names _ i h⟩
  obtain ⟨k, hk⟩ : ∃ k, segs.length = k + 1 := by
    cases segs with
    | nil => exact absurd rfl hne
    | cons g rest => exact ⟨rest.length, rfl⟩
  have hlen : k < (joinDots segs).length + 1 := by
    have := joinDots_length segs (fun g hg => (hseg g hg).1)
    omega
  have := findBFFunctionNameLoop_candidates names s segs hseg k (by omega)
    ((joinDots segs).length + 1) hlen
  rw [show List.take (k + 1) segs = segs from by rw [← hk]; exact List.take_length segs] at this
  simp only [FindBFFunctionName, lookupCandidates, hk]
  exact this

/-- The lookup of `f` from the namespace `a.b` in a registry holding `f` and
`a.f` tries `a.b.f`, `a.f` and `f`, and finds `a.f`, at slot 1. -/
theorem findBFFunctionName_lookup_order_witness :
    FindBFFunctionName ["f".toList, "a.f".toList] "f".toList
        (some (joinDots ["a".toList, "b".toList]))
      = some (firstRegistered ["f".toList, "a.f".toList]
          (lookupCandidates ["a".toList, "b".toList] "f".toList))
    ∧ lookupCandidates ["a".toList, "b".toList] "f".toList
      = ["a.b.f".toList, "a.f".toList, "f".toList]
    ∧ firstRegistered ["f".toList, "a.f".toList]
        (lookupCandidates ["a".toList, "b".toList] "f".toList) = 1 :=
  ⟨(findBFFunctionName_lookup_order ["f".toList, "a.f".toList] "f".toList
      ["a".toList, "b".toList] (by simp) (by decide)).1, by decide, by decide⟩

theorem getElem?_set_self_of_lt {α : Type} (l : List α) (i : Nat) (a : α) (h : i < l.length) :
    (l.set i a)[i]? = some a := by
  simp [List.getElem?_set, h]

theorem getElem?_set_other {α : Type} (l : List α) (i j : Nat) (a : α) (h : j ≠ i) :
    (l.set i a)[j]? = l[j]? := by
  simp [List.getElem?_set, Ne.symm h]

/-- The update of the registry of lines 5895-5907, for the slot that the bare
lookup of the qualified name gives: with the five tables of equal length,
declaring a function whose
qualified name is registered at slot `i` keeps the length of the registry,
puts body, name, parameter list, parameter kinds and classification at slot
`i` of the five tables and leaves every other slot as it was; declaring a name
that is not registered appends one slot to each of the five tables; in both
cases the five tables have equal length afterwards. -/
theorem registerSlot_slots {Body : Type} (reg : Registry Body)
    (funcID : List Char) (functionBody : Body) (arguments : List (List Char))
    (argument_types : List Bool) (isLFunction isFFunction : Bool) (hal : reg.aligned) :
    (registerSlot (FindObject reg.batchLanguageFunctionNames funcID) reg funcID functionBody arguments argument_types
        isLFunction isFFunction).aligned
    ∧ (∀ i : Nat, registeredAt reg.batchLanguageFunctionNames funcID i →
        ∀ reg1, reg1 = registerSlot (FindObject reg.batchLanguageFunctionNames funcID) reg funcID functionBody arguments
            argument_types isLFunction isFFunction →
          reg1.batchLanguageFunctionNames.length = reg.batchLanguageFunctionNames.length
          ∧ reg1.batchLanguageFunctions[i]? = some functionBody
          ∧ reg1.batchLanguageFunctionNames[i]? = some funcID
          ∧ reg1.batchLanguageFunctionParameterLists[i]? = some arguments
          ∧ reg1.batchLanguageFunctionParameterTypes[i]? = some argument_types
          ∧ reg1.batchLanguageFunctionClassification[i]?
              = some (functionClass isLFunction isFFunction)
          ∧ ∀ j : Nat, j ≠ i →
              reg1.batchLanguageFunctions[j]? = reg.batchLanguageFunctions[j]?
              ∧ reg1.batchLanguageFunctionNames[j]? = reg.batchLanguageFunctionNames[j]?
              ∧ reg1.batchLanguageFunctionParameterLists[j]?
                  = reg.batchLanguageFunctionParameterLists[j]?
              ∧ reg1.batchLanguageFunctionParameterTypes[j]?
                  = reg.batchLanguageFunctionParameterTypes[j]?
              ∧ reg1.batchLanguageFunctionClassification[j]?
                  = reg.batchLanguageFunctionClassification[j]?)
    ∧ (funcID ∉ reg.batchLanguageFunctionNames →
        registerSlot (FindObject reg.batchLanguageFunctionNames funcID) reg funcID functionBody arguments argument_types
            isLFunction isFFunction
          = { batchLanguageFunctions := reg.batchLanguageFunctions ++ [functionBody]
              batchLanguageFunctionNames := reg.batchLanguageFunctionNames ++ [funcID]
              batchLanguageFunctionParameterLists :=
                reg.batchLanguageFunctionParameterLists ++ [arguments]
              batchLanguageFunctionParameterTypes :=
                reg.batchLanguageFunctionParameterTypes ++ [argument_types]
              batchLanguageFunctionClassification :=
                reg.batchLanguageFunctionClassification
                  ++ [functionClass isLFunction isFFunction] }) := by
  obtain ⟨h1, h2, h3, h4⟩ := hal
  refine ⟨?_, ?_, ?_⟩
  · unfold registerSlot Registry.aligned
    by_cases h0 : FindObject reg.batchLanguageFunctionNames funcID ≥ 0
    · simp only [h0, if_true, List.length_set]
      exact ⟨h1, h2, h3, h4⟩
    · simp only [h0, if_false, List.length_append, List.length_singleton]
      omega
  · intro i hi reg1 hreg1
    have hf := (FindObject_registeredAt _ _ _).2 hi
    have hlt : i < reg.batchLanguageFunctionNames.length := by
      have := hi.1
      by_contra hge
      rw [List.getElem?_eq_none (by omega)] at this
      exact absurd this (by simp)
    have hreg : reg1 =
        { batchLanguageFunctions := reg.batchLanguageFunctions.set i functionBody
          batchLanguageFunctionNames := reg.batchLanguageFunctionNames.set i funcID
          batchLanguageFunctionParameterLists :=
            reg.batchLanguageFunctionParameterLists.set i arguments
          batchLanguageFunctionParameterTypes :=
            reg.batchLanguageFunctionParameterTypes.set i argument_types
          batchLanguageFunctionClassification :=
            reg.batchLanguageFunctionClassification.set i
              (functionClass isLFunction isFFunction) } := by
      rw [hreg1]
      unfold registerSlot
      simp [hf]
    subst hreg
    refine ⟨by simp, getElem?_set_self_of_lt _ _ _ (by omega),
      getElem?_set_self_of_lt _ _ _ hlt, getElem?_set_self_of_lt _ _ _ (by omega),
      getElem?_set_self_of_lt _ _ _ (by omega), getElem?_set_self_of_lt _ _ _ (by omega), ?_⟩
    intro j hj
    exact ⟨getElem?_set_other _ _ _ _ hj, getElem?_set_other _ _ _ _ hj,
      getElem?_set_other _ _ _ _ hj, getElem?_set_other _ _ _ _ hj,
      getElem?_set_other _ _ _ _ hj⟩
  · intro hn
    have hf := (FindObject_absent _ _).2 hn
    unfold registerSlot
    simp [not_le.2 hf]

/-- Declaring `f` again in a registry that holds `f` at slot 0 keeps the one
slot. -/
theorem registerSlot_slots_example :
    (registerSlot 0 (oneFunctionRegistry (0 : Nat)) "f".toList 1 ["x".toList]
        [false] false false).aligned
    ∧ (registerSlot 0 (oneFunctionRegistry (0 : Nat)) "f".toList 1 ["x".toList]
        [false] false false).batchLanguageFunctions = [1] :=
  ⟨(registerSlot_slots (oneFunctionRegistry (0 : Nat)) "f".toList 1
      ["x".toList] [false] false false ⟨rfl, rfl, rfl, rfl⟩).1, by decide⟩

theorem mem_simpleListRange (n i : Nat) (j : Nat) (h : i ≤ n) :
    (j : Int) ∈ simpleListRange ((n : Int) - i) i 1 ↔ i ≤ j ∧ j < n := by
  have ht : ((n : Int) - i).toNat = n - i := by omega
  simp only [simpleListRange, List.mem_map, List.mem_range, mul_one, ht]
  constructor
  · rintro ⟨k, hk, hjk⟩
    omega
  · rintro ⟨h1, h2⟩
    exact ⟨j - i, by omega, by omega⟩

theorem DeleteListFrom_take {α : Type} (l : List α) (d : List Int) (i k : Nat)
    (h : ∀ j : Nat, k ≤ j → j < k + l.length → ((j : Int) ∈ d ↔ i ≤ j)) :
    DeleteListFrom k l d = l.take (i - k) := by
  induction l generalizing k with
  | nil => simp [DeleteListFrom]
  | cons a rest ih =>
    have hrest := ih (k + 1) (fun j hj1 hj2 => h j (by omega) (by simp; omega))
    have hk := h k (le_refl k) (by simp)
    simp only [DeleteListFrom]
    by_cases hik : i ≤ k
    · rw [if_pos (hk.2 hik), hrest]
      have h0 : i - k = 0 := by omega
      have h1 : i - (k + 1) = 0 := by omega
      simp [h0, h1]
    · rw [if_neg (fun hm => hik (hk.1 hm)), hrest]
      have h0 : i - k = (i - (k + 1)) + 1 := by omega
      rw [h0, List.take_succ_cons]

theorem DeleteList_range {α : Type} (l : List α) (n i : Nat) (hl : l.length = n) (h : i ≤ n) :
    DeleteList l (simpleListRange ((n : Int) - i) i 1) = l.take i := by
  have := DeleteListFrom_take l (simpleListRange ((n : Int) - i) i 1) i 0
    (fun j _ hj => by
      rw [mem_simpleListRange n i j h]
      constructor
      · exact fun hh => hh.1
      · exact fun hh => ⟨hh, by omega⟩)
  simpa [DeleteList] using this

/-- C13, counterexample: the registry that holds one function is left as it is
by `ClearBFFunctionLists (0)`: it still has one entry. -/
theorem clearBFFunctionLists_zero_keeps_registry :
    ClearBFFunctionLists 0 (oneFunctionRegistry (0 : Nat)) = oneFunctionRegistry (0 : Nat)
    ∧ (ClearBFFunctionLists 0
        (oneFunctionRegistry (0 : Nat))).batchLanguageFunctionNames.length = 1 := by
  decide

/-- C13, amended: with the five tables of equal length, for `0 < i ≤` the
length of the registry `ClearBFFunctionLists (i)` leaves in each of the five
tables exactly its first `i` slots, unchanged, so the registry has `i` entries
afterwards; and `ClearBFFunctionLists (0)` leaves the registry as it is. -/
theorem clearBFFunctionLists_from {Body : Type} (reg : Registry Body) (i : Nat)
    (hal : reg.aligned) (hi : i ≤ reg.batchLanguageFunctionNames.length) :
    (0 < i →
      ClearBFFunctionLists (i : Int) reg
          = { batchLanguageFunctions := reg.batchLanguageFunctions.take i
              batchLanguageFunctionNames := reg.batchLanguageFunctionNames.take i
              batchLanguageFunctionParameterLists :=
                reg.batchLanguageFunctionParameterLists.take i
              batchLanguageFunctionParameterTypes :=
                reg.batchLanguageFunctionParameterTypes.take i
              batchLanguageFunctionClassification :=
                reg.batchLanguageFunctionClassification.take i }
        ∧ (ClearBFFunctionLists (i : Int) reg).batchLanguageFunctionNames.length = i
        ∧ (ClearBFFunctionLists (i : Int) reg).aligned)
    ∧ (i = 0 → ClearBFFunctionLists (i : Int) reg = reg) := by
  obtain ⟨h1, h2, h3, h4⟩ := hal
  constructor
  · intro hpos
    have key : ClearBFFunctionLists (i : Int) reg
          = { batchLanguageFunctions := reg.batchLanguageFunctions.take i
              batchLanguageFunctionNames := reg.batchLanguageFunctionNames.take i
              batchLanguageFunctionParameterLists :=
                reg.batchLanguageFunctionParameterLists.take i
              batchLanguageFunctionParameterTypes :=
                reg.batchLanguageFunctionParameterTypes.take i
              batchLanguageFunctionClassification :=
                reg.batchLanguageFunctionClassification.take i } := by
      unfold ClearBFFunctionLists
      by_cases hlt : i < reg.batchLanguageFunctionNames.length
      · have hg : (i : Int) > 0 ∧ (i : Int) < (reg.batchLanguageFunctionNames.length : Int) :=
          ⟨by omega, by omega⟩
        simp only [hg, and_self, if_true]
        rw [DeleteList_range _ _ i h1 hi, DeleteList_range _ _ i rfl hi,
          DeleteList_range _ _ i h2 hi, DeleteList_range _ _ i h3 hi,
          DeleteList_range _ _ i h4 hi]
      · have hg : ¬ ((i : Int) > 0 ∧ (i : Int) < (reg.batchLanguageFunctionNames.length : Int)) :=
          fun hh => hlt (by omega)
        rw [if_neg hg]
        have he : i = reg.batchLanguageFunctionNames.length := by omega
        rw [List.take_of_length_le (by omega), List.take_of_length_le (by omega),
          List.take_of_length_le (by omega), List.take_of_length_le (by omega),
          List.take_of_length_le (by omega)]
    refine ⟨key, ?_, ?_⟩
    · rw [key]; simp [hi]
    · rw [key]
      simp only [Registry.aligned, List.length_take]
      omega
  · intro h0
    subst h0
    unfold ClearBFFunctionLists
    simp

/-- Clearing from slot 1 a registry of two functions leaves the first one. -/
theorem clearBFFunctionLists_from_witness :
    (ClearBFFunctionLists ((1 : Nat) : Int)
        (registerSlot (-1) (oneFunctionRegistry (0 : Nat)) "g".toList 1 []
          [] false false)).batchLanguageFunctionNames.length = 1 :=
  ((clearBFFunctionLists_from
      (registerSlot (-1) (oneFunctionRegistry (0 : Nat)) "g".toList 1 [] [] false false)
      1 ⟨by decide, by decide, by decide, by decide⟩ (by decide)).1 (by decide)).2.1

/-! ## Properties of jumps and of the program counter -/

theorem getD_append_of_lt (l : List Int) (x : Int) (i : Nat) (h : i < l.length) :
    (l ++ [x]).getD i 0 = l.getD i 0 := by
  simp [List.getD, List.getElem?_append_left h]

theorem cacheFormula_targets (cmd : Command) (p : ParseOutcome) (i : Nat)
    (h : i < cmd.simpleParameters.length) :
    (cacheFormula cmd p).simpleParameters.getD i 0 = cmd.simpleParameters.getD i 0 := by
  cases p with
  | notExpression => rfl
  | expression isVolatile formula =>
    cases isVolatile with
    | true => rfl
    | false => exact getD_append_of_lt _ _ _ h

theorem jumpToTrueTarget_counter (cmd : Command) (chain : ChainState) :
    (jumpToTrueTarget cmd chain).currentCommand
        = trueTarget (cmd.simpleParameters.getD 0 0) chain.lLength
      ∧ (jumpToTrueTarget cmd chain).lLength = chain.lLength := by
  unfold jumpToTrueTarget trueTarget
  by_cases h : cmd.simpleParameters.getD 0 0 = -1
  · rw [if_pos h, if_pos h]; exact ⟨rfl, rfl⟩
  · rw [if_neg h, if_neg h]; exact ⟨rfl, rfl⟩

/-- The counter after `ExecuteCase4`: the next command (after an error), the
false target, or the true target; the command read for the targets is `cmd`
itself or `cmd` with a formula handle appended. -/
theorem executeCase4_counter (cmd : Command) (o : StepOracle) (chain : ChainState) :
    (ExecuteCase4 cmd o chain).2.lLength = chain.lLength
    ∧ ∃ cmd1, (cmd1 = cmd ∨ cmd1 = cacheFormula cmd o.parse)
      ∧ ((ExecuteCase4 cmd o chain).2.currentCommand = chain.currentCommand + 1
        ∨ (ExecuteCase4 cmd o chain).2.currentCommand = cmd1.simpleParameters.getD 1 0
        ∨ (ExecuteCase4 cmd o chain).2.currentCommand
            = trueTarget (cmd1.simpleParameters.getD 0 0) chain.lLength) := by
  generalize hr : ExecuteCase4 cmd o chain = r
  unfold ExecuteCase4 at hr
  simp only [] at hr
  split at hr
  · split at hr
    · subst hr
      exact ⟨rfl, cmd, Or.inl rfl, Or.inl rfl⟩
    · generalize hc : (if decide (cmd.parameters.length ≠ 0 ∧ cmd.simpleParameters.length < 3)
          = true then cacheFormula cmd o.parse else cmd) = cmd1 at hr
      have hcmd1 : cmd1 = cmd ∨ cmd1 = cacheFormula cmd o.parse := by
        rw [← hc]
        split
        · exact Or.inr rfl
        · exact Or.inl rfl
      split at hr
      · split at hr
        · subst hr
          exact ⟨rfl, cmd1, hcmd1, Or.inr (Or.inl rfl)⟩
        · subst hr
          exact ⟨(jumpToTrueTarget_counter _ _).2, cmd1, hcmd1,
            Or.inr (Or.inr (jumpToTrueTarget_counter _ _).1)⟩
      · split at hr
        · subst hr
          exact ⟨rfl, cmd1, hcmd1, Or.inl rfl⟩
        · split at hr
          · subst hr
            exact ⟨rfl, cmd1, hcmd1, Or.inl rfl⟩
          · subst hr
            exact ⟨rfl, cmd1, hcmd1, Or.inr (Or.inl rfl)⟩
          · subst hr
            exact ⟨(jumpToTrueTarget_counter _ _).2, cmd1, hcmd1,
              Or.inr (Or.inr (jumpToTrueTarget_counter _ _).1)⟩
  · subst hr
    exact ⟨(jumpToTrueTarget_counter _ _).2, cmd, Or.inl rfl,
      Or.inr (Or.inr (jumpToTrueTarget_counter _ _).1)⟩

/-- The counter after the return statement: unchanged (after an error), or
the target of the command, or `0x7fffffff` for a negative target. -/
theorem executeCase14_counter (cmd : Command) (o : StepOracle) (chain : ChainState) :
    (ExecuteCase14 cmd o chain).2.lLength = chain.lLength
    ∧ ∃ cmd1, (cmd1 = cmd ∨ cmd1 = cacheFormula cmd o.parse)
      ∧ ((ExecuteCase14 cmd o chain).2.currentCommand = chain.currentCommand
        ∨ (ExecuteCase14 cmd o chain).2.currentCommand
            = if cmd1.simpleParameters.getD 0 0 < 0 then 0x7fffffff
              else cmd1.simpleParameters.getD 0 0) := by
  generalize hr : ExecuteCase14 cmd o chain = r
  unfold ExecuteCase14 at hr
  simp only [] at hr
  split at hr
  · split at hr
    · subst hr
      exact ⟨rfl, cmd, Or.inl rfl, Or.inl rfl⟩
    · generalize hc : (if decide (cmd.simpleParameters.length < 2)
          = true then cacheFormula cmd o.parse else cmd) = cmd1 at hr
      have hcmd1 : cmd1 = cmd ∨ cmd1 = cacheFormula cmd o.parse := by
        rw [← hc]
        split
        · exact Or.inr rfl
        · exact Or.inl rfl
      subst hr
      exact ⟨rfl, cmd1, hcmd1, Or.inr rfl⟩
  · subst hr
    exact ⟨rfl, cmd, Or.inl rfl, Or.inr rfl⟩

/-- C14, counterexample: a list made of the one statement `return;` outside a
function body: the command that `ConstructReturn` appends has the target `-1`,
and executing it at counter 0 leaves the counter at `0x7fffffff`, above the
length 1 of the list. -/
theorem return_outside_function_leaves_range :
    (ConstructReturn none false [] []).1
        = [{ code := 14, text := [], parameters := [], simpleParameters := [-1] }]
    ∧ (ExecuteCommand { code := 14, text := [], parameters := [], simpleParameters := [-1] }
        { parse := ParseOutcome.notExpression, simple := none, computed := none }
        { currentCommand := 0, lLength := 1, terminate_execution := false, result := none,
          error := none }).2.currentCommand = 2147483647
    ∧ ¬ ((2147483647 : Int) ≤ ((1 : Nat) : Int)) := by
  decide

/-- C14, amended: in a list whose jump and return targets lie in the list,
after the execution of the command at a counter in `[0, length)` the counter
is at least 0, and it is at most the length of the list unless the command is
a return with a negative target (a return outside a function body), after
which it is `0x7fffffff`; the length of the list is unchanged, and the loop of
`Execute` stops once the counter has reached the length. -/
theorem executeCommand_program_counter (cmd : Command) (o : StepOracle) (chain : ChainState)
    (hpc : 0 ≤ chain.currentCommand ∧ chain.currentCommand < chain.lLength)
    (ht : targetsInList cmd chain.lLength) :
    (ExecuteCommand cmd o chain).2.lLength = chain.lLength
    ∧ 0 ≤ (ExecuteCommand cmd o chain).2.currentCommand
    ∧ ((ExecuteCommand cmd o chain).2.currentCommand ≤ chain.lLength
        ∨ (cmd.code = 14 ∧ cmd.simpleParameters.getD 0 0 < 0
            ∧ (ExecuteCommand cmd o chain).2.currentCommand = 0x7fffffff))
    ∧ ((chain.lLength : Int) ≤ (ExecuteCommand cmd o chain).2.currentCommand →
        executeContinues (ExecuteCommand cmd o chain).2 = false) := by
  have hstop : ∀ c : ChainState, (c.lLength : Int) ≤ c.currentCommand →
      executeContinues c = false := by
    intro c hc
    simp [executeContinues, not_lt.2 hc]
  obtain ⟨hjump, hret⟩ := ht
  unfold ExecuteCommand
  by_cases h4 : cmd.code = 4
  · rw [if_pos h4]
    obtain ⟨h0, h1, h1b, h2⟩ := hjump h4
    obtain ⟨hl, cmd1, hcmd1, hcases⟩ := executeCase4_counter cmd o chain
    have e0 : cmd1.simpleParameters.getD 0 0 = cmd.simpleParameters.getD 0 0 := by
      rcases hcmd1 with h | h
      · rw [h]
      · rw [h]; exact cacheFormula_targets _ _ _ (by omega)
    have e1 : cmd1.simpleParameters.getD 1 0 = cmd.simpleParameters.getD 1 0 := by
      rcases hcmd1 with h | h
      · rw [h]
      · rw [h]; exact cacheFormula_targets _ _ _ (by omega)
    rw [e0, e1] at hcases
    have hrange : 0 ≤ (ExecuteCase4 cmd o chain).2.currentCommand
        ∧ (ExecuteCase4 cmd o chain).2.currentCommand ≤ chain.lLength := by
      rcases hcases with h | h | h
      · rw [h]; omega
      · rw [h]; omega
      · rw [h]
        unfold trueTarget
        rcases h0 with h0 | h0
        · rw [if_pos h0]; omega
        · split
          · omega
          · omega
    refine ⟨hl, hrange.1, Or.inl hrange.2, fun hge => hstop _ (by rw [hl]; exact hge)⟩
  · rw [if_neg h4]
    by_cases h14 : cmd.code = 14
    · rw [if_pos h14]
      obtain ⟨h0, h1⟩ := hret h14
      obtain ⟨hl, cmd1, hcmd1, hcases⟩ := executeCase14_counter cmd o chain
      have e0 : cmd1.simpleParameters.getD 0 0 = cmd.simpleParameters.getD 0 0 := by
        rcases hcmd1 with h | h
        · rw [h]
        · rw [h]; exact cacheFormula_targets _ _ _ (by omega)
      rw [e0] at hcases
      refine ⟨hl, ?_, ?_, fun hge => hstop _ (by rw [hl]; exact hge)⟩
      · rcases hcases with h | h
        · rw [h]; omega
        · rw [h]; split
          · decide
          · omega
      · rcases hcases with h | h
        · left; rw [h]; omega
        · by_cases hneg : cmd.simpleParameters.getD 0 0 < 0
          · right; rw [h, if_pos hneg]; exact ⟨h14, hneg, rfl⟩
          · left; rw [h, if_neg hneg]; exact h0
    · rw [if_neg h14]
      refine ⟨rfl, ?_, Or.inl ?_, fun hge => hstop _ hge⟩
      · show 0 ≤ chain.currentCommand + 1
        omega
      · show chain.currentCommand + 1 ≤ chain.lLength
        omega

/-- The jump back of a loop, at index 2 of a list of length 3 with the target
0, leaves the counter at 0. -/
theorem executeCommand_program_counter_witness :
    (ExecuteCommand (MakeJumpCommand Command.empty none 0 0).2
        { parse := ParseOutcome.notExpression, simple := none, computed := none }
        { currentCommand := 2, lLength := 3, terminate_execution := false, result := none,
          error := none }).2.lLength = 3
    ∧ 0 ≤ (ExecuteCommand (MakeJumpCommand Command.empty none 0 0).2
        { parse := ParseOutcome.notExpression, simple := none, computed := none }
        { currentCommand := 2, lLength := 3, terminate_execution := false, result := none,
          error := none }).2.currentCommand :=
  ⟨(executeCommand_program_counter (MakeJumpCommand Command.empty none 0 0).2
      { parse := ParseOutcome.notExpression, simple := none, computed := none }
      { currentCommand := 2, lLength := 3, terminate_execution := false, result := none,
        error := none } (by decide) (by unfold targetsInList; decide)).1,
   (executeCommand_program_counter (MakeJumpCommand Command.empty none 0 0).2
      { parse := ParseOutcome.notExpression, simple := none, computed := none }
      { currentCommand := 2, lLength := 3, terminate_execution := false, result := none,
        error := none } (by decide) (by unfold targetsInList; decide)).2.1⟩

/-- C15, counterexample: a fresh command on which `MakeJumpCommand` is called
to keep its true target (`branch1 = -1`): the call fails and leaves the command
with opcode 4 and no targets. -/
theorem makeJumpCommand_failure_leaves_no_targets :
    MakeJumpCommand Command.empty none (-1) 5
        = (false, { code := 4, text := [], parameters := [], simpleParameters := [] })
    ∧ (MakeJumpCommand Command.empty none (-1) 5).2.code = 4
    ∧ (MakeJumpCommand Command.empty none (-1) 5).2.simpleParameters[0]? = none
    ∧ (MakeJumpCommand Command.empty none (-1) 5).2.simpleParameters[1]? = none := by
  decide

/-- C15, amended: `MakeJumpCommand` always leaves the command with opcode 4;
it fails exactly when `branch1 = -1` and the command has no simple
parameters, and then leaves the simple parameters empty; when it succeeds,
`simpleParameters[0]` is the true target (`branch1`, or the true target the
command had when `branch1 = -1`), `simpleParameters[1]` is `branch2`, and at
most a formula handle follows them. -/
theorem makeJumpCommand_targets (cmd : Command) (source : Option (List Char))
    (branch1 branch2 : Int) :
    (MakeJumpCommand cmd source branch1 branch2).2.code = 4
    ∧ ((MakeJumpCommand cmd source branch1 branch2).1 = false
        ↔ branch1 = -1 ∧ cmd.simpleParameters = [])
    ∧ ((MakeJumpCommand cmd source branch1 branch2).1 = false →
        (MakeJumpCommand cmd source branch1 branch2).2.simpleParameters = [])
    ∧ ((MakeJumpCommand cmd source branch1 branch2).1 = true →
        (MakeJumpCommand cmd source branch1 branch2).2.simpleParameters[0]?
            = some (if branch1 = -1 then cmd.simpleParameters.getD 0 0 else branch1)
        ∧ (MakeJumpCommand cmd source branch1 branch2).2.simpleParameters[1]? = some branch2
        ∧ (MakeJumpCommand cmd source branch1 branch2).2.simpleParameters.length ≤ 3) := by
  generalize hr : MakeJumpCommand cmd source branch1 branch2 = r
  unfold MakeJumpCommand at hr
  simp only [] at hr
  by_cases hfail : branch1 = -1 ∧ cmd.simpleParameters.length = 0
  · rw [if_pos hfail] at hr
    subst hr
    have : cmd.simpleParameters = [] := List.length_eq_zero.1 hfail.2
    simp [hfail.1, this]
  · rw [if_neg hfail] at hr
    have hne : ¬ (branch1 = -1 ∧ cmd.simpleParameters = []) := fun h =>
      hfail ⟨h.1, by rw [h.2]; rfl⟩
    cases source with
    | some s =>
      simp only [] at hr
      subst hr
      simp [hne]
    | none =>
      simp only [] at hr
      subst hr
      refine ⟨rfl, by simp [hne], by simp, fun _ => ?_⟩
      by_cases h3 : cmd.simpleParameters.length = 3
      · by_cases hz : cmd.simpleParameters.getD 2 0 = 0
        · simp only [h3, hz, if_true, ne_eq, not_true_eq_false, if_false]
          exact ⟨rfl, rfl, by simp⟩
        · simp only [h3, hz, if_true, ne_eq, not_false_eq_true]
          exact ⟨rfl, rfl, by simp⟩
      · simp only [h3, if_false, ne_eq, not_true_eq_false]
        exact ⟨rfl, rfl, by simp⟩

theorem getD_middle (pre post : List Command) (a d : Command) :
    (pre ++ a :: post).getD pre.length d = a := by
  induction pre with
  | nil => rfl
  | cons b rest ih => simpa using ih

theorem set_middle (pre post : List Command) (a x : Command) :
    (pre ++ a :: post).set pre.length x = pre ++ x :: post := by
  induction pre with
  | nil => rfl
  | cons b rest ih => simp

theorem jumpAt_middle (pre post : List Command) (a : Command) (source : Option (List Char))
    (branch1 branch2 : Int) :
    jumpAt (pre ++ a :: post) (pre.length : Int) source branch1 branch2
      = ((MakeJumpCommand a source branch1 branch2).1,
         pre ++ (MakeJumpCommand a source branch1 branch2).2 :: post) := by
  unfold jumpAt
  rw [if_pos ⟨by omega, by simp⟩, Int.toNat_ofNat, getD_middle, set_middle]

theorem makeJumpCommand_empty (t : Int) (ht : t ≠ -1) :
    MakeJumpCommand Command.empty none t 0 = (true, jumpTo t) := by
  simp [MakeJumpCommand, Command.empty, jumpTo, ht]

theorem makeJumpCommand_ofString (cond : List Char) (t f : Int) (ht : t ≠ -1) :
    MakeJumpCommand (Command.ofString cond) (some cond) t f = (true, jumpOn cond t f) := by
  simp [MakeJumpCommand, Command.ofString, jumpOn, ht]

/-- The commands of a list laid out as a prefix, one command, a middle part, a
tail and a last command, by index. -/
theorem getElem?_layout (pre mid tail : List Command) (a z : Command) :
    (pre ++ a :: (mid ++ (tail ++ [z]))).length = pre.length + mid.length + tail.length + 2
    ∧ (pre ++ a :: (mid ++ (tail ++ [z])))[pre.length]? = some a
    ∧ (∀ k, k < mid.length → (pre ++ a :: (mid ++ (tail ++ [z])))[pre.length + 1 + k]? = mid[k]?)
    ∧ (∀ j, j < tail.length →
        (pre ++ a :: (mid ++ (tail ++ [z])))[pre.length + 1 + mid.length + j]? = tail[j]?)
    ∧ (pre ++ a :: (mid ++ (tail ++ [z])))[pre.length + mid.length + tail.length + 1]?
        = some z := by
  refine ⟨?_, ?_, ?_, ?_, ?_⟩
  · simp only [List.length_append, List.length_cons, List.length_nil]; omega
  · rw [List.getElem?_append_right (le_refl _)]; simp
  · intro k hk
    rw [List.getElem?_append_right (by omega)]
    have : pre.length + 1 + k - pre.length = k + 1 := by omega
    rw [this, List.getElem?_cons_succ, List.getElem?_append_left hk]
  · intro j hj
    rw [List.getElem?_append_right (by omega)]
    have : pre.length + 1 + mid.length + j - pre.length = (mid.length + j) + 1 := by omega
    rw [this, List.getElem?_cons_succ, List.getElem?_append_right (by omega)]
    have : mid.length + j - mid.length = j := by omega
    rw [this, List.getElem?_append_left hj]
  · rw [List.getElem?_append_right (by omega)]
    have : pre.length + mid.length + tail.length + 1 - pre.length
        = (mid.length + tail.length) + 1 := by omega
    rw [this, List.getElem?_cons_succ, List.getElem?_append_right (by omega)]
    have : mid.length + tail.length - mid.length = tail.length := by omega
    rw [this, List.getElem?_append_right (le_refl _)]
    simp

theorem executeCommand_jumpTo (t : Nat) (o : StepOracle) (chain : ChainState) :
    (ExecuteCommand (jumpTo (t : Int)) o chain).2.currentCommand = (t : Int) := by
  have ht : ¬ ((t : Int) = -1) := by omega
  simp [ExecuteCommand, ExecuteCase4, jumpTo, jumpToTrueTarget, ht]

/-! ## The builder on a whole program -/

/-- Whatever the keyword table holds, a buffer that starts with a well-formed
statement and its `;` is rejected: the scan stops at that `;` outside any
comment, which is what the test of line 4761 takes for an incomplete
expression. -/
theorem findNextCommand_rejects_statement (kw : KeywordTable) (stmt rest : List Char)
    (hwf : wellFormedStatement stmt = true) :
    FindNextCommand kw (stmt ++ ';' :: rest)
      = some { error := some FNCError.incomplete, result := [], input := [] } := by
  obtain ⟨b1, hb1⟩ := trimmedInput_keeps stmt ';' rest (by decide)
  have h := stopsAtSemicolon_of_wellFormed kw b1 stmt.length stmt [] fncInit
    (stmt ++ ';' :: b1).length (le_refl _) hwf rfl rfl rfl
    (by simp only [List.length_append, List.length_cons]; omega)
  obtain ⟨s, hloop, -, hf, -, -, hcom, -⟩ := h
  have hscan : fncScan kw (stmt ++ ';' :: rest) = some (FNCExit.atBreak s) := by
    unfold fncScan
    rw [hb1]
    simpa using hloop
  rw [findNextCommand_of_scan kw _ _ (by simp) hscan]
  have hres : s.result ≠ [chRBrace] := by
    intro hr
    rw [hr] at hf
    have hlast := congrArg List.getLast? hf
    simp [fncInit, notSpace, isspace, chRBrace] at hlast
  simp only [fncFinish, fncCheck, hcom]
  rw [if_pos (Or.inr (Or.inl (by decide))), if_pos hres]

/-- C19: the Command Builder starts on the program
`x = 1; for (i = 0; i < 5; i = i + 1) { x = x * 2; } return x;` with a call of
`FindNextCommand` on the whole text, and that call reports the parse error,
returns the empty statement and clears the buffer, whatever the keyword table
holds: no statement of the program reaches the builders of the commands. -/
theorem findNextCommand_rejects_for_program (kw : KeywordTable) :
    FindNextCommand kw
        "x = 1; for (i = 0; i < 5; i = i + 1) \x7b x = x * 2; \x7d return x;".toList
      = some { error := some FNCError.incomplete, result := [], input := [] } :=
  findNextCommand_rejects_statement kw "x = 1".toList
    " for (i = 0; i < 5; i = i + 1) \x7b x = x * 2; \x7d return x;".toList (by decide)

/-! ## Properties of a run of a list -/

/-- One command keeps the frame, when the nested runs do. -/
theorem runCommand_frame (reenter : ExecState → Option ExecState)
    (effects : Nat → CommandEffect)
    (hre : ∀ s s1, reenter s = some s1 → sameFrame s s1)
    (st st1 : ExecState) (h : runCommand reenter effects st = some st1) :
    sameFrame st st1 := by
  unfold runCommand at h
  simp only [] at h
  split at h
  · exact absurd h (by simp)
  · rename_i st2 hst2
    have h2 := Option.some.inj h
    subst h2
    by_cases hr : (effects st.clock).reenters = true
    · rw [if_pos hr] at hst2
      have := hre _ _ hst2
      unfold sameFrame at this ⊢
      simpa using this
    · rw [if_neg hr] at hst2
      have h3 := Option.some.inj hst2
      subst h3
      unfold sameFrame
      simp

/-- Keeping the frame is transitive. -/
theorem sameFrame_trans (a b c : ExecState) (h1 : sameFrame a b) (h2 : sameFrame b c) :
    sameFrame a c := by
  unfold sameFrame at *
  obtain ⟨a1, a2, a3, a4⟩ := h1
  obtain ⟨b1, b2, b3, b4⟩ := h2
  exact ⟨by rw [b1, a1], by rw [b2, a2], by rw [b3, a3], by rw [b4, a4]⟩

/-- The loop of `Execute` keeps the frame, and its log is that of a run that
goes on from the counter of its first state: each command executed stands
below the length of the list, the flag is clear after every command but the
last, and the loop ends with the flag set after the last command, or with the
flag clear and the counter at or beyond the length. -/
theorem executeLoop_run (reenter : ExecState → Option ExecState)
    (effects : Nat → CommandEffect)
    (hre : ∀ s s1, reenter s = some s1 → sameFrame s s1) :
    ∀ (steps : Nat) (st st2 : ExecState) (log : List (Int × Bool)),
      st.terminate_execution = false →
      executeLoop reenter effects steps st = some (st2, log) →
      sameFrame st st2
        ∧ (∀ e ∈ log.head?, e.1 = st.currentCommand)
        ∧ (∀ e ∈ log, 0 ≤ e.1 ∧ e.1 < st.commands.length)
        ∧ (∀ e ∈ log.dropLast, e.2 = false)
        ∧ ((∃ e ∈ log.getLast?, e.2 = true) ∧ st2.terminate_execution = true
            ∨ (∀ e ∈ log, e.2 = false) ∧ st2.terminate_execution = false
                ∧ (st.commands.length : Int) ≤ st2.currentCommand) := by
  intro steps
  induction steps with
  | zero =>
    intro st st2 log hflag h
    simp only [executeLoop] at h
    split_ifs at h with hlt
    have h2 := Option.some.inj h
    have hs : st2 = st := (congrArg Prod.fst h2).symm
    have hl : log = [] := (congrArg Prod.snd h2).symm
    subst hs
    subst hl
    refine ⟨⟨rfl, rfl, rfl, rfl⟩, by simp, by simp, by simp, Or.inr ⟨by simp, hflag, by omega⟩⟩
  | succ n ih =>
    intro st st2 log hflag h
    simp only [executeLoop] at h
    split_ifs at h with hlt hneg
    · -- a command is executed
      split at h
      · exact absurd h (by simp)
      · rename_i st1 hst1
        have hf1 := runCommand_frame reenter effects hre st st1 hst1
        split_ifs at h with hterm
        · have h2 := Option.some.inj h
          have hs : st2 = st1 := (congrArg Prod.fst h2).symm
          have hl : log = [(st.currentCommand, true)] := (congrArg Prod.snd h2).symm
          subst hs
          subst hl
          refine ⟨hf1, by simp, ?_, by simp, Or.inl ⟨by simp, hterm⟩⟩
          intro e he
          simp at he
          subst he
          exact ⟨by simpa using hneg, hlt⟩
        · split at h
          · exact absurd h (by simp)
          · rename_i st3 log3 hloop
            have h2 := Option.some.inj h
            have hs : st2 = st3 := (congrArg Prod.fst h2).symm
            have hl : log = (st.currentCommand, false) :: log3 := (congrArg Prod.snd h2).symm
            subst hs
            subst hl
            have hflag1 : st1.terminate_execution = false := by simpa using hterm
            obtain ⟨g1, g2, g3, g4, g5⟩ := ih st1 st2 log3 hflag1 hloop
            have hlen : st1.commands.length = st.commands.length := hf1.1
            refine ⟨sameFrame_trans _ _ _ hf1 g1, by simp, ?_, ?_, ?_⟩
            · intro e he
              rcases List.mem_cons.mp he with he | he
              · subst he
                exact ⟨by simpa using hneg, hlt⟩
              · have := g3 e he
                rw [hlen] at this
                exact this
            · intro e he
              cases log3 with
              | nil => simp at he
              | cons x xs =>
                rw [List.dropLast_cons₂] at he
                rcases List.mem_cons.mp he with he | he
                · subst he
                  rfl
                · exact g4 e he
            · rcases g5 with ⟨⟨e, he, het⟩, hfl⟩ | ⟨hall, hfl, hpc⟩
              · left
                refine ⟨⟨e, ?_, het⟩, hfl⟩
                cases log3 with
                | nil => simp at he
                | cons x xs =>
                  rw [List.getLast?_cons_cons]
                  exact he
              · right
                refine ⟨?_, hfl, by rw [← hlen]; exact hpc⟩
                intro e he
                rcases List.mem_cons.mp he with he | he
                · subst he
                  rfl
                · exact hall e he
    · -- the counter is at or beyond the length
      have h2 := Option.some.inj h
      have hs : st2 = st := (congrArg Prod.fst h2).symm
      have hl : log = [] := (congrArg Prod.snd h2).symm
      subst hs
      subst hl
      refine ⟨⟨rfl, rfl, rfl, rfl⟩, by simp, by simp, by simp, Or.inr ⟨by simp, hflag, by omega⟩⟩

/-- What `Execute` gives when it returns: the frame and the counter of the
list are those at entry, and the log is that of a run from `0` to a stop. -/
theorem execute_run (self : Int) (effects : Nat → CommandEffect) :
    ∀ (depth steps : Nat) (st st1 : ExecState) (log : List (Int × Bool)) (stoppedAt : Int),
      Execute self effects depth steps st = some (st1, log, stoppedAt) →
      sameFrame st st1 ∧ st1.currentCommand = st.currentCommand
        ∧ runsToStop st.commands.length log stoppedAt st1.terminate_execution := by
  intro depth
  induction depth with
  | zero =>
    intro steps st st1 log stoppedAt h
    simp [Execute] at h
  | succ d ih =>
    intro steps st st1 log stoppedAt h
    simp only [Execute] at h
    split at h
    · exact absurd h (by simp)
    · rename_i st2 log2 hloop
      have h2 := Option.some.inj h
      have hs : st1 = executeLeave st.currentExecutionList st2 := (congrArg Prod.fst h2).symm
      have hl : log = log2 := (congrArg (fun r => r.2.1) h2).symm
      have hp : stoppedAt = st2.currentCommand := (congrArg (fun r => r.2.2) h2).symm
      subst hs
      subst hl
      subst hp
      have hre : ∀ s s1, (fun s => (Execute self effects d steps s).map Prod.fst) s = some s1 →
          sameFrame s s1 := by
        intro s s1 hs1
        simp only [Option.map_eq_some'] at hs1
        obtain ⟨⟨a, b, c⟩, hr, ha⟩ := hs1
        simp only at ha
        subst ha
        exact (ih steps s a b c hr).1
      obtain ⟨g1, g2, g3, g4, g5⟩ :=
        executeLoop_run _ effects hre steps (executeEnter self st) st2 log rfl hloop
      obtain ⟨f1, f2, f3, f4⟩ := g1
      have e1 : (executeEnter self st).commands = st.commands := rfl
      have e2 : (executeEnter self st).callPoints = st.callPoints ++ [st.currentCommand] := rfl
      have e3 : (executeEnter self st).executionStack = st.executionStack ++ [self] := rfl
      have e4 : (executeEnter self st).currentCommand = 0 := rfl
      rw [e1] at f1 g3 g5
      rw [e2] at f2
      rw [e3] at f3
      rw [e4] at g2
      refine ⟨⟨f1, ?_, ?_, rfl⟩, ?_, ?_⟩
      · simp [executeLeave, f2]
      · simp [executeLeave, f3]
      · simp [executeLeave, f2]
      · exact ⟨g2, g3, g4, g5⟩
/-- C29: for every list, also one that is in the middle of a run and is run
again from inside its own commands, when `Execute` returns the program counter
of the list and its call-point stack are those at entry, and the global
current-list pointer is the one at entry. -/
theorem execute_restores_position (self : Int) (effects : Nat → CommandEffect)
    (depth steps : Nat) (st st1 : ExecState) (log : List (Int × Bool)) (stoppedAt : Int)
    (h : Execute self effects depth steps st = some (st1, log, stoppedAt)) :
    st1.currentCommand = st.currentCommand ∧ st1.callPoints = st.callPoints
      ∧ st1.currentExecutionList = st.currentExecutionList := by
  obtain ⟨⟨_, h2, _, h4⟩, h5, _⟩ := execute_run self effects depth steps st st1 log stoppedAt h
  exact ⟨h5, h2, h4⟩

/-- C29, witness: a list of two commands in the middle of a run, whose first
command runs the list again; the nested run and the outer run return, and the
counter `1`, the call points `[7]` and the current list `3` are back. -/
theorem execute_restores_position_witness :
    Execute 1 reentrantEffects 2 4 (runningList 2)
        = some (returnedList 2 4 false, [(0, false), (1, false)], 2)
      ∧ (returnedList 2 4 false).currentCommand = (runningList 2).currentCommand
      ∧ (returnedList 2 4 false).callPoints = (runningList 2).callPoints
      ∧ (returnedList 2 4 false).currentExecutionList = (runningList 2).currentExecutionList :=
  ⟨by decide,
    execute_restores_position 1 reentrantEffects 2 4 (runningList 2) (returnedList 2 4 false)
      [(0, false), (1, false)] 2 (by decide)⟩

/-- C30: when `Execute` returns, its loop has started at program counter `0`
and has executed one command per turn, each of them standing below the length
of the list and each but the last leaving `terminate_execution` clear; the loop
has stopped with the flag set by the last command executed, and then the flag
is still set at the return, or with the flag clear and the counter at or beyond
the length of the list. -/
theorem execute_stops_at_end_or_flag (self : Int) (effects : Nat → CommandEffect)
    (depth steps : Nat) (st st1 : ExecState) (log : List (Int × Bool)) (stoppedAt : Int)
    (h : Execute self effects depth steps st = some (st1, log, stoppedAt)) :
    runsToStop st.commands.length log stoppedAt st1.terminate_execution :=
  (execute_run self effects depth steps st st1 log stoppedAt h).2.2

/-- C30, witness: in a list of three commands the second command sets the
flag; the run executes the commands at `0` and at `1`, the third command is not
executed though the counter `2` is below the length, and the flag is set at the
return. -/
theorem execute_stops_at_end_or_flag_witness :
    Execute 1 raisingEffects 1 4 (runningList 3)
        = some (returnedList 3 2 true, [(0, false), (1, true)], 2)
      ∧ runsToStop (runningList 3).commands.length [(0, false), (1, true)] 2
          (returnedList 3 2 true).terminate_execution :=
  ⟨by decide,
    execute_stops_at_end_or_flag 1 raisingEffects 1 4 (runningList 3) (returnedList 3 2 true)
      [(0, false), (1, true)] 2 (by decide)⟩

/-! ## Properties of the builders of `do`-`while` and of `if` -/

/-- C22: `BuildIfThenElse` on the statement `if(c){x=1;}` and an empty list,
with a `BuildList` that turns each text into a formula command, leaves one
command only: a jump whose condition is the text `c){x=1;}` and whose targets
are both `1`; the then-branch is not built. -/
theorem buildIfThenElse_swallows_then_branch :
    BuildIfThenElse QuoteType.normal_text emptyKeywordTable formulaBuilder
        "if(c)\x7bx=1;\x7d".toList emptyBuild
      = some (true, { commands := [{ code := 4, text := [], parameters := ["c)\x7bx=1;\x7d".toList],
                                     simpleParameters := [1, 1] }],
                      lastif := [0], bc := none, errors := [] }) := by
  decide

/-! ## Properties of `BuildList` -/

/-- A range of a string is not longer than what follows its first position. -/
theorem Cut_length_le (s : List Char) (lo hi : Int) :
    (Cut s lo hi).length ≤ s.length - lo.toNat := by
  unfold Cut
  by_cases hlen : s.length = 0
  · rw [if_pos hlen]
    simp
  · rw [if_neg hlen]
    simp only []
    split_ifs <;> simp <;> omega

/-- `FindNextCommand` returns on every buffer. -/
theorem findNextCommand_total (kw : KeywordTable) (input : List Char) :
    ∃ out, FindNextCommand kw input = some out := by
  obtain ⟨e, he⟩ := fncLoop_total kw (trimmedInput input) (trimmedInput input).length fncInit
    (by omega)
  unfold FindNextCommand
  split_ifs
  · exact ⟨_, rfl⟩
  · exact ⟨_, by rw [show fncScan kw input = some e from he]; rfl⟩

/-- The buffer that the cut at the end of `FindNextCommand` leaves is shorter
than the buffer that was scanned. -/
theorem fncStrip_input_length (input : List Char) (index : Nat) (result : List Char) :
    (fncStrip input index result).input.length ≤ input.length - 1 := by
  have hrest : (if (index : Int) < (input.length : Int) - 1
      then Cut input ((index : Int) + 1) (-1) else []).length ≤ input.length - 1 := by
    split_ifs with h
    · have := Cut_length_le input ((index : Int) + 1) (-1)
      have h2 : ((index : Int) + 1).toNat = index + 1 := by omega
      rw [h2] at this
      omega
    · simp
  unfold fncStrip
  simp only []
  split_ifs at hrest ⊢ <;> exact hrest

/-- The buffer that `FindNextCommand` leaves is shorter than the buffer it was
given, when that one is not empty. -/
theorem findNextCommand_progress (kw : KeywordTable) (input : List Char) (out : FNCOutput)
    (hne : input ≠ []) (h : FindNextCommand kw input = some out) :
    out.input.length < input.length := by
  obtain ⟨e, he⟩ := fncLoop_total kw (trimmedInput input) (trimmedInput input).length fncInit
    (by omega)
  rw [findNextCommand_of_scan kw input e hne he] at h
  have hout := Option.some.inj h
  subst hout
  have htr : (trimmedInput input).length ≤ input.length := by
    have := Cut_length_le input 0 (trailingScan input input.length)
    simpa [trimmedInput] using this
  have hpos : 0 < input.length := List.length_pos.mpr hne
  have hcheck : ∀ s : FNCState,
      (fncCheck (trimmedInput input) s).input.length ≤ (trimmedInput input).length - 1 := by
    intro s
    unfold fncCheck
    split_ifs
    · simp
    · exact fncStrip_input_length _ _ _
    · exact fncStrip_input_length _ _ _
  have : (fncFinish (trimmedInput input) e).input.length ≤ (trimmedInput input).length - 1 := by
    cases e with
    | tooManyClosing c s => simp [fncFinish]
    | atEnd s => exact hcheck s
    | atBreak s => exact hcheck s
  omega

/-- `ExtractConditions` returns on every text. -/
theorem extractConditions_total (quote_type : QuoteType) (source : List Char) (start_at : Nat)
    (delimeter : Char) (include_empty_conditions : Bool) :
    ∃ r, ExtractConditions quote_type source start_at delimeter include_empty_conditions
      = some r := by
  obtain ⟨s1, hs1⟩ := ecLoop_total source start_at delimeter source.length
    (ecInit start_at quote_type) (by omega)
  unfold ExtractConditions
  rw [hs1]
  exact ⟨_, rfl⟩

/-- On the empty statement the extraction fails for the argument count, or
proceeds with the empty statement. -/
theorem extractPieces_nil (quote_type : QuoteType)
    (found : Option (SwitchCase × Option CommandExtras)) :
    extractPieces quote_type found [] = some Extraction.fails
      ∨ ∃ pieces, extractPieces quote_type found [] = some (Extraction.proceeds pieces []) := by
  unfold extractPieces
  rcases found with _ | ⟨c, _ | extras⟩
  · exact Or.inr ⟨none, rfl⟩
  · exact Or.inr ⟨none, rfl⟩
  · simp only []
    by_cases hlen : 0 < extras.extract_conditions.length
    · rw [if_pos hlen]
      obtain ⟨⟨pieces, upto⟩, hr⟩ := extractConditions_total quote_type [] extras.cut_string
        extras.extract_condition_separator defaultIncludeEmpty
      rw [hr]
      simp only []
      by_cases hacc : countAccepted extras.extract_conditions pieces.length = true
      · rw [if_pos hacc]
        refine Or.inr ⟨some pieces, ?_⟩
        have : (if extras.do_trim = true then Cut [] upto (-1) else ([] : List Char)) = [] := by
          split_ifs
          · simp [Cut]
          · rfl
        rw [this]
      · rw [if_neg hacc]
        exact Or.inl rfl
    · rw [if_neg hlen]
      exact Or.inr ⟨none, rfl⟩

/-- The chain of tests sends the empty statement to the formula branch, which
leaves the list as it is. -/
theorem buildUnhandled_nil (kw : KeywordTable) (B : Builders) (st : BuildState) :
    buildUnhandled kw B [] st = some (StatementOutcome.goesOn st) := by
  rfl

/-- The branch of `break` and `continue` returns `false` only with its error. -/
theorem buildBreakOrContinue_own (isBreak : Bool) (st st1 : BuildState)
    (h : buildBreakOrContinue isBreak st = StatementOutcome.returnsFalse st1) : ownError st1 := by
  unfold buildBreakOrContinue at h
  split at h
  · exact absurd h (by simp)
  · have := StatementOutcome.returnsFalse.inj h
    subst this
    exact Or.inr (Or.inl (by simp))

/-- A list whose last error is that of `else`. -/
theorem ownError_else (st : BuildState) :
    ownError { st with errors := st.errors ++ [BuildError.elseWithoutIf] } :=
  Or.inr (Or.inr (by simp))

/-- The branch of `else` returns `false` only with its error. -/
theorem buildElse_own (B : Builders) (currentLine : List Char) (st st1 : BuildState)
    (h : buildElse B currentLine st = StatementOutcome.returnsFalse st1) : ownError st1 := by
  unfold buildElse at h
  simp only [] at h
  split_ifs at h <;> cases h <;> exact ownError_else _

/-- The formula branch never returns `false`. -/
theorem buildFormula_goesOn (kw : KeywordTable) (B : Builders) (currentLine : List Char)
    (st st1 : BuildState) :
    buildFormula kw B currentLine st ≠ some (StatementOutcome.returnsFalse st1) := by
  unfold buildFormula
  intro h
  split at h
  · exact absurd h (by simp)
  · simp only [] at h
    split_ifs at h
    · split at h
      · exact absurd h (by simp)
      · exact absurd h (by simp)
    · exact absurd h (by simp)
    · simp at h

/-- The chain of tests returns `false` only with the error of `else`. -/
theorem buildUnhandled_own (kw : KeywordTable) (B : Builders) (currentLine : List Char)
    (st st1 : BuildState)
    (h : buildUnhandled kw B currentLine st = some (StatementOutcome.returnsFalse st1)) :
    ownError st1 := by
  unfold buildUnhandled at h
  split_ifs at h
  · exact absurd h (by simp)
  · exact absurd h (by simp)
  · exact absurd h (by simp)
  · exact buildElse_own B currentLine st st1 (Option.some.inj h)
  · exact absurd h (by simp)
  · exact absurd h (by simp)
  · exact absurd h (buildFormula_goesOn kw B currentLine st st1)

/-- The work on one statement returns `false` only with an error of
`BuildList` itself. -/
theorem buildStatement_own (quote_type : QuoteType) (kw : KeywordTable) (L : Lookup)
    (B : Builders) (currentLine : List Char) (st st1 : BuildState)
    (h : BuildStatement quote_type kw L B currentLine st
      = some (StatementOutcome.returnsFalse st1)) :
    ownError st1 := by
  unfold BuildStatement at h
  split at h
  · exact absurd h (by simp)
  · have := StatementOutcome.returnsFalse.inj (Option.some.inj h)
    subst this
    exact Or.inl (by simp)
  · split at h
    · exact absurd h (by simp)
    · exact absurd h (by simp)
    · exact buildBreakOrContinue_own _ _ _ (Option.some.inj h)
    · exact buildBreakOrContinue_own _ _ _ (Option.some.inj h)
    · exact absurd h (by simp)
    · exact buildUnhandled_own kw B _ st st1 h

/-- The work on the empty statement returns. -/
theorem buildStatement_nil_total (quote_type : QuoteType) (kw : KeywordTable) (L : Lookup)
    (B : Builders) (st : BuildState) :
    ∃ o, BuildStatement quote_type kw L B [] st = some o := by
  unfold BuildStatement
  rcases extractPieces_nil quote_type (L []) with h | ⟨pieces, h⟩
  · rw [h]
    exact ⟨_, rfl⟩
  · rw [h]
    simp only []
    split
    · exact ⟨_, rfl⟩
    · exact ⟨_, rfl⟩
    · exact ⟨_, rfl⟩
    · exact ⟨_, rfl⟩
    · exact ⟨_, rfl⟩
    · exact ⟨_, buildUnhandled_nil kw B st⟩
/-- The loop of `BuildList` ends within as many turns as the buffer has
characters, and it returns `false` only with an error of `BuildList` itself. -/
theorem buildListLoop_total (quote_type : QuoteType) (kw : KeywordTable) (L : Lookup)
    (B : Builders) :
    ∀ (fuel : Nat) (s : List Char) (st : BuildState), s.length ≤ fuel →
      ∃ o, buildListLoop quote_type kw L B fuel s st = some o
        ∧ ∀ st1, o = StatementOutcome.returnsFalse st1 → ownError st1 := by
  intro fuel
  induction fuel with
  | zero =>
    intro s st h
    have hs : s = [] := List.length_eq_zero.mp (by omega)
    subst hs
    exact ⟨StatementOutcome.goesOn st, rfl, by intro st1 h1; cases h1⟩
  | succ n ih =>
    intro s st h
    by_cases hs : s = []
    · subst hs
      exact ⟨StatementOutcome.goesOn st, rfl, by intro st1 h1; cases h1⟩
    · obtain ⟨out, hout⟩ := findNextCommand_total kw s
      have hprog := findNextCommand_progress kw s out hs hout
      simp only [buildListLoop]
      rw [if_pos hs, hout]
      simp only []
      by_cases hcl : (if get_char out.result 0 = chRBrace then Cut out.result 1 (-1)
          else out.result) ≠ []
      · rw [if_pos hcl]
        exact ih out.input _ (by omega)
      · rw [if_neg hcl]
        have hcl2 : (if get_char out.result 0 = chRBrace then Cut out.result 1 (-1)
            else out.result) = [] := by simpa using hcl
        rw [hcl2]
        obtain ⟨o, ho⟩ := buildStatement_nil_total quote_type kw L B
          { st with errors := noteParse out st.errors }
        rw [ho]
        cases o with
        | goesOn st2 => exact ih out.input st2 (by omega)
        | returnsFalse st2 =>
          refine ⟨StatementOutcome.returnsFalse st2, rfl, ?_⟩
          intro st1 h1
          cases h1
          exact buildStatement_own quote_type kw L B [] _ st2 ho

/-- With a trie that has no entry for the empty statement, the loop of
`BuildList` goes through the whole buffer and appends no command: line 1520
sends every statement that is not empty back to the head of the loop. -/
theorem buildListLoop_appends_nothing (quote_type : QuoteType) (kw : KeywordTable)
    (L : Lookup) (B : Builders) (hL : L [] = none) :
    ∀ (fuel : Nat) (s : List Char) (st : BuildState), s.length ≤ fuel →
      ∃ st1, buildListLoop quote_type kw L B fuel s st = some (StatementOutcome.goesOn st1)
        ∧ st1.commands = st.commands := by
  intro fuel
  induction fuel with
  | zero =>
    intro s st h
    have hs : s = [] := List.length_eq_zero.mp (by omega)
    subst hs
    exact ⟨st, rfl, rfl⟩
  | succ n ih =>
    intro s st h
    by_cases hs : s = []
    · subst hs
      exact ⟨st, rfl, rfl⟩
    · obtain ⟨out, hout⟩ := findNextCommand_total kw s
      have hprog := findNextCommand_progress kw s out hs hout
      simp only [buildListLoop]
      rw [if_pos hs, hout]
      simp only []
      by_cases hcl : (if get_char out.result 0 = chRBrace then Cut out.result 1 (-1)
          else out.result) ≠ []
      · rw [if_pos hcl]
        obtain ⟨st1, h1, h2⟩ := ih out.input { st with errors := noteParse out st.errors }
          (by omega)
        exact ⟨st1, h1, h2⟩
      · rw [if_neg hcl]
        have hcl2 : (if get_char out.result 0 = chRBrace then Cut out.result 1 (-1)
            else out.result) = [] := by simpa using hcl
        rw [hcl2]
        have hb : BuildStatement quote_type kw L B [] { st with errors := noteParse out st.errors }
            = some (StatementOutcome.goesOn { st with errors := noteParse out st.errors }) := by
          unfold BuildStatement
          rw [hL]
          rfl
        rw [hb]
        obtain ⟨st1, h1, h2⟩ := ih out.input { st with errors := noteParse out st.errors }
          (by omega)
        exact ⟨st1, h1, h2⟩

/-- The branch of `else` (lines 1629-1668), once a statement is dispatched: on
an `else` statement that the keyword trie does not handle, met
while the stack `lastif` of the open `if`s is empty, the work of `BuildList`
on the statement ends with the error of an `else` without an `if` and with
the return of `false`, and the commands of the list are as they were. -/
theorem buildStatement_else_without_if (quote_type : QuoteType) (kw : KeywordTable)
    (L : Lookup) (B : Builders) (rest : List Char) (st : BuildState)
    (hL : L (blElse ++ rest) = none ∨ L (blElse ++ rest) = some (SwitchCase.noCase, none))
    (hif : st.lastif = []) :
    BuildStatement quote_type kw L B (blElse ++ rest) st
      = some (StatementOutcome.returnsFalse
          { st with errors := st.errors ++ [BuildError.elseWithoutIf] }) := by
  have hchain : buildUnhandled kw B (blElse ++ rest) st
      = some (StatementOutcome.returnsFalse
          { st with errors := st.errors ++ [BuildError.elseWithoutIf] }) := by
    unfold buildUnhandled
    have h1 : declarationKeywords.any (BeginsWith (blElse ++ rest)) = false := by
      simp [declarationKeywords, BeginsWith, blElse, List.isPrefixOf]
    have h2 : BeginsWithAndIsNotAnIdent (blElse ++ rest) blReturnPrefix = false := by
      simp [BeginsWithAndIsNotAnIdent, BeginsWith, blElse, blReturnPrefix, List.isPrefixOf]
    have h3 : BeginsWith (blElse ++ rest) blIf = false := by
      simp [BeginsWith, blElse, blIf, List.isPrefixOf]
    have h4 : BeginsWith (blElse ++ rest) blElse = true := by
      simp [BeginsWith, blElse, List.isPrefixOf]
    rw [h1, h2, h3, h4]
    simp [buildElse, hif]
  unfold BuildStatement
  rcases hL with hL | hL
  · rw [hL]
    exact hchain
  · rw [hL]
    exact hchain

/-- The statement `else x=1;`, dispatched on an empty list. -/
theorem buildStatement_else_without_if_example :
    BuildStatement QuoteType.normal_text emptyKeywordTable noKeywords formulaBuilders
        (blElse ++ " x=1;".toList) emptyBuild
      = some (StatementOutcome.returnsFalse
          { emptyBuild with errors := emptyBuild.errors ++ [BuildError.elseWithoutIf] }) :=
  buildStatement_else_without_if QuoteType.normal_text emptyKeywordTable noKeywords
    formulaBuilders " x=1;".toList emptyBuild (Or.inl rfl) rfl
/-- The argument count `n` is accepted exactly when it is among the allowed
counts, or the single allowed entry is a negative `-m` and `n` is at least
`m`. -/
theorem countAccepted_iff (A : List Int) (n : Nat) :
    countAccepted A n = true
      ↔ ((n : Int) ∈ A ∨ ∃ m : Nat, A = [-(m : Int)] ∧ 0 < m ∧ m ≤ n) := by
  unfold countAccepted
  by_cases hmem : (n : Int) ∈ A
  · have : A.contains (n : Int) = true := by simpa using hmem
    rw [if_pos this]
    simp [hmem]
  · have : ¬ (A.contains (n : Int) = true) := by simpa using hmem
    rw [if_neg this]
    by_cases hone : A.length = 1 ∧ A.getD 0 0 < 0
    · rw [if_pos hone]
      obtain ⟨h1, h2⟩ := hone
      obtain ⟨a, ha⟩ := List.length_eq_one.mp h1
      subst ha
      have ha : a < 0 := by simpa using h2
      constructor
      · intro h
        right
        refine ⟨(-a).toNat, ?_, ?_, ?_⟩
        · have : ((-a).toNat : Int) = -a := Int.toNat_of_nonneg (by omega)
          rw [this]
          simp
        · omega
        · simp at h
          omega
      · rintro (h | ⟨m, hm, hpos, hle⟩)
        · exact absurd h hmem
        · have : a = -(m : Int) := by simpa using hm
          subst this
          simp
          omega
    · rw [if_neg hone]
      constructor
      · intro h
        exact absurd h (by simp)
      · rintro (h | ⟨m, hm, hpos, hle⟩)
        · exact absurd h hmem
        · exfalso
          apply hone
          subst hm
          refine ⟨rfl, ?_⟩
          simp
          omega

/-- The test of lines 1530-1563, once a statement is dispatched: for a
statement whose keyword has extras that list the allowed
argument counts `A`, and whose arguments `ExtractConditions` cuts into `n`
pieces: the count is accepted exactly when `n` is in `A`, or `A` is the single
entry `-m` and `n` is at least `m`; when it is accepted, the construction
proceeds with these pieces; in every other case the work of `BuildList` on the
statement ends with the error for the number of arguments and with the return
of `false`, and the commands of the list are as they were. -/
theorem buildStatement_argument_count (quote_type : QuoteType) (kw : KeywordTable)
    (L : Lookup) (B : Builders) (currentLine : List Char) (st : BuildState)
    (c : SwitchCase) (extras : CommandExtras) (pieces : List (List Char)) (upto : Int)
    (hL : L currentLine = some (c, some extras))
    (hA : extras.extract_conditions ≠ [])
    (hE : ExtractConditions quote_type currentLine extras.cut_string
      extras.extract_condition_separator defaultIncludeEmpty = some (pieces, upto)) :
    (countAccepted extras.extract_conditions pieces.length = true
        ↔ ((pieces.length : Int) ∈ extras.extract_conditions
            ∨ ∃ m : Nat, extras.extract_conditions = [-(m : Int)] ∧ 0 < m ∧ m ≤ pieces.length))
      ∧ (countAccepted extras.extract_conditions pieces.length = true →
          extractPieces quote_type (L currentLine) currentLine
            = some (Extraction.proceeds (some pieces)
                (if extras.do_trim then Cut currentLine upto (-1) else currentLine)))
      ∧ (countAccepted extras.extract_conditions pieces.length = false →
          BuildStatement quote_type kw L B currentLine st
            = some (StatementOutcome.returnsFalse
                { st with errors := st.errors ++ [BuildError.incorrectArguments] })) := by
  have hlen : 0 < extras.extract_conditions.length := List.length_pos.mpr hA
  refine ⟨countAccepted_iff _ _, ?_, ?_⟩
  · intro hacc
    unfold extractPieces
    rw [hL]
    simp only []
    rw [if_pos hlen, hE]
    simp only []
    rw [if_pos hacc]
  · intro hrej
    have hx : extractPieces quote_type (L currentLine) currentLine = some Extraction.fails := by
      unfold extractPieces
      rw [hL]
      simp only []
      rw [if_pos hlen, hE]
      simp only []
      rw [if_neg (by simp [hrej])]
    unfold BuildStatement
    rw [hx]

/-- A command that takes two arguments, given one: the dispatched statement
`Foo(a)` is cut into one piece, the count is not accepted and the work on the
statement returns `false` with the error. -/
theorem buildStatement_argument_count_example :
    (countAccepted [2] 1 = true
        ↔ (((["a)".toList] : List (List Char)).length : Int) ∈ [(2 : Int)]
            ∨ ∃ m : Nat, [(2 : Int)] = [-(m : Int)] ∧ 0 < m
                ∧ m ≤ (["a)".toList] : List (List Char)).length))
      ∧ BuildStatement QuoteType.normal_text emptyKeywordTable twoArguments formulaBuilders
          "Foo(a)".toList emptyBuild
        = some (StatementOutcome.returnsFalse
            { emptyBuild with errors := emptyBuild.errors ++ [BuildError.incorrectArguments] }) :=
  have h := buildStatement_argument_count QuoteType.normal_text emptyKeywordTable twoArguments
    formulaBuilders "Foo(a)".toList emptyBuild SwitchCase.validated
    { cut_string := 4, extract_condition_separator := ',', extract_conditions := [2],
      do_trim := false }
    ["a)".toList] 7 rfl (by decide) (by decide)
  ⟨h.1, h.2.2 (by decide)⟩
/-- The branch of `else` does not read the flags that the builders return. -/
theorem buildElse_ignores_flags (B B1 : Builders)
    (h : ∀ b l p x, (B1 b l p x).2 = (B b l p x).2) (currentLine : List Char)
    (st : BuildState) : buildElse B1 currentLine st = buildElse B currentLine st := by
  unfold buildElse
  simp only [h]

/-- The loop over the parts of a statement does not read the flags that the
builders return. -/
theorem buildParts_ignores_flags (kw : KeywordTable) (B B1 : Builders)
    (h : ∀ b l p x, (B1 b l p x).2 = (B b l p x).2) :
    ∀ (fuel : Nat) (currentLine : List Char) (st : BuildState),
      buildParts kw B1 fuel currentLine st = buildParts kw B fuel currentLine st := by
  intro fuel
  induction fuel with
  | zero =>
    intro currentLine st
    rfl
  | succ n ih =>
    intro currentLine st
    simp only [buildParts, h, ih]

/-- The work on one statement does not read the flags that the builders
return. -/
theorem buildStatement_ignores_flags (quote_type : QuoteType) (kw : KeywordTable)
    (L : Lookup) (B B1 : Builders) (h : ∀ b l p x, (B1 b l p x).2 = (B b l p x).2)
    (currentLine : List Char) (st : BuildState) :
    BuildStatement quote_type kw L B1 currentLine st
      = BuildStatement quote_type kw L B currentLine st := by
  have hf : ∀ line x, buildFormula kw B1 line x = buildFormula kw B line x := by
    intro line x
    unfold buildFormula
    simp only [buildParts_ignores_flags kw B B1 h]
  have hu : ∀ line x, buildUnhandled kw B1 line x = buildUnhandled kw B line x := by
    intro line x
    unfold buildUnhandled
    simp only [h, hf, buildElse_ignores_flags B B1 h]
  unfold BuildStatement
  simp only [h, hu]

/-- The loop of `BuildList` does not read the flags that the builders return. -/
theorem buildListLoop_ignores_flags (quote_type : QuoteType) (kw : KeywordTable)
    (L : Lookup) (B B1 : Builders) (h : ∀ b l p x, (B1 b l p x).2 = (B b l p x).2) :
    ∀ (fuel : Nat) (s : List Char) (st : BuildState),
      buildListLoop quote_type kw L B1 fuel s st = buildListLoop quote_type kw L B fuel s st := by
  intro fuel
  induction fuel with
  | zero =>
    intro s st
    rfl
  | succ n ih =>
    intro s st
    simp only [buildListLoop, ih, buildStatement_ignores_flags quote_type kw L B B1 h]
/-- The branch of `else` on a list that holds the jump of an open `if` at `0`
and one command of its then-branch: an unconditional jump is appended at `2`,
the false target of the jump at `0` becomes `3`, its true target stays `1`,
and the jump at `2` targets the length `4` of the list after the else branch. -/
theorem buildElse_layout_example :
    BuildStatement QuoteType.normal_text emptyKeywordTable noKeywords formulaBuilders
        "else\x7bx=1;\x7d".toList
        { emptyBuild with
          commands := [jumpOn "c".toList 1 2, formulaCommand "y".toList], lastif := [0] }
      = some (StatementOutcome.goesOn
          { emptyBuild with
            commands := [jumpOn "c".toList 1 3, formulaCommand "y".toList, jumpTo 4,
                         formulaCommand "x=1;".toList],
            lastif := [] }) := by
  decide
/-- C27, counterexample: the buffer holds the one statement `"abc`, a string
literal that is not closed. `FindNextCommand` reports the parse error and no
command is built for the statement, but `BuildList` returns `true`: with
`empty_is_success` set on an empty list, and without it on a list that holds a
command already. -/
theorem buildList_true_after_failed_statement :
    BuildList QuoteType.normal_text emptyKeywordTable noKeywords formulaBuilders false true
        (chDQuote :: "abc".toList) emptyBuild
      = some (true, { emptyBuild with errors := [BuildError.parse FNCError.incomplete] })
    ∧ BuildList QuoteType.normal_text emptyKeywordTable noKeywords formulaBuilders false false
        (chDQuote :: "abc".toList) { emptyBuild with commands := [formulaCommand "x=1".toList] }
      = some (true, { emptyBuild with commands := [formulaCommand "x=1".toList],
                                      errors := [BuildError.parse FNCError.incomplete] }) := by
  decide

/-- C27, amended: `BuildList` returns on every buffer. With
`terminate_execution` set at entry it returns `false` and leaves the list as
it is. Otherwise its loop either stops at an error of `BuildList` itself (a
wrong number of arguments, a `break` or `continue` outside a loop, an `else`
without an open `if`), and then it returns `false`; or the loop goes through
the whole buffer, and then it returns `true` exactly when `empty_is_success` is
set or the list holds a command at the end. The flags that the builders of the
single statements return do not enter the result. -/
theorem buildList_result (quote_type : QuoteType) (kw : KeywordTable) (L : Lookup)
    (B : Builders) (terminate_execution empty_is_success : Bool) (s : List Char)
    (st : BuildState) :
    (terminate_execution = true →
        BuildList quote_type kw L B terminate_execution empty_is_success s st
          = some (false, st))
      ∧ (terminate_execution = false →
          (∃ st1, buildListLoop quote_type kw L B s.length s st
                = some (StatementOutcome.returnsFalse st1)
              ∧ ownError st1
              ∧ BuildList quote_type kw L B terminate_execution empty_is_success s st
                = some (false, st1))
          ∨ (∃ r st1, buildListLoop quote_type kw L B s.length s st
                = some (StatementOutcome.goesOn st1)
              ∧ BuildList quote_type kw L B terminate_execution empty_is_success s st
                = some (r, st1)
              ∧ (r = true ↔ (empty_is_success = true ∨ st1.commands ≠ []))))
      ∧ (∀ B1 : Builders, (∀ b l p x, (B1 b l p x).2 = (B b l p x).2) →
          BuildList quote_type kw L B1 terminate_execution empty_is_success s st
            = BuildList quote_type kw L B terminate_execution empty_is_success s st) := by
  refine ⟨?_, ?_, ?_⟩
  · intro ht
    unfold BuildList
    rw [if_pos ht]
  rotate_left
  · intro B1 h
    unfold BuildList
    rw [buildListLoop_ignores_flags quote_type kw L B B1 h]
  · intro ht
    obtain ⟨o, ho, hown⟩ := buildListLoop_total quote_type kw L B s.length s st (le_refl _)
    cases o with
    | returnsFalse st1 =>
      left
      refine ⟨st1, ho, hown st1 rfl, ?_⟩
      unfold BuildList
      rw [if_neg (by simp [ht]), ho]
    | goesOn st1 =>
      right
      refine ⟨empty_is_success || decide (st1.commands ≠ []), st1, ho, ?_, ?_⟩
      · unfold BuildList
        rw [if_neg (by simp [ht]), ho]
      · simp

/-- C27, amended, witness: with `terminate_execution` set at entry `BuildList`
returns `false` on the buffer `x=1;` and leaves the list as it is. -/
theorem buildList_result_witness :
    BuildList QuoteType.normal_text emptyKeywordTable noKeywords formulaBuilders true true
        "x=1;".toList emptyBuild
      = some (false, emptyBuild) :=
  (buildList_result QuoteType.normal_text emptyKeywordTable noKeywords formulaBuilders true true
    "x=1;".toList emptyBuild).1 rfl

/-- C28: `BuildList` on the buffer `x=1;`, with a keyword trie that has no
entry, appends no command: `FindNextCommand` takes the statement for an
incomplete expression, and `BuildList` returns `false` on the empty list. On
the buffer `x=1;y=2;` no command is appended either. -/
theorem buildList_drops_formula_statement :
    BuildList QuoteType.normal_text emptyKeywordTable noKeywords formulaBuilders false false
        "x=1;".toList emptyBuild
      = some (false, { emptyBuild with errors := [BuildError.parse FNCError.incomplete] })
    ∧ BuildList QuoteType.normal_text emptyKeywordTable noKeywords formulaBuilders false true
        "x=1;y=2;".toList emptyBuild
      = some (true, { emptyBuild with errors := [BuildError.parse FNCError.incomplete] }) := by
  decide

/-- Whatever the buffer, `BuildList` with a keyword trie that has no entry for
the empty statement appends no command. -/
theorem buildList_appends_nothing (quote_type : QuoteType) (kw : KeywordTable) (L : Lookup)
    (B : Builders) (empty_is_success : Bool) (s : List Char) (st : BuildState)
    (hL : L [] = none) :
    ∃ r st1, BuildList quote_type kw L B false empty_is_success s st = some (r, st1)
      ∧ st1.commands = st.commands := by
  obtain ⟨st1, h1, h2⟩ :=
    buildListLoop_appends_nothing quote_type kw L B hL s.length s st (le_refl _)
  refine ⟨empty_is_success || decide (st1.commands ≠ []), st1, ?_, h2⟩
  unfold BuildList
  rw [if_neg (by simp), h1]

/-- A return that carries the length `L` of its body as its target, executed,
sets the program counter to `L`. -/
theorem executeCase14_patched_return (expression : List Char) (L : Nat) (o : StepOracle)
    (chain : ChainState) (hp : o.parse ≠ ParseOutcome.notExpression) :
    (ExecuteCase14 (returnCommand (some expression) [(L : Int)]) o chain).2.currentCommand
      = (L : Int) := by
  unfold ExecuteCase14 returnCommand
  simp only [List.length_singleton, ne_eq, one_ne_zero, not_false_eq_true, if_true]
  rw [if_neg (by simp [hp])]
  cases hparse : o.parse with
  | notExpression => exact absurd hparse hp
  | expression isVolatile formula =>
    cases isVolatile <;> simp [cacheFormula]

/-! ## Properties of the merge of data sets, of the namespace of an identifier
and of the report of an error -/

/-- For each of the four flags that the builder stores, the executor performs
the operation that the statement named and purges exactly when `purge` was
given, and `toStr` names the other operation. -/
theorem mergeName_of_flag (concatenates purge : Bool) :
    mergeOperation (mergeCommand concatenates purge)
        = (if concatenates then MergeOperation.Concatenate else MergeOperation.Combine)
      ∧ purgesSources (mergeCommand concatenates purge) true = purge
      ∧ mergeName (mergeCommand concatenates purge)
        = (if concatenates then "Combine".toList else "Concatenate".toList) := by
  cases concatenates <;> cases purge <;> decide

/-- C38: for the statement `DataSet ds=Concatenate(a,b)` the builder stores the
flag `1`, the executor concatenates and does not purge, and `toStr` names the
operation `Combine`; for `DataSet ds=Combine(purge,a,b)` the builder stores
`-2`, the executor combines and purges, and `toStr` names the operation
`Concatenate`. -/
theorem mergeName_names_other_operation :
    mergeReading "DataSet ds=Concatenate(a,b)".toList 22 "Concatenate".toList
        = some ([1], MergeOperation.Concatenate, false, "Combine".toList)
      ∧ mergeReading "DataSet ds=Combine(purge,a,b)".toList 18 "Combine".toList
        = some ([-2], MergeOperation.Combine, true, "Concatenate".toList) := by
  decide

/-- A range from the position `lo` to the end of the string is what is left
after dropping `lo` characters. -/
theorem Cut_to_end (s : List Char) (lo : Nat) : Cut s (lo : Int) (-1) = s.drop lo := by
  unfold Cut
  by_cases hlen : s.length = 0
  · have : s = [] := List.length_eq_zero.mp hlen
    subst this
    simp
  · rw [if_neg hlen]
    have h1 : (if (lo : Int) < 0 then (0 : Int) else (lo : Int)) = (lo : Int) := by
      rw [if_neg (by omega)]
    have h2 : (if (-1 : Int) < 0 ∨ (s.length : Int) ≤ -1 then (s.length : Int) - 1 else -1)
        = (s.length : Int) - 1 := by
      rw [if_pos (Or.inl (by omega))]
    simp only [h1, h2]
    by_cases hlo : lo < s.length
    · rw [if_pos (by omega)]
      have h3 : ((s.length : Int) - 1 - (lo : Int) + 1).toNat = s.length - lo := by omega
      rw [h3, Int.toNat_ofNat]
      apply List.take_of_length_le
      simp
    · rw [if_neg (by omega)]
      symm
      apply List.drop_eq_nil_of_le
      omega

/-- An identifier made of the name of the namespace, a dot and `rest` is
trimmed to `rest`. -/
theorem trimNameSpaceFromID_qualified (prefix_name rest : List Char) :
    TrimNameSpaceFromID (some prefix_name) (prefix_name ++ '.' :: rest) = rest := by
  unfold TrimNameSpaceFromID
  have hb : BeginsWith (prefix_name ++ '.' :: rest) prefix_name = true := by
    simp [BeginsWith]
  simp only [hb, if_true]
  have h := Cut_to_end (prefix_name ++ '.' :: rest) (prefix_name.length + 1)
  push_cast at h
  rw [h]
  rw [show prefix_name ++ '.' :: rest = (prefix_name ++ ['.']) ++ rest by simp]
  rw [List.drop_left' (by simp)]

/-- Without a namespace, and for an identifier that does not begin with the
name of the namespace, `TrimNameSpaceFromID` returns the identifier. -/
theorem trimNameSpaceFromID_other (nameSpacePrefix : Option (List Char)) (theID : List Char)
    (h : ∀ p, nameSpacePrefix = some p → BeginsWith theID p = false) :
    TrimNameSpaceFromID nameSpacePrefix theID = theID := by
  unfold TrimNameSpaceFromID
  cases nameSpacePrefix with
  | none => rfl
  | some p => simp [h p rfl]

/-- C39: with the namespace `ab`, `TrimNameSpaceFromID` tests only that the
identifier begins with `ab`, not that a dot follows: the identifier `abcd` is
cut to `d`, and the identifiers `abc` and `ab` are cut to the empty string;
the identifier `ab.x` is trimmed to `x`. -/
theorem trimNameSpaceFromID_cuts_without_dot :
    TrimNameSpaceFromID (some "ab".toList) "abcd".toList = "d".toList
      ∧ TrimNameSpaceFromID (some "ab".toList) "abc".toList = []
      ∧ TrimNameSpaceFromID (some "ab".toList) "ab".toList = []
      ∧ TrimNameSpaceFromID (some "ab".toList) "ab.x".toList = "x".toList := by
  decide

/-- The value of `status` after one command says whether the command
qualifies. -/
theorem tmsStep_status (o : SimpleOracle) (cmd : Command) (acc : SimpleLists)
    (status : Bool) (cmd1 : Command) (acc1 : SimpleLists)
    (h : tmsStep o cmd acc = some (status, cmd1, acc1)) : status = qualifies o cmd := by
  unfold tmsStep at h
  unfold qualifies
  by_cases h0 : cmd.code = 0
  · have h4 : ¬ cmd.code = 4 := by omega
    rw [if_pos h0] at h
    split_ifs at h <;> simp_all
  · rw [if_neg h0] at h
    by_cases h4 : cmd.code = 4
    · rw [if_pos h4] at h
      simp only [] at h
      split_ifs at h <;> simp_all
    · rw [if_neg h4] at h
      simp_all

/-- The loop of `TryToMakeSimple` ends with `status` set exactly when every
command it was given qualifies. -/
theorem tmsLoop_status (o : Nat → SimpleOracle) :
    ∀ (commands : List Command) (k : Nat) (acc : SimpleLists) (status : Bool)
      (commands1 : List Command) (acc1 : SimpleLists),
      tmsLoop o k commands acc = some (status, commands1, acc1) →
      (status = true ↔ ∀ i cmd, commands.get? i = some cmd → qualifies (o (k + i)) cmd = true) := by
  intro commands
  induction commands with
  | nil =>
    intro k acc status commands1 acc1 h
    simp only [tmsLoop, Option.some.injEq, Prod.mk.injEq] at h
    simp [← h.1]
  | cons cmd rest ih =>
    intro k acc status commands1 acc1 h
    simp only [tmsLoop] at h
    split at h
    · exact absurd h (by simp)
    · rename_i c1 a1 hstep
      have hq := tmsStep_status _ _ _ _ _ _ hstep
      simp only [Option.some.injEq, Prod.mk.injEq] at h
      rw [← h.1]
      constructor
      · intro hf
        exact absurd hf (by simp)
      · intro hall
        have := hall 0 cmd rfl
        rw [Nat.add_zero, ← hq] at this
        exact this
    · rename_i c1 a1 hstep
      have hq := tmsStep_status _ _ _ _ _ _ hstep
      split at h
      · exact absurd h (by simp)
      · rename_i s2 r2 a2 hloop
        simp only [Option.some.injEq, Prod.mk.injEq] at h
        rw [← h.1]
        have hrec := ih (k + 1) a1 s2 r2 a2 hloop
        rw [hrec]
        constructor
        · intro hall i c hi
          cases i with
          | zero =>
            simp only [List.get?_cons_zero, Option.some.injEq] at hi
            subst hi
            rw [Nat.add_zero, ← hq]
          | succ j =>
            have := hall j c (by simpa using hi)
            rw [show k + (j + 1) = k + 1 + j by omega]
            exact this
        · intro hall i c hi
          have := hall (i + 1) c (by simpa using hi)
          rw [show k + 1 + i = k + (i + 1) by omega]
          exact this

/-- C31: when `TryToMakeSimple` returns, it returns `true` exactly when every
command of the list qualifies (opcode `0` or `4`, and the checks on its formula
pass); with `true` the fast-path cache `cli` is installed, and with `false`
`cli` is left as it was, so that with no cache before there is none after and
`ExecuteCase0` does not take the fast path for any command. -/
theorem tryToMakeSimple_all_or_nothing (o : Nat → SimpleOracle) (commands : List Command)
    (cli : Option CELInternals) (status : Bool) (commands1 : List Command)
    (cli1 : Option CELInternals)
    (h : TryToMakeSimple o commands cli = some (status, commands1, cli1)) :
    (status = true ↔ ∀ i cmd, commands.get? i = some cmd → qualifies (o i) cmd = true)
      ∧ (status = true → cli1.isSome = true)
      ∧ (status = false → cli1 = cli)
      ∧ (status = false → cli = none →
          ∀ cmd, ExecuteCase0_path cli1 cmd ≠ Case0Path.fast) := by
  unfold TryToMakeSimple at h
  split at h
  · exact absurd h (by simp)
  · rename_i c1 acc hloop
    simp only [Option.some.injEq, Prod.mk.injEq] at h
    have hs := tmsLoop_status o commands 0 _ true c1 acc hloop
    simp only [Nat.zero_add, true_iff] at hs
    obtain ⟨h1, h2, h3⟩ := h
    subst h1
    refine ⟨by simpa using hs, ?_, by simp, by simp⟩
    intro _
    rw [← h3]
    rfl
  · rename_i c1 acc hloop
    simp only [Option.some.injEq, Prod.mk.injEq] at h
    have hs := tmsLoop_status o commands 0 _ false c1 acc hloop
    simp only [Nat.zero_add] at hs
    obtain ⟨h1, h2, h3⟩ := h
    subst h1
    refine ⟨hs, by simp, fun _ => h3.symm, ?_⟩
    intro _ hc cmd
    rw [← h3, hc]
    unfold ExecuteCase0_path
    simp only []
    split_ifs <;> simp

/-- C31, witness: a list of a simple formula statement and an unconditional
jump: `TryToMakeSimple` returns `true` and installs the cache. -/
theorem tryToMakeSimple_all_or_nothing_witness :
    TryToMakeSimple (fun _ => simpleAnswers) [formulaCommand "x=1".toList, jumpTo 2] none
      = some (true,
          [{ formulaCommand "x=1".toList with simpleParameters := [1, 10, 11, -1] }, jumpTo 2],
          some { varList := [], storeResults := [-1, -1] })
      ∧ (some { varList := [], storeResults := [-1, -1] } : Option CELInternals).isSome = true :=
  ⟨by decide,
    (tryToMakeSimple_all_or_nothing (fun _ => simpleAnswers)
      [formulaCommand "x=1".toList, jumpTo 2] none true
      [{ formulaCommand "x=1".toList with simpleParameters := [1, 10, 11, -1] }, jumpTo 2]
      (some { varList := [], storeResults := [-1, -1] }) (by decide)).2.1 rfl⟩

/-- The loop of `TryToMakeSimple` returns when no command makes line 1325 read
outside `simpleParameters`. -/
theorem tmsLoop_returns (o : Nat → SimpleOracle) :
    ∀ (commands : List Command) (k : Nat) (acc : SimpleLists),
      (∀ i cmd a, commands.get? i = some cmd → tmsStep (o (k + i)) cmd a ≠ none) →
      ∃ r, tmsLoop o k commands acc = some r := by
  intro commands
  induction commands with
  | nil =>
    intro k acc _
    exact ⟨_, rfl⟩
  | cons cmd rest ih =>
    intro k acc h
    have h0 := h 0 cmd acc rfl
    rw [Nat.add_zero] at h0
    simp only [tmsLoop]
    cases hstep : tmsStep (o k) cmd acc with
    | none => exact absurd hstep h0
    | some r =>
      obtain ⟨s, c1, a1⟩ := r
      cases s with
      | false => exact ⟨_, rfl⟩
      | true =>
        simp only []
        obtain ⟨r2, hr2⟩ := ih (k + 1) a1 (fun i c a hi => by
          have := h (i + 1) c a (by simpa using hi)
          rw [show k + 1 + i = k + (i + 1) by omega]
          exact this)
        rw [hr2]
        exact ⟨_, rfl⟩

/-- `TryToMakeSimple` returns when no command makes line 1325 read outside
`simpleParameters`. -/
theorem tryToMakeSimple_returns (o : Nat → SimpleOracle) (commands : List Command)
    (cli : Option CELInternals)
    (h : ∀ i cmd a, commands.get? i = some cmd → tmsStep (o i) cmd a ≠ none) :
    ∃ r, TryToMakeSimple o commands cli = some r := by
  obtain ⟨⟨s, c1, a1⟩, hr⟩ := tmsLoop_returns o commands 0
    { varList := [], formulaeToConvert := [], parseCodes := [] }
    (fun i c a hi => by rw [Nat.zero_add]; exact h i c a hi)
  unfold TryToMakeSimple
  rw [hr]
  cases s <;> exact ⟨_, rfl⟩

/-- C35: on a list of a simple formula statement and a command with the opcode
`5`, `TryToMakeSimple` returns `false`, and the formula statement, examined
before the offending command, is left with the four entries of lines 1279-1284
in its `simpleParameters`, which were empty before the call. Before the call
`ExecuteCase0` compiles the statement; after it, it takes the four entries for
a compiled statement and reads a fifth entry beyond them. -/
theorem tryToMakeSimple_failure_leaves_cache :
    TryToMakeSimple (fun _ => simpleAnswers)
        [formulaCommand "x=1".toList,
         { code := 5, text := [], parameters := [], simpleParameters := [] }] none
      = some (false,
          [{ formulaCommand "x=1".toList with simpleParameters := [1, 10, 11, -1] },
           { code := 5, text := [], parameters := [], simpleParameters := [] }], none)
      ∧ ExecuteCase0_path none (formulaCommand "x=1".toList) = Case0Path.compiles
      ∧ ExecuteCase0_path none
          { formulaCommand "x=1".toList with simpleParameters := [1, 10, 11, -1] }
        = Case0Path.interprets true := by
  decide

/-! ## Properties of the stack of the open `if`s -/

/-- `BuildIfThenElse` leaves the entry of its own `if` on `lastif`, whether it
returns `true` or `false`, when the nested calls of `BuildList` leave `lastif`
as they find it: the loop of lines 5032-5034 removes only the entries above
its own. -/
theorem buildIfThenElse_leaves_entry (quote_type : QuoteType) (kw : KeywordTable)
    (nested : List Char → BuildState → Bool × BuildState)
    (hn : ∀ text x, (nested text x).2.lastif = x.lastif)
    (source : List Char) (st : BuildState) (r : Bool × BuildState)
    (h : BuildIfThenElse quote_type kw nested source st = some r) :
    r.2.lastif = st.lastif ++ [(st.commands.length : Int)] := by
  unfold BuildIfThenElse at h
  split at h
  · exact absurd h (by simp)
  · rename_i pieces upto hE
    simp only [] at h
    split at h
    · exact absurd h (by simp)
    · rename_i out hF
      split_ifs at h <;>
        (have h2 := Option.some.inj h
         rw [← h2]
         simp [hn])

/-! ## Properties of the scanners on blanks, literals and comments -/

/-- C33: with a table that holds the keyword `return`, the scan of
`FindNextCommand` on `return x;` leaves two spaces between `return` and `x`:
one for the keyword in front of the blank (line 4625) and one for the
identifier that follows the blank (line 4639). With a table without entries the
same text keeps one space. -/
theorem findNextCommand_doubles_space_after_keyword :
    (fncScan returnKeywordTable "return x;".toList).map (fun e => e.state.result)
        = some "return  x;".toList
      ∧ (fncScan emptyKeywordTable "return x;".toList).map (fun e => e.state.result)
        = some "return x;".toList := by
  decide

/-- C34: on the text `"a\\"`, a literal that ends in an escaped backslash, the
rule of the segmenter and the scan of `FindNextCommand` end outside the
literal, and the scan of `ExtractConditions` ends inside it: line 4846 takes
the closing quote for an escaped one because a backslash stands in front of
it. A `,` after the literal is then no delimiter for `ExtractConditions`. -/
theorem extractConditions_escaped_backslash_keeps_literal_open :
    literalRule escapedBackslashLiteral = QuoteType.normal_text
      ∧ (fncScan emptyKeywordTable escapedBackslashLiteral).map
          (fun e => e.state.literal_state.toQuoteType) = some QuoteType.normal_text
      ∧ (ecLoop escapedBackslashLiteral 0 ',' escapedBackslashLiteral.length
          (ecInit 0 QuoteType.normal_text)).map (fun s => s.quote_type)
        = some QuoteType.double_quote
      ∧ ExtractConditions QuoteType.normal_text (escapedBackslashLiteral ++ ",b".toList) 0 ','
          true
        = some ([escapedBackslashLiteral ++ ",b".toList], 8) := by
  decide

/-- C36: in `a /*/ b; */ c;` the scan of `FindNextCommand` closes the comment
at the `/` that follows the opening `/*`, whose `*` it takes for the `*` of the
closing delimiter (line 4579): the scan stops at the `;` after `b`, at
position `7`, outside any comment, and `b;` is in the statement. In
`a /* b; */ c;` the scan stops at the `;` after `c`, at position `12`. -/
theorem findNextCommand_reuses_comment_star :
    (fncScan emptyKeywordTable "a /*/ b; */ c;".toList).map
        (fun e => (e.state.index, e.state.comment_state, e.state.result))
        = some (7, CommentState.no_comment, "ab;".toList)
      ∧ (fncScan emptyKeywordTable "a /* b; */ c;".toList).map
        (fun e => (e.state.index, e.state.comment_state, e.state.result))
        = some (12, CommentState.no_comment, "ac;".toList) := by
  decide

/-! ## Properties of the scanners on texts that close a comment early -/

/-- C4: in the input made of the comment `/*/ a */`, a `*` and the unclosed
literal that opens with `"abc`, a literal opened outside comments is still
unclosed at the end, yet `FindNextCommand` reports no error and returns the
statement `a*`: the scan takes the comment as closed by `/*/`, opens a new
one at the `/*` behind `a`, and ends inside it. -/
theorem findNextCommand_misses_open_literal :
    FindNextCommand emptyKeywordTable ("/*/ a */* ".toList ++ chDQuote :: "abc".toList)
      = some { error := none, result := "a*".toList, input := [] } := by
  decide

/-- C6: in the input made of the comment `/*/ a */`, a `*` and a `)`, the `)`
lies outside literals and comments and no `(` is open, yet `FindNextCommand`
reports no `Too many closing` error and returns the statement `a*`. -/
theorem findNextCommand_misses_closing :
    FindNextCommand emptyKeywordTable "/*/ a */* )".toList
      = some { error := none, result := "a*".toList, input := [] } := by
  decide

/-- C9: without `include_empty_conditions`, on the empty argument list of
`f()` scanned from offset 2 `ExtractConditions` emits the one segment `)`, and
on `f(a,)` it emits `a` and `)`: the final segment is not left out. With the
flag, on `g(x,(y),z)`, which has two delimiters at depth zero, it emits the two
segments `x` and `(y`, not three. -/
theorem extractConditions_final_segment_not_empty :
    ExtractConditions QuoteType.normal_text "f()".toList 2 ',' false
        = some ([")".toList], 4)
      ∧ ExtractConditions QuoteType.normal_text "f(a,)".toList 2 ',' false
        = some (["a".toList, ")".toList], 6)
      ∧ ExtractConditions QuoteType.normal_text "g(x,(y),z)".toList 2 ',' true
        = some (["x".toList, "(y".toList], 7) := by
  decide

/-- C10: the text holds the literal `"a\\"`, which ends in an escaped
backslash, a `,` and the literal `"b,c"`. `ExtractConditions`, scanning it
from offset 0, does not cut at the `,` between the literals and cuts at the
`,` inside the second literal: the segments are `"a\\","b` and `c"`. -/
theorem extractConditions_splits_inside_literal :
    ExtractConditions QuoteType.normal_text
        ([chDQuote, 'a', chBackslash, chBackslash, chDQuote, ',', chDQuote, 'b', ',', 'c',
          chDQuote]) 0 ',' true
      = some ([[chDQuote, 'a', chBackslash, chBackslash, chDQuote, ',', chDQuote, 'b'],
               ['c', chDQuote]], 12) := by
  decide
/-! ## Properties of the builders on the calls of `BuildList` -/

/-- A call of `BuildList` by a builder is the `BuildList` with
`terminate_execution` clear. -/
theorem nestedBuildList_eq (quote_type : QuoteType) (kw : KeywordTable) (L : Lookup)
    (B : Builders) (empty_is_success : Bool) (text : List Char) (st : BuildState) :
    BuildList quote_type kw L B false empty_is_success text st
      = some (nestedBuildList quote_type kw L B empty_is_success text st) := by
  obtain ⟨o, ho, -⟩ := buildListLoop_total quote_type kw L B text.length text st (le_refl _)
  unfold nestedBuildList BuildList
  rw [if_neg (by simp), ho]
  cases o <;> rfl

/-- With a trie that has no entry for the empty statement, the loop of
`BuildList` goes through the whole buffer and leaves the commands, the stack
`lastif` and the list `bc` as they are. -/
theorem buildListLoop_keeps_list (quote_type : QuoteType) (kw : KeywordTable)
    (L : Lookup) (B : Builders) (hL : L [] = none) :
    ∀ (fuel : Nat) (s : List Char) (st : BuildState), s.length ≤ fuel →
      ∃ st1, buildListLoop quote_type kw L B fuel s st = some (StatementOutcome.goesOn st1)
        ∧ st1.commands = st.commands ∧ st1.lastif = st.lastif ∧ st1.bc = st.bc := by
  intro fuel
  induction fuel with
  | zero =>
    intro s st h
    have hs : s = [] := List.length_eq_zero.mp (by omega)
    subst hs
    exact ⟨st, rfl, rfl, rfl, rfl⟩
  | succ n ih =>
    intro s st h
    by_cases hs : s = []
    · subst hs
      exact ⟨st, rfl, rfl, rfl, rfl⟩
    · obtain ⟨out, hout⟩ := findNextCommand_total kw s
      have hprog := findNextCommand_progress kw s out hs hout
      simp only [buildListLoop]
      rw [if_pos hs, hout]
      simp only []
      by_cases hcl : (if get_char out.result 0 = chRBrace then Cut out.result 1 (-1)
          else out.result) ≠ []
      · rw [if_pos hcl]
        obtain ⟨st1, h1, h2⟩ := ih out.input { st with errors := noteParse out st.errors }
          (by omega)
        exact ⟨st1, h1, h2⟩
      · rw [if_neg hcl]
        have hcl2 : (if get_char out.result 0 = chRBrace then Cut out.result 1 (-1)
            else out.result) = [] := by simpa using hcl
        rw [hcl2]
        have hb : BuildStatement quote_type kw L B [] { st with errors := noteParse out st.errors }
            = some (StatementOutcome.goesOn { st with errors := noteParse out st.errors }) := by
          unfold BuildStatement
          rw [hL]
          rfl
        rw [hb]
        obtain ⟨st1, h1, h2⟩ := ih out.input { st with errors := noteParse out st.errors }
          (by omega)
        exact ⟨st1, h1, h2⟩

/-- With a trie that has no entry for the empty statement, a call of
`BuildList` by a builder leaves the commands, the stack `lastif` and the list
`bc` as they are, and returns `true` exactly when empty lists are allowed or
the list holds a command. -/
theorem nestedBuildList_keeps_list (quote_type : QuoteType) (kw : KeywordTable) (L : Lookup)
    (B : Builders) (hL : L [] = none) (empty_is_success : Bool) (text : List Char)
    (st : BuildState) :
    (nestedBuildList quote_type kw L B empty_is_success text st).2.commands = st.commands
      ∧ (nestedBuildList quote_type kw L B empty_is_success text st).2.lastif = st.lastif
      ∧ (nestedBuildList quote_type kw L B empty_is_success text st).2.bc = st.bc
      ∧ (nestedBuildList quote_type kw L B empty_is_success text st).1
          = (empty_is_success || decide (st.commands ≠ [])) := by
  obtain ⟨st1, h1, h2, h3, h4⟩ :=
    buildListLoop_keeps_list quote_type kw L B hL text.length text st (le_refl _)
  unfold nestedBuildList BuildList
  rw [if_neg (by simp), h1]
  simp only []
  rw [h2]
  exact ⟨rfl, h3, h4, rfl⟩

/-- A `do` statement whose text after the last `}` does not start with
`while(` is rejected: the error is reported, `false` is returned and the list
is left as it was. -/
theorem buildDoWhile_rejects_missing_while (quote_type : QuoteType)
    (nested : List Char → BuildState → Bool × BuildState) (source : List Char)
    (st : BuildState)
    (h : blWhile.isPrefixOf (Cut source (FindBackwards source chRBrace + 1) (-1)) = false) :
    BuildDoWhile quote_type nested source st
      = some (false, { st with errors := st.errors ++ [BuildError.noMatchingWhile] }) := by
  unfold BuildDoWhile
  simp only []
  rw [if_neg]
  rw [h]
  simp

/-- C21: `BuildDoWhile` on the well-formed statement `do{x=1;}while(1)` and a
list that holds one command appends one conditional jump with the targets `1`
and `2`, but the condition of the jump is the text `1)`, not `1`, and no
command of the body stands before it; on an empty list the same statement is
not built at all; and the statement with its closing `;` is rejected as a
malformed while clause. -/
theorem buildDoWhile_condition_keeps_parenthesis :
    BuildDoWhile QuoteType.normal_text listBuilder "do\x7bx=1;\x7dwhile(1)".toList
        oneCommandBuild
        = some (true,
            { commands := [formulaCommand "y=0".toList,
                { code := 4, text := [], parameters := ["1)".toList],
                  simpleParameters := [1, 2] }],
              lastif := [], bc := none, errors := [BuildError.parse FNCError.incomplete] })
      ∧ BuildDoWhile QuoteType.normal_text listBuilder "do\x7bx=1;\x7dwhile(1)".toList
          emptyBuild
        = some (false, { emptyBuild with errors := [BuildError.parse FNCError.incomplete] })
      ∧ BuildDoWhile QuoteType.normal_text listBuilder "do\x7bx=1;\x7dwhile(1);".toList
          emptyBuild
        = some (false, { emptyBuild with errors := [BuildError.malformedWhile] }) := by
  decide

/-- C18: the loop `while(c){continue;}`, built on a list that holds one
command, is the jump on `c` and the jump back to it: no command of the list is
the jump of the `continue`. The loop `for(i=0;i<3;i=i+1){continue;}`, built
on the same list, holds no jump of the `continue` and no command of the
increment either. -/
theorem buildWhile_records_no_continue :
    BuildWhile listBuilder "\x7bcontinue;\x7d".toList (some "c".toList) oneCommandBuild
        = (true, { commands := [formulaCommand "y=0".toList, jumpOn "c".toList 2 3, jumpTo 1],
                   lastif := [], bc := none,
                   errors := [BuildError.parse FNCError.incomplete] })
      ∧ BuildFor listBuilder "\x7bcontinue;\x7d".toList
          (some ("i=0".toList, "i<3".toList, "i=i+1".toList)) oneCommandBuild
        = (true, { commands := [formulaCommand "y=0".toList, Command.ofString "i<3".toList,
                     { code := 4, text := [], parameters := ["i<3".toList],
                       simpleParameters := [3, 3] }],
                   lastif := [], bc := none,
                   errors := [BuildError.parse FNCError.incomplete,
                     BuildError.parse FNCError.incomplete,
                     BuildError.parse FNCError.incomplete] }) := by
  decide

/-- C20: the loop `for(i=0;i<5;i=i+1){x=x*2;}` is not built on an empty list:
the call of `BuildList` on the init appends no command and returns `false`,
and `BuildFor` returns `false`. On a list that holds one command (`b = 1`) it
appends two commands: the command at `1`, the first after the init, is the
text of the condition and is never made a jump, and the command at `2` is the
jump on the condition with both targets `3`; there is no command of the init,
of the body or of the increment, and no jump back to the condition. -/
theorem buildFor_layout_lost :
    BuildFor listBuilder "\x7bx=x*2;\x7d".toList
        (some ("i=0".toList, "i<5".toList, "i=i+1".toList)) emptyBuild
        = (false, { emptyBuild with errors := [BuildError.parse FNCError.incomplete] })
      ∧ BuildFor listBuilder "\x7bx=x*2;\x7d".toList
          (some ("i=0".toList, "i<5".toList, "i=i+1".toList)) oneCommandBuild
        = (true, { commands := [formulaCommand "y=0".toList, Command.ofString "i<5".toList,
                     { code := 4, text := [], parameters := ["i<5".toList],
                       simpleParameters := [3, 3] }],
                   lastif := [], bc := none,
                   errors := [BuildError.parse FNCError.incomplete,
                     BuildError.parse FNCError.incomplete,
                     BuildError.parse FNCError.incomplete] }) := by
  decide
/-! ## Properties of the declarations -/

/-- A text that starts with one of the keywords of a function does not start
with the keyword of a namespace. -/
theorem not_nameSpace_of_function (source : List Char)
    (h : blFunction.isPrefixOf source = true ∨ blFFunction.isPrefixOf source = true
      ∨ blLFunction.isPrefixOf source = true) :
    blNameSpace.isPrefixOf source = false := by
  cases source with
  | nil => rfl
  | cons c rest =>
    by_cases hc : c = 'n'
    · subst hc
      simp [blFunction, blFFunction, blLFunction, List.isPrefixOf] at h
    · simp [blNameSpace, List.isPrefixOf, Ne.symm hc]

/-- With `isInFunction` set, the declaration of a function is rejected at the
head of `ConstructFunction`: the error is reported, `false` is returned, and
the list, the registry, the pending returns and the flag are left as they
were. -/
theorem constructFunction_rejects_when_in_function (h : NameHelpers)
    (quote_type : QuoteType)
    (newList : List Char → DeclState → Bool × List Command × DeclState)
    (nameSpacePrefix : Option (List Char)) (source : List Char) (chain : List Command)
    (g : DeclState)
    (hk : blFunction.isPrefixOf source = true ∨ blFFunction.isPrefixOf source = true
      ∨ blLFunction.isPrefixOf source = true)
    (hg : g.isInFunction = true) :
    ConstructFunction h quote_type newList nameSpacePrefix source chain g
      = some (false, chain, { g with errors := g.errors ++ [BuildError.nestedFunction] }) := by
  unfold ConstructFunction
  simp only []
  rw [if_pos ⟨not_nameSpace_of_function source hk, hg⟩]

/-- C12: on an empty registry the declaration `function f(a,b){return a+b;}`
is refused: `ConstructFunction` reports that the function body is missing,
returns `false` and appends no slot to the tables. On a registry that holds
`f` the declaration `function f(a){return a;}` is refused in the same way and
slot `0` keeps its body, its parameter list and its classification. -/
theorem constructFunction_refuses_declaration :
    ConstructFunction plainNames QuoteType.normal_text listConstructor none
        "function f(a,b)\x7breturn a+b;\x7d".toList [] noDeclarations
        = some (false, [],
            { noDeclarations with errors := [BuildError.missingFunctionBody] })
      ∧ ConstructFunction plainNames QuoteType.normal_text listConstructor none
          "function f(a)\x7breturn a;\x7d".toList []
          { noDeclarations with registry := oneFunctionRegistry [formulaCommand "y=0".toList] }
        = some (false, [],
            { noDeclarations with
              registry := oneFunctionRegistry [formulaCommand "y=0".toList],
              errors := [BuildError.missingFunctionBody] }) := by
  decide

/-- A namespace block is not rejected when `isInFunction` is set: the block
`namespace N{}` appends the command that holds its list and returns `true`;
and it leaves `isInFunction` clear (line 5932). -/
theorem constructFunction_namespace_passes (chain : List Command) :
    ConstructFunction plainNames QuoteType.normal_text listConstructor none
        "namespace N\x7b\x7d".toList chain insideFunction
      = some (true, chain ++ [nestedListCommand 100], noDeclarations) := by
  rfl
/-! ## Properties of `BuildList` on statements with a keyword -/

/-- C23: `BuildList` on the buffer `else x=1;` and an empty list, whose stack
of open `if`s is empty, reports the parse error of `FindNextCommand` only, not
the error of an `else` without an `if`, and returns `true` when empty lists
are allowed; on the buffer `else x=1` followed by an unclosed comment it
reports no error at all. -/
theorem buildList_skips_else_statement :
    BuildList QuoteType.normal_text emptyKeywordTable noKeywords formulaBuilders false true
        "else x=1;".toList emptyBuild
        = some (true, { emptyBuild with errors := [BuildError.parse FNCError.incomplete] })
      ∧ BuildList QuoteType.normal_text emptyKeywordTable noKeywords formulaBuilders false false
          "else x=1;".toList emptyBuild
        = some (false, { emptyBuild with errors := [BuildError.parse FNCError.incomplete] })
      ∧ BuildList QuoteType.normal_text emptyKeywordTable noKeywords formulaBuilders false true
          "else x=1/*".toList emptyBuild
        = some (true, emptyBuild) := by
  decide

/-- C26: with a keyword `Foo(` that takes two arguments, `BuildList` on the
buffer `Foo(a);` reports the parse error of `FindNextCommand` only, not the
error for the number of arguments, and returns `true` when empty lists are
allowed; on `Foo(a)` followed by an unclosed comment it reports no error at
all. And the arguments of `Foo(g(a),b)`, which are two, are cut into the one
piece `g(a`. -/
theorem buildList_skips_argument_count :
    BuildList QuoteType.normal_text emptyKeywordTable fooKeyword formulaBuilders false true
        "Foo(a);".toList emptyBuild
        = some (true, { emptyBuild with errors := [BuildError.parse FNCError.incomplete] })
      ∧ BuildList QuoteType.normal_text emptyKeywordTable fooKeyword formulaBuilders false true
          "Foo(a)/*".toList emptyBuild
        = some (true, emptyBuild)
      ∧ ExtractConditions QuoteType.normal_text "Foo(g(a),b)".toList 4 ',' defaultIncludeEmpty
        = some (["g(a".toList], 8) := by
  decide

/-- C37, counterexample: after `BuildIfThenElse` on the statement `if(c)x=1;`
and an empty list, followed by `BuildList` on the statement `return 2;`, the
entry `0` of the `if` is still on the stack `lastif`. -/
theorem lastif_entry_survives_statement :
    (BuildIfThenElse QuoteType.normal_text emptyKeywordTable listBuilder "if(c)x=1;".toList
        emptyBuild).map (fun r => (r.2.lastif, (listBuilder "return 2;".toList r.2).2.lastif))
      = some ([0], [0]) := by
  decide

/-- C37, amended: when `BuildIfThenElse` returns, with `true` or with `false`,
the stack `lastif` is the stack it found with the position of its own `if` on
top; and a later call of `BuildList` on the list, whatever the statement,
leaves the stack as it is. -/
theorem lastif_entry_stays (quote_type : QuoteType) (kw : KeywordTable) (L : Lookup)
    (B : Builders) (hL : L [] = none) (source : List Char) (st : BuildState)
    (r : Bool × BuildState)
    (h : BuildIfThenElse quote_type kw (nestedBuildList quote_type kw L B false) source st
      = some r) :
    r.2.lastif = st.lastif ++ [(st.commands.length : Int)]
      ∧ ∀ (empty_is_success : Bool) (text : List Char),
          (nestedBuildList quote_type kw L B empty_is_success text r.2).2.lastif
            = r.2.lastif :=
  ⟨buildIfThenElse_leaves_entry quote_type kw _
      (fun text x => (nestedBuildList_keeps_list quote_type kw L B hL false text x).2.1)
      source st r h,
   fun e text => (nestedBuildList_keeps_list quote_type kw L B hL e text r.2).2.1⟩

/-- C37, amended, witness: the statement `if(c)x=1;` on an empty list. -/
theorem lastif_entry_stays_witness :
    ((true, { commands := [{ code := 4, text := [], parameters := ["c)x=1".toList],
                             simpleParameters := [1, 1] }],
              lastif := [0], bc := none,
              errors := [BuildError.ifHeader] }) : Bool × BuildState).2.lastif
        = emptyBuild.lastif ++ [(emptyBuild.commands.length : Int)]
      ∧ ∀ (empty_is_success : Bool) (text : List Char),
          (nestedBuildList QuoteType.normal_text emptyKeywordTable noKeywords formulaBuilders
            empty_is_success text
            ((true, { commands := [{ code := 4, text := [], parameters := ["c)x=1".toList],
                                     simpleParameters := [1, 1] }],
                      lastif := [0], bc := none,
                      errors := [BuildError.ifHeader] }) : Bool × BuildState).2).2.lastif
            = ((true, { commands := [{ code := 4, text := [], parameters := ["c)x=1".toList],
                                       simpleParameters := [1, 1] }],
                        lastif := [0], bc := none,
                        errors := [BuildError.ifHeader] }) : Bool × BuildState).2.lastif :=
  lastif_entry_stays QuoteType.normal_text emptyKeywordTable noKeywords formulaBuilders rfl
    "if(c)x=1;".toList emptyBuild _ (by decide)

/-! ## What the builders make of every text -/

/-- With a trie that has no entry for the empty statement, every `while` loop
with a condition is built as two commands, the jump on the condition and the
jump back to it, whatever the text of its body: the call of `BuildList` on the
body appends no command and records no break and no continue. -/
theorem buildWhile_builds_no_body (quote_type : QuoteType) (kw : KeywordTable) (L : Lookup)
    (B : Builders) (hL : L [] = none) (source cond : List Char) (hcond : cond ≠ [])
    (st : BuildState) :
    (BuildWhile (nestedBuildList quote_type kw L B false) source (some cond) st).1 = true
      ∧ (BuildWhile (nestedBuildList quote_type kw L B false) source (some cond) st).2.commands
          = st.commands
              ++ [jumpOn cond ((st.commands.length : Int) + 1) ((st.commands.length : Int) + 2),
                  jumpTo (st.commands.length : Int)] := by
  have hp : pieceNonempty (some cond) = true := by
    cases cond with
    | nil => exact absurd rfl hcond
    | cons c rest => rfl
  have hne : st.commands ++ [Command.ofString cond] ≠ [] := by simp
  obtain ⟨k1, k2, k3, k4⟩ := nestedBuildList_keeps_list quote_type kw L B hL false
    (if get_char source 0 = chLBrace then Cut source 1 (-1) else source)
    { st with commands := st.commands ++ [Command.ofString cond], bc := some [] }
  simp only [] at k1 k3 k4
  have hflag : (nestedBuildList quote_type kw L B false
      (if get_char source 0 = chLBrace then Cut source 1 (-1) else source)
      { st with commands := st.commands ++ [Command.ofString cond], bc := some [] }).1 = true := by
    rw [k4]
    simp
  have hjump : MakeJumpCommand Command.empty none (st.commands.length : Int) 0
      = (true, jumpTo (st.commands.length : Int)) :=
    makeJumpCommand_empty _ (by omega)
  have hclose : closeLoop (some cond) true (st.commands.length : Int)
      (st.commands ++ [Command.ofString cond])
      = (true, st.commands
          ++ [jumpOn cond ((st.commands.length : Int) + 1) ((st.commands.length : Int) + 2),
              jumpTo (st.commands.length : Int)]) := by
    unfold closeLoop
    simp only [hjump, hp, if_true]
    have happ : st.commands ++ [Command.ofString cond] ++ [jumpTo (st.commands.length : Int)]
        = st.commands ++ Command.ofString cond :: [jumpTo (st.commands.length : Int)] := by
      simp
    have hlen : ((st.commands ++ Command.ofString cond :: [jumpTo (st.commands.length : Int)]).length
        : Int) = (st.commands.length : Int) + 2 := by
      simp only [List.length_append, List.length_cons, List.length_nil]
      push_cast
      omega
    rw [happ, jumpAt_middle, hlen]
    simp only [pieceText]
    rw [makeJumpCommand_ofString cond ((st.commands.length : Int) + 1)
      ((st.commands.length : Int) + 2) (by omega)]
  have hn : pieceNonempty none = false := rfl
  unfold BuildWhile MakeGeneralizedLoop
  simp only [hp, hn, pieceText, Bool.false_eq_true, if_false, and_self, if_true]
  simp [hflag, k1, k3, hclose, resolveBreaksAndContinues]

/-- With a trie that has no entry for the empty statement, a `for` loop with
an init is not built on an empty list, whatever its pieces and its body: the
call of `BuildList` on the init appends no command and returns `false`. -/
theorem buildFor_refused_on_empty_list (quote_type : QuoteType) (kw : KeywordTable)
    (L : Lookup) (B : Builders) (hL : L [] = none) (source init cond increment : List Char)
    (hinit : init ≠ []) (st : BuildState) (hst : st.commands = []) :
    (BuildFor (nestedBuildList quote_type kw L B false) source (some (init, cond, increment))
        st).1 = false
      ∧ (BuildFor (nestedBuildList quote_type kw L B false) source
          (some (init, cond, increment)) st).2.commands = [] := by
  have hp : pieceNonempty (some init) = true := by
    cases init with
    | nil => exact absurd rfl hinit
    | cons c rest => rfl
  obtain ⟨k1, -, -, k4⟩ := nestedBuildList_keeps_list quote_type kw L B hL false init
    { st with bc := none }
  simp only [hst] at k1 k4
  have hflag : (nestedBuildList quote_type kw L B false init
      { commands := [], lastif := st.lastif, bc := none, errors := st.errors }).1 = false := by
    rw [k4]
    simp
  unfold BuildFor MakeGeneralizedLoop
  simp only [hp, pieceText, if_true]
  simp [hflag, k1, hst, cleanUp]

/-- With a trie that has no entry for the empty statement, the loop of
`BuildList` reports parse errors of `FindNextCommand` only, whatever the
buffer: every error in the list afterwards was there before or is a parse
error. -/
theorem buildListLoop_parse_errors_only (quote_type : QuoteType) (kw : KeywordTable)
    (L : Lookup) (B : Builders) (hL : L [] = none) :
    ∀ (fuel : Nat) (s : List Char) (st : BuildState), s.length ≤ fuel →
      ∃ st1, buildListLoop quote_type kw L B fuel s st = some (StatementOutcome.goesOn st1)
        ∧ ∀ e ∈ st1.errors, e ∈ st.errors ∨ ∃ p, e = BuildError.parse p := by
  intro fuel
  induction fuel with
  | zero =>
    intro s st h
    have hs : s = [] := List.length_eq_zero.mp (by omega)
    subst hs
    exact ⟨st, rfl, fun e he => Or.inl he⟩
  | succ n ih =>
    intro s st h
    by_cases hs : s = []
    · subst hs
      exact ⟨st, rfl, fun e he => Or.inl he⟩
    · obtain ⟨out, hout⟩ := findNextCommand_total kw s
      have hprog := findNextCommand_progress kw s out hs hout
      have hnote : ∀ e ∈ noteParse out st.errors, e ∈ st.errors ∨ ∃ p, e = BuildError.parse p := by
        intro e he
        unfold noteParse at he
        cases hoe : out.error with
        | none =>
          rw [hoe] at he
          exact Or.inl he
        | some p =>
          rw [hoe] at he
          simp only [List.mem_append, List.mem_singleton] at he
          rcases he with he | he
          · exact Or.inl he
          · exact Or.inr ⟨p, he⟩
      simp only [buildListLoop]
      rw [if_pos hs, hout]
      simp only []
      obtain ⟨st1, h1, h2⟩ := ih out.input { st with errors := noteParse out st.errors }
        (by omega)
      have hres : ∀ e ∈ st1.errors, e ∈ st.errors ∨ ∃ p, e = BuildError.parse p := by
        intro e he
        rcases h2 e he with h3 | h3
        · exact hnote e h3
        · exact Or.inr h3
      by_cases hcl : (if get_char out.result 0 = chRBrace then Cut out.result 1 (-1)
          else out.result) ≠ []
      · rw [if_pos hcl]
        exact ⟨st1, h1, hres⟩
      · rw [if_neg hcl]
        have hcl2 : (if get_char out.result 0 = chRBrace then Cut out.result 1 (-1)
            else out.result) = [] := by simpa using hcl
        rw [hcl2]
        have hb : BuildStatement quote_type kw L B [] { st with errors := noteParse out st.errors }
            = some (StatementOutcome.goesOn { st with errors := noteParse out st.errors }) := by
          unfold BuildStatement
          rw [hL]
          rfl
        rw [hb]
        exact ⟨st1, h1, hres⟩

/-- With a trie that has no entry for the empty statement, `BuildList` stops
at none of its own errors, whatever the buffer: it returns `true` exactly when
empty lists are allowed or the list held a command, it leaves the commands as
they were, and every error that it reports is a parse error of
`FindNextCommand`. -/
theorem buildList_reports_parse_errors_only (quote_type : QuoteType) (kw : KeywordTable)
    (L : Lookup) (B : Builders) (hL : L [] = none) (empty_is_success : Bool) (s : List Char)
    (st : BuildState) :
    ∃ st1, BuildList quote_type kw L B false empty_is_success s st
        = some (empty_is_success || decide (st.commands ≠ []), st1)
      ∧ st1.commands = st.commands
      ∧ ∀ e ∈ st1.errors, e ∈ st.errors ∨ ∃ p, e = BuildError.parse p := by
  obtain ⟨st1, h1, h2⟩ :=
    buildListLoop_parse_errors_only quote_type kw L B hL s.length s st (le_refl _)
  obtain ⟨st2, h3, h4, -, -⟩ :=
    buildListLoop_keeps_list quote_type kw L B hL s.length s st (le_refl _)
  have hst : st2 = st1 := by
    have := h3.symm.trans h1
    simpa using this
  subst hst
  refine ⟨st2, ?_, h4, h2⟩
  unfold BuildList
  rw [if_neg (by simp), h1]
  simp only [h4]

end HyPhy
